import Mathlib

/-!
# gopls/internal/cache/parsego: the syntax-error recovery layer

A shallow embedding of `parse.go`.

* Go byte slices are lists of bytes; a nil slice result is `none`.
* `token.Pos` is an integer, `token.NoPos` is `0`.
* The base parser (`go/parser`), the scanner (`go/scanner`) and
  `astutil.PurgeFuncBodies` are external collaborators and enter as parameters.
* A Go run-time fault (index or slice bound out of range, an explicit
  library check that aborts) is `Except.error`.
* Calls made by `Parse` and node examinations made by `fixSrc` are logged in
  an extra list so that "how often" and "in which order" can be stated.
-/

namespace parsego

/-- A Go byte slice. -/
abbrev Bytes := List UInt8

namespace scanner

/-- One entry of a go/scanner error list: where, and what. -/
structure Error where
  Offset : Nat
  Line : Nat
  Column : Nat
  Msg : String
deriving DecidableEq, Repr

/-- The list go/parser reports; the parser hands back a nil error exactly
when this list is empty (ErrorList.Err), so nil and the empty list coincide. -/
abbrev ErrorList := List Error

end scanner

namespace token

/-- A go/token position; NoPos is 0. -/
abbrev Pos := Int

/-- The zero position. -/
def NoPos : Pos := 0

/-- Pos.IsValid: the position is not NoPos. -/
def Pos.IsValid (p : Pos) : Bool := decide (p ≠ NoPos)

/-- A go/token file: its base, its size and the table of line-start offsets
(strictly increasing and starting with 0 in every file go/token builds). -/
structure File where
  base : Nat
  size : Nat
  lines : List Nat
deriving DecidableEq, Repr

/-- File.LineCount. -/
def File.LineCount (f : File) : Nat := f.lines.length

/-- File.LineStart: go/token aborts for a line number outside 1..LineCount. -/
def File.LineStart (f : File) (line : Nat) : Except String Pos :=
  if line < 1 then .error "invalid line number (should be >= 1)"
  else
    match f.lines.get? (line - 1) with
    | none => .error "invalid line number (should be < LineCount+1)"
    | some start => .ok ((f.base : Int) + (start : Int))

/-- File.fixOffset: an offset outside 0..size is clamped. -/
def File.fixOffset (f : File) (offset : Int) : Nat :=
  if offset < 0 then 0 else if offset > (f.size : Int) then f.size else offset.toNat

/-- The line of a position as File.PositionFor(p, false) computes it: 0 for
NoPos, else one more than the index of the last line start that is not
after the clamped offset (go/token finds it by binary search in the sorted
table; on a sorted table that index is the length of the leading run of
line starts not after the offset, less one). -/
def File.unadjustedLine (f : File) (p : Pos) : Nat :=
  if p = NoPos then 0
  else (f.lines.takeWhile (fun start => decide (start ≤ f.fixOffset (p - (f.base : Int))))).length

/-- The list of numbers is strictly increasing. -/
def increasing : List Nat → Bool
  | [] => true
  | [_] => true
  | a :: b :: rest => decide (a < b) && increasing (b :: rest)

/-- The invariants go/token keeps for every file it hands out: the base is
positive, the line starts are strictly increasing and none lies beyond the
size. -/
def File.valid (f : File) : Bool :=
  decide (1 ≤ f.base) && increasing f.lines && f.lines.all (fun start => decide (start ≤ f.size))

/-- The lexical tokens of go/token (those this file distinguishes by name;
every keyword and every other operator keeps its spelling). -/
inductive Token where
  | ILLEGAL
  | EOF
  | COMMENT
  | IDENT
  | INT
  | STRING
  | PERIOD
  | SEMICOLON
  | COMMA
  | LPAREN
  | RPAREN
  | LBRACE
  | RBRACE
  | keyword (name : String)
  | operator (name : String)
deriving DecidableEq, Repr

/-- The reserved words of Go, the keyword range of go/token's token table. -/
def keywords : List String :=
  ["break", "case", "chan", "const", "continue", "default", "defer", "else", "fallthrough",
   "for", "func", "go", "goto", "if", "import", "interface", "map", "package", "range",
   "return", "select", "struct", "switch", "type", "var"]

/-- The test token.Lookup(ident).IsKeyword(): the identifier is a reserved word. -/
def IsKeyword (ident : String) : Bool := keywords.contains ident

end token

namespace safetoken

/-- Modelled from the spec: safetoken.inRange is not among the sources. A
position is in a file when it lies between the file's base and base+size,
so that it resolves to an offset within 0..size (section 8, coordinate
validity). -/
def inRange (f : token.File) (pos : token.Pos) : Bool :=
  decide ((f.base : Int) ≤ pos) && decide (pos ≤ (f.base : Int) + (f.size : Int))

/-- Modelled from the spec: safetoken.Offset is not among the sources. It is
the checked form of File.Offset: a position outside the file is an error
(none), on which a fixer declines (section 7), and otherwise the offset
is pos - base. As in the repository it also accepts the position one byte
past the end of the file, which error recovery in go/parser can produce,
and maps it to the end offset. -/
def Offset (f : token.File) (pos : token.Pos) : Option Nat :=
  if inRange f pos then some (pos - (f.base : Int)).toNat
  else if pos = (f.base : Int) + (f.size : Int) + 1 then some f.size
  else none

/-- Modelled from the spec: safetoken.Line is not among the sources. It is
the line number of a position, line directives ignored; the position one
byte past the end of the file counts as the end of the file. -/
def Line (f : token.File) (pos : token.Pos) : Nat :=
  if pos = (f.base : Int) + (f.size : Int) + 1 then f.unadjustedLine (pos - 1)
  else f.unadjustedLine pos

end safetoken

namespace ast

open token (Pos)

/-- An *ast.Ident. -/
structure Ident where
  NamePos : Pos
  Name : String
deriving DecidableEq, Repr

/-- An *ast.Comment. -/
structure Comment where
  Slash : Pos
  Text : String
deriving DecidableEq, Repr

/-- An *ast.CommentGroup; its list is never empty. -/
structure CommentGroup where
  first : Comment
  rest : List Comment
deriving DecidableEq, Repr

/-- An *ast.FieldList of a function without parameters. -/
structure FieldList where
  Opening : Pos
  Closing : Pos
deriving DecidableEq, Repr

/-- An *ast.FuncType of a function without type parameters and results. -/
structure FuncType where
  Func : Pos
  Params : FieldList
deriving DecidableEq, Repr

mutual
/-- The expressions of go/ast covered here. -/
inductive Expr where
  | BadExpr (From To : Pos)
  | Ident (id : ast.Ident)
  | BasicLit (ValuePos : Pos) (Value : String)
  | ParenExpr (Lparen : Pos) (X : Expr) (Rparen : Pos)
  | SelectorExpr (X : Expr) (Sel : ast.Ident)
  | CallExpr (Fun : Expr) (Lparen : Pos) (Args : List Expr) (Ellipsis : Pos) (Rparen : Pos)
  | FuncLit (Typ : ast.FuncType) (Body : Block)
/-- The statements of go/ast covered here (the field List of a CaseClause is
called Values). -/
inductive Stmt where
  | BadStmt (From To : Pos)
  | ExprStmt (X : Expr)
  | BlockStmt (b : Block)
  | IfStmt (If : Pos) (Init : Option Stmt) (Cond : Expr) (Body : Block) (Else : Option Stmt)
  | ForStmt (For : Pos) (Init : Option Stmt) (Cond : Option Expr) (Post : Option Stmt) (Body : Block)
  | SwitchStmt (Switch : Pos) (Init : Option Stmt) (Tag : Option Expr) (Body : Block)
  | CaseClause (Case : Pos) (Values : List Expr) (Colon : Pos) (Body : List Stmt)
/-- The struct ast.BlockStmt. -/
inductive Block where
  | mk (Lbrace : Pos) (List : List Stmt) (Rbrace : Pos)
end

/-- The declarations of go/ast covered here. -/
inductive Decl where
  | BadDecl (From To : Pos)
  | FuncDecl (Doc : Option CommentGroup) (Name : Ident) (Typ : FuncType) (Body : Option Block)

/-- An *ast.File. -/
structure File where
  Doc : Option CommentGroup
  Package : Pos
  Name : Ident
  Decls : List Decl
  FileStart : Pos
  FileEnd : Pos
  Comments : List CommentGroup

/-- A value of the interface ast.Node: one constructor per dynamic type family. -/
inductive Node where
  | Comment (c : ast.Comment)
  | CommentGroup (g : ast.CommentGroup)
  | FieldList (l : ast.FieldList)
  | FuncType (t : ast.FuncType)
  | Expr (e : ast.Expr)
  | Stmt (s : ast.Stmt)
  | Decl (d : ast.Decl)
  | File (f : ast.File)

/-- Ident.Pos. -/
def Ident.Pos (id : Ident) : token.Pos := id.NamePos

/-- Ident.End: the position after the last byte of the name. -/
def Ident.End (id : Ident) : token.Pos := id.NamePos + (id.Name.utf8ByteSize : Int)

/-- Comment.Pos. -/
def Comment.Pos (c : Comment) : token.Pos := c.Slash

/-- Comment.End. -/
def Comment.End (c : Comment) : token.Pos := c.Slash + (c.Text.utf8ByteSize : Int)

/-- CommentGroup.Pos: the position of the first comment. -/
def CommentGroup.Pos (g : CommentGroup) : token.Pos := g.first.Pos

/-- CommentGroup.End: the end of the last comment. -/
def CommentGroup.End (g : CommentGroup) : token.Pos := (g.rest.getLast?.getD g.first).End

/-- FieldList.Pos, for a list without fields. -/
def FieldList.Pos (l : FieldList) : token.Pos := if l.Opening.IsValid then l.Opening else token.NoPos

/-- FieldList.End, for a list without fields. -/
def FieldList.End (l : FieldList) : token.Pos := if l.Closing.IsValid then l.Closing + 1 else token.NoPos

/-- FuncType.Pos. -/
def FuncType.Pos (t : FuncType) : token.Pos := if t.Func.IsValid then t.Func else t.Params.Pos

/-- FuncType.End, without results. -/
def FuncType.End (t : FuncType) : token.Pos := t.Params.End

/-- Expr.Pos, per dynamic type. -/
def Expr.Pos : Expr → token.Pos
  | .BadExpr frm _ => frm
  | .Ident id => id.Pos
  | .BasicLit p _ => p
  | .ParenExpr l _ _ => l
  | .SelectorExpr x _ => x.Pos
  | .CallExpr f _ _ _ _ => f.Pos
  | .FuncLit t _ => t.Pos

/-- Stmt.Pos, per dynamic type. -/
def Stmt.Pos : Stmt → token.Pos
  | .BadStmt frm _ => frm
  | .ExprStmt x => x.Pos
  | .BlockStmt (.mk l _ _) => l
  | .IfStmt p _ _ _ _ => p
  | .ForStmt p _ _ _ _ => p
  | .SwitchStmt p _ _ _ => p
  | .CaseClause p _ _ _ => p

mutual
/-- Expr.End, per dynamic type. -/
def Expr.End : Expr → token.Pos
  | .BadExpr _ t => t
  | .Ident id => id.End
  | .BasicLit p v => p + (v.utf8ByteSize : Int)
  | .ParenExpr _ _ r => r + 1
  | .SelectorExpr _ sel => sel.End
  | .CallExpr _ _ _ _ r => r + 1
  | .FuncLit _ b => b.End
/-- BlockStmt.End: after the closing brace when it has a position, else the
end of the last statement, else after the opening brace. -/
def Block.End : Block → token.Pos
  | .mk l list r => if r.IsValid then r + 1 else lastEnd list (l + 1)
/-- The End of the last statement of a list; the second argument for an empty list. -/
def lastEnd : List Stmt → token.Pos → token.Pos
  | [], d => d
  | s :: rest, _ => lastEnd rest s.End
/-- Stmt.End, per dynamic type. -/
def Stmt.End : Stmt → token.Pos
  | .BadStmt _ t => t
  | .ExprStmt x => x.End
  | .BlockStmt b => b.End
  | .IfStmt _ _ _ body els =>
    match els with
    | some e => e.End
    | none => body.End
  | .ForStmt _ _ _ _ body => body.End
  | .SwitchStmt _ _ _ body => body.End
  | .CaseClause _ _ colon body => lastEnd body (colon + 1)
end

/-- Decl.Pos. -/
def Decl.Pos : Decl → token.Pos
  | .BadDecl frm _ => frm
  | .FuncDecl _ _ t _ => t.Pos

/-- Node.Pos: the method Pos of the interface, dispatched on the dynamic type. -/
def Node.Pos : Node → token.Pos
  | .Comment c => c.Pos
  | .CommentGroup g => g.Pos
  | .FieldList l => l.Pos
  | .FuncType t => t.Pos
  | .Expr e => e.Pos
  | .Stmt s => s.Pos
  | .Decl d => d.Pos
  | .File f => f.Package

/-- An optional child, as the list of nodes ast.Walk visits for it. -/
def optNode {α : Type} (wrap : α → Node) : Option α → List Node
  | none => []
  | some a => [wrap a]

/-- The children of a node in the order in which ast.Walk visits them. -/
def children : Node → List Node
  | .Comment _ => []
  | .CommentGroup g => Node.Comment g.first :: g.rest.map Node.Comment
  | .FieldList _ => []
  | .FuncType t => [Node.FieldList t.Params]
  | .Expr (.BadExpr _ _) => []
  | .Expr (.Ident _) => []
  | .Expr (.BasicLit _ _) => []
  | .Expr (.ParenExpr _ x _) => [Node.Expr x]
  | .Expr (.SelectorExpr x sel) => [Node.Expr x, Node.Expr (.Ident sel)]
  | .Expr (.CallExpr f _ args _ _) => Node.Expr f :: args.map Node.Expr
  | .Expr (.FuncLit t b) => [Node.FuncType t, Node.Stmt (.BlockStmt b)]
  | .Stmt (.BadStmt _ _) => []
  | .Stmt (.ExprStmt x) => [Node.Expr x]
  | .Stmt (.BlockStmt (.mk _ list _)) => list.map Node.Stmt
  | .Stmt (.IfStmt _ init cond body els) =>
    optNode Node.Stmt init ++ [Node.Expr cond, Node.Stmt (.BlockStmt body)] ++ optNode Node.Stmt els
  | .Stmt (.ForStmt _ init cond post body) =>
    optNode Node.Stmt init ++ optNode Node.Expr cond ++ optNode Node.Stmt post
      ++ [Node.Stmt (.BlockStmt body)]
  | .Stmt (.SwitchStmt _ init tag body) =>
    optNode Node.Stmt init ++ optNode Node.Expr tag ++ [Node.Stmt (.BlockStmt body)]
  | .Stmt (.CaseClause _ values _ body) => values.map Node.Expr ++ body.map Node.Stmt
  | .Decl (.BadDecl _ _) => []
  | .Decl (.FuncDecl doc name t body) =>
    optNode Node.CommentGroup doc ++ [Node.Expr (.Ident name), Node.FuncType t]
      ++ optNode (fun b => Node.Stmt (.BlockStmt b)) body
  | .File f =>
    optNode Node.CommentGroup f.Doc ++ [Node.Expr (.Ident f.Name)] ++ f.Decls.map Node.Decl

mutual
/-- The number of nodes of an expression. -/
def Expr.size : Expr → Nat
  | .BadExpr _ _ => 1
  | .Ident _ => 1
  | .BasicLit _ _ => 1
  | .ParenExpr _ x _ => x.size + 1
  | .SelectorExpr x _ => x.size + 2
  | .CallExpr f _ args _ _ => f.size + sizeExprs args + 1
  | .FuncLit _ b => b.size + 3
/-- The number of nodes of a list of expressions. -/
def sizeExprs : List Expr → Nat
  | [] => 0
  | e :: es => e.size + sizeExprs es
/-- The number of nodes of a block statement. -/
def Block.size : Block → Nat
  | .mk _ list _ => sizeStmts list + 1
/-- The number of nodes of a list of statements. -/
def sizeStmts : List Stmt → Nat
  | [] => 0
  | s :: ss => s.size + sizeStmts ss
/-- The number of nodes of an optional statement. -/
def sizeOptStmt : Option Stmt → Nat
  | none => 0
  | some s => s.size
/-- The number of nodes of an optional expression. -/
def sizeOptExpr : Option Expr → Nat
  | none => 0
  | some e => e.size
/-- The number of nodes of a statement. -/
def Stmt.size : Stmt → Nat
  | .BadStmt _ _ => 1
  | .ExprStmt x => x.size + 1
  | .BlockStmt b => b.size
  | .IfStmt _ init cond body els => sizeOptStmt init + cond.size + body.size + sizeOptStmt els + 1
  | .ForStmt _ init cond post body =>
    sizeOptStmt init + sizeOptExpr cond + sizeOptStmt post + body.size + 1
  | .SwitchStmt _ init tag body => sizeOptStmt init + sizeOptExpr tag + body.size + 1
  | .CaseClause _ values _ body => sizeExprs values + sizeStmts body + 1
end

/-- The number of nodes of a declaration. -/
def Decl.size : Decl → Nat
  | .BadDecl _ _ => 1
  | .FuncDecl doc _ _ body =>
    (match doc with
      | none => 0
      | some g => g.rest.length + 2)
    + (match body with
      | none => 0
      | some b => b.size) + 4

/-- The number of nodes ast.Walk visits below and including a node. -/
def Node.size : Node → Nat
  | .Comment _ => 1
  | .CommentGroup g => g.rest.length + 2
  | .FieldList _ => 1
  | .FuncType _ => 2
  | .Expr e => e.size
  | .Stmt s => s.size
  | .Decl d => d.size
  | .File f =>
    (match f.Doc with
      | none => 0
      | some g => g.rest.length + 2)
    + (f.Decls.map Decl.size).sum + 2

/-- The traversal of PreorderStack below one node; the first argument bounds
the depth still to be descended. -/
def PreorderStack.walk {σ : Type} (f : σ → Node → List Node → σ × Bool) :
    Nat → Node → List Node → σ → σ
  | 0, _, _, s => s
  | depth + 1, n, stack, s =>
    let r := f s n stack
    if r.2 then (children n).foldl (fun acc c => PreorderStack.walk f depth c (stack ++ [n]) acc) r.1
    else r.1

/-- The nodes below and including a node in depth-first pre-order, a node
before its children, each with the stack of its ancestors (the enclosing
node last); the first argument bounds the depth. -/
def preorder.walk : Nat → Node → List Node → List (Node × List Node)
  | 0, _, _ => []
  | depth + 1, n, stack =>
    (n, stack) :: ((children n).map (fun c => preorder.walk depth c (stack ++ [n]))).flatten

/-- The nodes of a tree in depth-first pre-order, each with its ancestors. -/
def preorder (root : Node) (stack : List Node) : List (Node × List Node) :=
  preorder.walk root.size root stack

end ast

namespace astutil

/-- Modelled from the spec: internal/astutil.PreorderStack is not among the
sources. It visits the tree depth-first, parent before children (section
4.1); f is called on each node together with the stack of its ancestors
(the enclosing node last), and the children of a node are visited only when
f returns true for it. The depth bound handed to the traversal is the
number of nodes of the tree, which no path exceeds. -/
def PreorderStack {σ : Type} (root : ast.Node) (stack : List ast.Node)
    (f : σ → ast.Node → List ast.Node → σ × Bool) (init : σ) : σ :=
  ast.PreorderStack.walk f root.size root stack init

end astutil

/-- The tag of a repair rule (parse.go lines 218-229). -/
inductive FixType where
  | noFix
  | FixedCurlies
  | FixedDanglingSelector
  | FixedDeferOrGo
  | FixedArrayType
  | FixedInit
  | FixedPhantomSelector
  | FixedEmptySwitch
deriving DecidableEq, Repr

/-- The tag is one of the two that fixSrc gives a new buffer (lines 246 and
251); the other tags are appended by fixAST (lines 163-205). -/
def FixType.isSrcFix : FixType → Bool
  | .FixedCurlies => true
  | .FixedDanglingSelector => true
  | _ => false

/-- The byte of an underscore. -/
def chUnderscore : UInt8 := 95

/-- The byte of a period. -/
def chPeriod : UInt8 := 46

/-- The byte of a semicolon. -/
def chSemicolon : UInt8 := 59

/-- The byte of an opening curly brace. -/
def chLbrace : UInt8 := 123

/-- The byte of a closing curly brace. -/
def chRbrace : UInt8 := 125

/-- The go/scanner as a collaborator: for a token file and a buffer, the
(position, token) pairs that successive calls of Scan return before it
reports the end of the file. -/
abbrev Scanner := token.File → Bytes → List (token.Pos × token.Token)

/-- The loop of precedingToken (lines 629-636) over the results of Scan;
running out of results is Scan returning EOF. -/
def precedingToken.loop (pos : token.Pos) : List (token.Pos × token.Token) → token.Token → token.Token
  | [], lastTok => lastTok
  | (p, t) :: rest, lastTok =>
    if t = token.Token.EOF ∨ p ≥ pos then lastTok else precedingToken.loop pos rest t

/-- precedingToken (lines 623-638). Scanner.Init aborts when the size of the
token file differs from the length of the buffer. -/
def precedingToken (scan : Scanner) (pos : token.Pos) (tok : token.File) (src : Bytes) :
    Except String token.Token :=
  if tok.size ≠ src.length then .error "file size does not match src len"
  else .ok (precedingToken.loop pos (scan tok src) token.Token.ILLEGAL)

/-- isPhantomUnderscore (lines 485-492). -/
def isPhantomUnderscore (id : ast.Ident) (tok : token.File) (src : Bytes) : Bool :=
  if id.Name = "_" then
    match safetoken.Offset tok id.Pos with
    | none => false
    | some offset => decide (offset < src.length) && decide (src.get? offset ≠ some chUnderscore)
  else false

/-- fixDanglingSelector (lines 420-440), applied to the fields X and Sel of
the selector expression. Reading src at an index that is not below its
length is a run-time fault. -/
def fixDanglingSelector (X : ast.Expr) (Sel : ast.Ident) (tf : token.File) (src : Bytes) :
    Except String (Option Bytes) :=
  if !isPhantomUnderscore Sel tf src then .ok none
  else if !X.End.IsValid then .ok none
  else
    match safetoken.Offset tf X.End with
    | none => .ok none
    | some offset =>
      let insertOffset := offset + 1
      match src.get? (insertOffset - 1) with
      | none => .error "index out of range"
      | some c =>
        if c ≠ chPeriod then .ok none
        else .ok (some (src.take insertOffset ++ [chUnderscore] ++ src.drop insertOffset))

/-- One pass of the inner loop over f.Comments (lines 305-310): the insertion
position and whether the pass moved it. -/
def commentPass (comments : List ast.CommentGroup) (insertPos : token.Pos) : token.Pos × Bool :=
  comments.foldl
    (fun acc c => if c.Pos < acc.1 ∧ acc.1 ≤ c.End then (c.Pos, true) else acc)
    (insertPos, false)

/-- The loop `for didSomething` (lines 302-311), with the number of passes
still allowed. -/
def backOutOfComments.loop (comments : List ast.CommentGroup) : Nat → token.Pos → token.Pos
  | 0, insertPos => insertPos
  | passes + 1, insertPos =>
    let r := commentPass comments insertPos
    if r.2 then backOutOfComments.loop comments passes r.1 else r.1

/-- The loop `for didSomething` (lines 302-311). Every pass that moves the
position moves it to the start of a comment that lies before it, so there
are at most as many such passes as comments, and one more pass ends the loop. -/
def backOutOfComments (comments : List ast.CommentGroup) (insertPos : token.Pos) : token.Pos :=
  backOutOfComments.loop comments (comments.length + 1) insertPos

/-- The test of lines 339-347: the parent is a for statement whose Cond is not
a BadExpr and whose Post is an expression statement of a BadExpr. -/
def needsSemicolon : ast.Node → Bool
  | .Stmt (.ForStmt _ _ (some (.BadExpr _ _)) _ _) => false
  | .Stmt (.ForStmt _ _ _ (some (.ExprStmt (.BadExpr _ _))) _) => true
  | _ => false

/-- The test of lines 272-280, with its two ways of declining: the opening
brace has a position, and that position is outside the file or the byte
there is the brace. -/
def hasLbrace (lbrace : token.Pos) (tok : token.File) (src : Bytes) : Bool :=
  lbrace.IsValid &&
    (match safetoken.Offset tok lbrace with
      | none => true
      | some braceOffset =>
        decide (braceOffset < src.length) && decide (src.get? braceOffset = some chLbrace))

/-- fixMissingCurlies (lines 269-354). Slicing src beyond its length is a
run-time fault. -/
def fixMissingCurlies (scan : Scanner) (f : ast.File) (b : ast.Block) (parent : ast.Node)
    (tok : token.File) (src : Bytes) : Except String (Option Bytes) :=
  match b with
  | .mk lbrace _ _ =>
    if hasLbrace lbrace tok src then .ok none
    else
      let parentLine := safetoken.Line tok parent.Pos
      if parentLine ≥ tok.LineCount then .ok none
      else
        match tok.LineStart (parentLine + 1) with
        | .error e => .error e
        | .ok lineStart =>
          let insertPos := backOutOfComments f.Comments (lineStart - 1)
          match precedingToken scan insertPos tok src with
          | .error e => .error e
          | .ok t =>
            if t = token.Token.IDENT ∨ t = token.Token.PERIOD then
              match safetoken.Offset tok insertPos with
              | none => .ok none
              | some offset =>
                if offset > src.length then .error "slice bounds out of range"
                else
                  .ok (some (src.take offset
                    ++ (if needsSemicolon parent then [chSemicolon] else [])
                    ++ [chLbrace, chRbrace] ++ src.drop offset))
            else .ok none

/-- The Go conversion string(b) for bytes below 128, which are the only ones
readKeyword collects: one character per byte. -/
def bytesToString (b : Bytes) : String := String.mk (b.map (fun c => Char.ofNat c.toNat))

/-- The loop of readKeyword (lines 560-571) over the bytes from the offset
on, with the bytes collected so far; none when the loop returns the empty
string because more than 15 bytes were collected. -/
def readKeyword.loop : Bytes → Bytes → Option Bytes
  | [], kwBytes => some kwBytes
  | b :: rest, kwBytes =>
    if b < 97 ∨ b > 122 then some kwBytes
    else if (kwBytes ++ [b]).length > 15 then none
    else readKeyword.loop rest (kwBytes ++ [b])

/-- readKeyword (lines 554-578). -/
def readKeyword (pos : token.Pos) (tok : token.File) (src : Bytes) : String :=
  match safetoken.Offset tok pos with
  | none => ""
  | some offset =>
    match readKeyword.loop (src.drop offset) [] with
    | none => ""
    | some kwBytes =>
      if token.IsKeyword (bytesToString kwBytes) then bytesToString kwBytes else ""

/-- The byte is a lowercase ASCII letter. -/
def isLowercase (b : UInt8) : Bool := decide (97 ≤ b) && decide (b ≤ 122)

/-- The maximal run of lowercase ASCII letters of src that starts at an offset. -/
def lowercaseRun (src : Bytes) (offset : Nat) : Bytes := (src.drop offset).takeWhile isLowercase

namespace reflect

/-- A pointer to a node: its pointer type and the address it holds. Two
pointers are identical when type and address agree; the address 0 is the
nil pointer. -/
structure Pointer where
  typ : String
  addr : Nat
deriving DecidableEq, Repr

/-- A settable location of a struct, a field or an element of a slice, as
reflect presents it: of an interface type, holding a pointer or nil; of a
pointer type, holding a pointer; or of any other kind. All fields of the
structs of go/ast are exported, so every location can be set and read. -/
inductive Value where
  | Interface (typ : String) (elem : Option Pointer)
  | Pointer (p : reflect.Pointer)
  | Other
deriving DecidableEq, Repr

/-- A field of a struct: a single location, or a slice of locations. -/
inductive Field where
  | Single (v : Value)
  | Slice (elems : List Value)
deriving DecidableEq, Repr

/-- The value behind the interface parent of replaceNode: the nil interface, a
nil pointer, or a pointer to a struct with its fields in order. -/
inductive Parent where
  | nil
  | nilPointer
  | struct (fields : List Field)
deriving DecidableEq, Repr

/-- The comparison v.Interface() == oldChild for a non-nil oldChild. -/
def Value.identical (v : Value) (oldChild : reflect.Pointer) : Bool :=
  match v with
  | .Interface _ elem => decide (elem = some oldChild)
  | .Pointer p => decide (p = oldChild)
  | .Other => false

/-- The test newChildVal.Type().AssignableTo(v.Type()): a pointer type can
be assigned to an interface type it implements and to the same pointer
type; which pointer types implement which interfaces is the first argument. -/
def Value.assignable (implements : String → String → Bool) (typ : String) (v : Value) : Bool :=
  match v with
  | .Interface iface _ => implements typ iface
  | .Pointer p => decide (typ = p.typ)
  | .Other => false

/-- The call v.Set(newChildVal). -/
def Value.set (v : Value) (newChild : reflect.Pointer) : Value :=
  match v with
  | .Interface iface _ => .Interface iface (some newChild)
  | .Pointer _ => .Pointer newChild
  | .Other => .Other

/-- The locations of a list of fields, in field order, the elements of a
slice in index order. -/
def slots : List Field → List Value
  | [] => []
  | .Single v :: rest => v :: slots rest
  | .Slice elems :: rest => elems ++ slots rest

/-- The layout of a field: nothing for a single location, the length for a slice. -/
def Field.layout : Field → Option Nat
  | .Single _ => none
  | .Slice elems => some elems.length

end reflect

/-- The function literal tryReplace of replaceNode (lines 905-918): the
location after the replacement when it returns true, none when it returns
false. -/
def tryReplace (implements : String → String → Bool) (oldChild newChild : reflect.Pointer)
    (v : reflect.Value) : Option reflect.Value :=
  if v.identical oldChild && v.assignable implements newChild.typ then some (v.set newChild)
  else none

/-- The loop over the elements of a slice field (lines 933-937): the slice
after the first replacement, none when no element is replaced. -/
def replaceNode.slice (implements : String → String → Bool) (oldChild newChild : reflect.Pointer) :
    List reflect.Value → Option (List reflect.Value)
  | [] => none
  | v :: rest =>
    match tryReplace implements oldChild newChild v with
    | some v' => some (v' :: rest)
    | none => (replaceNode.slice implements oldChild newChild rest).map (fun r => v :: r)

/-- The loop over the fields of the parent (lines 921-939): the fields after
the first replacement, none when nothing is replaced. -/
def replaceNode.fields (implements : String → String → Bool) (oldChild newChild : reflect.Pointer) :
    List reflect.Field → Option (List reflect.Field)
  | [] => none
  | .Single .Other :: rest =>
    (replaceNode.fields implements oldChild newChild rest).map (fun r => .Single .Other :: r)
  | .Single v :: rest =>
    match tryReplace implements oldChild newChild v with
    | some v' => some (.Single v' :: rest)
    | none => (replaceNode.fields implements oldChild newChild rest).map (fun r => .Single v :: r)
  | .Slice elems :: rest =>
    match replaceNode.slice implements oldChild newChild elems with
    | some elems' => some (.Slice elems' :: rest)
    | none =>
      (replaceNode.fields implements oldChild newChild rest).map (fun r => .Slice elems :: r)

/-- replaceNode (lines 893-942): the returned boolean and the parent after
the call. An interface argument is none when it is the nil interface. -/
def replaceNode (implements : String → String → Bool) (parent : reflect.Parent)
    (oldChild newChild : Option reflect.Pointer) : Bool × reflect.Parent :=
  match parent, oldChild, newChild with
  | .struct fields, some old, some new =>
    match replaceNode.fields implements old new fields with
    | some fields' => (true, .struct fields')
    | none => (false, parent)
  | _, _, _ => (false, parent)

namespace ast

/-- The dynamic type of an expression. -/
def Expr.typ : Expr → String
  | .BadExpr _ _ => "*ast.BadExpr"
  | .Ident _ => "*ast.Ident"
  | .BasicLit _ _ => "*ast.BasicLit"
  | .ParenExpr _ _ _ => "*ast.ParenExpr"
  | .SelectorExpr _ _ => "*ast.SelectorExpr"
  | .CallExpr _ _ _ _ _ => "*ast.CallExpr"
  | .FuncLit _ _ => "*ast.FuncLit"

/-- The pointer type implements the interface, for the node types covered
here: every node is an ast.Node, the expressions are ast.Expr, the
statements ast.Stmt and the declarations ast.Decl. -/
def implements (typ iface : String) : Bool :=
  if iface = "ast.Node" then true
  else if iface = "ast.Expr" then
    ["*ast.BadExpr", "*ast.Ident", "*ast.BasicLit", "*ast.ParenExpr", "*ast.SelectorExpr",
      "*ast.CallExpr", "*ast.FuncLit"].contains typ
  else if iface = "ast.Stmt" then
    ["*ast.BadStmt", "*ast.ExprStmt", "*ast.BlockStmt", "*ast.IfStmt", "*ast.ForStmt",
      "*ast.SwitchStmt", "*ast.CaseClause"].contains typ
  else if iface = "ast.Decl" then ["*ast.BadDecl", "*ast.FuncDecl"].contains typ
  else false

/-- The struct ast.SelectorExpr as reflect presents it: the field X of type
ast.Expr and the field Sel of type *ast.Ident. In a tree the two fields
point to two different nodes, which the addresses 1 and 2 stand for. -/
def selectorFields (X : Expr) : List reflect.Field :=
  [.Single (.Interface "ast.Expr" (some { typ := X.typ, addr := 1 })),
   .Single (.Pointer { typ := "*ast.Ident", addr := 2 })]

end ast

/-- The fields X and Sel of a selector expression after replaceNode has run on
it with a new identifier, which the address 3 stands for, as newChild: a
field that now holds the new pointer is the new identifier, the other is
what it was. -/
def readSelector (X : ast.Expr) (Sel ident : ast.Ident) : reflect.Parent → ast.Expr × ast.Ident
  | .struct [.Single (.Interface _ x), .Single (.Pointer s)] =>
    (if x = some { typ := "*ast.Ident", addr := 3 } then ast.Expr.Ident ident else X,
     if s = { typ := "*ast.Ident", addr := 3 } then ident else Sel)
  | _ => (X, Sel)

/-- fixPhantomSelector (lines 454-478), applied to the fields X and Sel of the
selector expression: the returned boolean and the two fields after the
call. -/
def fixPhantomSelector (X : ast.Expr) (Sel : ast.Ident) (tf : token.File) (src : Bytes) :
    Bool × ast.Expr × ast.Ident :=
  if !isPhantomUnderscore Sel tf src then (false, X, Sel)
  else if Sel.Pos ≠ X.End + 1 then (false, X, Sel)
  else
    let maybeKeyword := readKeyword Sel.Pos tf src
    if maybeKeyword = "" then (false, X, Sel)
    else
      let ident : ast.Ident := { Name := maybeKeyword, NamePos := Sel.Pos }
      let r := replaceNode ast.implements (.struct (ast.selectorFields X))
        (some { typ := "*ast.Ident", addr := 2 }) (some { typ := "*ast.Ident", addr := 3 })
      (r.1, readSelector X Sel ident r.2)

namespace ast

/-- An identifier with a function applied to its one field of type token.Pos. -/
def Ident.mapPos (g : token.Pos → token.Pos) (id : Ident) : Ident :=
  { NamePos := g id.NamePos, Name := id.Name }

/-- A comment with a function applied to its field of type token.Pos. -/
def Comment.mapPos (g : token.Pos → token.Pos) (c : Comment) : Comment :=
  { Slash := g c.Slash, Text := c.Text }

/-- A comment group with a function applied to the positions of its comments. -/
def CommentGroup.mapPos (g : token.Pos → token.Pos) (c : CommentGroup) : CommentGroup :=
  { first := c.first.mapPos g, rest := c.rest.map (Comment.mapPos g) }

/-- A field list with a function applied to its fields of type token.Pos. -/
def FieldList.mapPos (g : token.Pos → token.Pos) (l : FieldList) : FieldList :=
  { Opening := g l.Opening, Closing := g l.Closing }

/-- A function type with a function applied to the positions in it. -/
def FuncType.mapPos (g : token.Pos → token.Pos) (t : FuncType) : FuncType :=
  { Func := g t.Func, Params := t.Params.mapPos g }

mutual
/-- An expression with a function applied to every field of type token.Pos
of every node in it. -/
def Expr.mapPos (g : token.Pos → token.Pos) : Expr → Expr
  | .BadExpr frm til => .BadExpr (g frm) (g til)
  | .Ident id => .Ident (id.mapPos g)
  | .BasicLit p v => .BasicLit (g p) v
  | .ParenExpr l x r => .ParenExpr (g l) (x.mapPos g) (g r)
  | .SelectorExpr x sel => .SelectorExpr (x.mapPos g) (sel.mapPos g)
  | .CallExpr f l args e r => .CallExpr (f.mapPos g) (g l) (mapPosExprs g args) (g e) (g r)
  | .FuncLit t b => .FuncLit (t.mapPos g) (b.mapPos g)
/-- The same for a list of expressions. -/
def mapPosExprs (g : token.Pos → token.Pos) : List Expr → List Expr
  | [] => []
  | e :: es => e.mapPos g :: mapPosExprs g es
/-- The same for a block statement. -/
def Block.mapPos (g : token.Pos → token.Pos) : Block → Block
  | .mk l list r => .mk (g l) (mapPosStmts g list) (g r)
/-- The same for a list of statements. -/
def mapPosStmts (g : token.Pos → token.Pos) : List Stmt → List Stmt
  | [] => []
  | s :: ss => s.mapPos g :: mapPosStmts g ss
/-- The same for an optional statement. -/
def mapPosOptStmt (g : token.Pos → token.Pos) : Option Stmt → Option Stmt
  | none => none
  | some s => some (s.mapPos g)
/-- The same for an optional expression. -/
def mapPosOptExpr (g : token.Pos → token.Pos) : Option Expr → Option Expr
  | none => none
  | some e => some (e.mapPos g)
/-- A statement with a function applied to every field of type token.Pos of
every node in it. -/
def Stmt.mapPos (g : token.Pos → token.Pos) : Stmt → Stmt
  | .BadStmt frm til => .BadStmt (g frm) (g til)
  | .ExprStmt x => .ExprStmt (x.mapPos g)
  | .BlockStmt b => .BlockStmt (b.mapPos g)
  | .IfStmt p init cond body els =>
    .IfStmt (g p) (mapPosOptStmt g init) (cond.mapPos g) (body.mapPos g) (mapPosOptStmt g els)
  | .ForStmt p init cond post body =>
    .ForStmt (g p) (mapPosOptStmt g init) (mapPosOptExpr g cond) (mapPosOptStmt g post)
      (body.mapPos g)
  | .SwitchStmt p init tag body =>
    .SwitchStmt (g p) (mapPosOptStmt g init) (mapPosOptExpr g tag) (body.mapPos g)
  | .CaseClause p values colon body =>
    .CaseClause (g p) (mapPosExprs g values) (g colon) (mapPosStmts g body)
end

/-- A declaration with a function applied to every field of type token.Pos of
every node in it. -/
def Decl.mapPos (g : token.Pos → token.Pos) : Decl → Decl
  | .BadDecl frm til => .BadDecl (g frm) (g til)
  | .FuncDecl doc name t body =>
    .FuncDecl (doc.map (CommentGroup.mapPos g)) (name.mapPos g) (t.mapPos g)
      (body.map (Block.mapPos g))

/-- A file with a function applied to every field of type token.Pos of every
node that ast.Walk reaches from it; the list Comments is not among the
children of a file and is kept. -/
def File.mapPos (g : token.Pos → token.Pos) (f : File) : File :=
  { Doc := f.Doc.map (CommentGroup.mapPos g)
    Package := g f.Package
    Name := f.Name.mapPos g
    Decls := f.Decls.map (Decl.mapPos g)
    FileStart := g f.FileStart
    FileEnd := g f.FileEnd
    Comments := f.Comments }

/-- A node with a function applied to every field of type token.Pos of every
node of its subtree. -/
def Node.mapPos (g : token.Pos → token.Pos) : Node → Node
  | .Comment c => .Comment (c.mapPos g)
  | .CommentGroup c => .CommentGroup (c.mapPos g)
  | .FieldList l => .FieldList (l.mapPos g)
  | .FuncType t => .FuncType (t.mapPos g)
  | .Expr e => .Expr (e.mapPos g)
  | .Stmt s => .Stmt (s.mapPos g)
  | .Decl d => .Decl (d.mapPos g)
  | .File f => .File (f.mapPos g)

/-- The fields of type token.Pos of the struct of a node itself, in field order. -/
def ownPositions : Node → List token.Pos
  | .Comment c => [c.Slash]
  | .CommentGroup _ => []
  | .FieldList l => [l.Opening, l.Closing]
  | .FuncType t => [t.Func]
  | .Expr (.BadExpr frm til) => [frm, til]
  | .Expr (.Ident id) => [id.NamePos]
  | .Expr (.BasicLit p _) => [p]
  | .Expr (.ParenExpr l _ r) => [l, r]
  | .Expr (.SelectorExpr _ _) => []
  | .Expr (.CallExpr _ l _ e r) => [l, e, r]
  | .Expr (.FuncLit _ _) => []
  | .Stmt (.BadStmt frm til) => [frm, til]
  | .Stmt (.ExprStmt _) => []
  | .Stmt (.BlockStmt (.mk l _ r)) => [l, r]
  | .Stmt (.IfStmt p _ _ _ _) => [p]
  | .Stmt (.ForStmt p _ _ _ _) => [p]
  | .Stmt (.SwitchStmt p _ _ _) => [p]
  | .Stmt (.CaseClause p _ colon _) => [p, colon]
  | .Decl (.BadDecl frm til) => [frm, til]
  | .Decl (.FuncDecl _ _ _ _) => []
  | .File f => [f.Package, f.FileStart, f.FileEnd]

/-- The position fields of all nodes of the subtree of a node, node by node
in depth-first pre-order. -/
def positions (n : Node) : List token.Pos :=
  ((preorder n []).map (fun q => ownPositions q.1)).flatten

end ast

/-- The value of an integer as a Go int of 64 bits: arithmetic on token.Pos
is arithmetic on int and wraps around. -/
def wrapInt (x : Int) : Int :=
  (x + 9223372036854775808) % 18446744073709551616 - 9223372036854775808

/-- The new value that offsetPositions gives one field of type token.Pos
(lines 848-849 and 869-883): an invalid position is kept, a valid one is
moved by the offset and clamped to the range of the file. The two sums are
sums of Go ints. -/
def offsetPos (tok : token.File) (offset : token.Pos) (pos : token.Pos) : token.Pos :=
  let fileBase : token.Pos := (tok.base : Int)
  let fileEnd : token.Pos := wrapInt (fileBase + (tok.size : Int))
  if !pos.IsValid then pos
  else min (max (wrapInt (pos + offset)) fileBase) fileEnd

/-- offsetPositions (lines 847-889): ast.Inspect visits every node of the
subtree, and at every node every field of type token.Pos is rewritten; the
tree after the call. -/
def offsetPositions (tok : token.File) (n : ast.Node) (offset : token.Pos) : ast.Node :=
  n.mapPos (offsetPos tok offset)

/-- Modelled from the spec: safetoken.Offsets is not among the sources. It
resolves a start and an end position with safetoken.Offset and fails (none)
when either is out of range, on which a fixer declines (section 7). -/
def safetoken.Offsets (f : token.File) (start stop : token.Pos) : Option (Nat × Nat) :=
  match safetoken.Offset f start with
  | none => none
  | some s =>
    match safetoken.Offset f stop with
    | none => none
    | some e => some (s, e)

/-- What parseStmt asks of go/parser: parser.ParseFile on a fresh file set
with an empty file name and the mode SkipObjectResolution, as a function of
the buffer. The result is the tree, none for a nil tree; the error of the
parser only goes into messages. -/
abbrev FileParser := Bytes → Option ast.File

/-- The text parseStmt puts before the statement. -/
def fakePrefix : Bytes := "package fake;func _()\x7b".toList.map Char.toUInt8

/-- parseStmt (lines 798-826). The result none is the return with an error;
a fault is the nil dereference of fakeDecl.Body when the first declaration
is a function without a body. The statement is returned with the positions
of offsetPositions tok stmt (pos-1-(stmt.Pos()-1)). -/
def parseStmt (parse : FileParser) (tok : token.File) (pos : token.Pos) (src : Bytes) :
    Except String (Option ast.Stmt) :=
  let fileSrc := fakePrefix ++ src ++ [chRbrace]
  match parse fileSrc with
  | none => .ok none
  | some fakeFile =>
    match fakeFile.Decls with
    | [] => .ok none
    | .BadDecl _ _ :: _ => .ok none
    | .FuncDecl _ _ _ none :: _ => .error "invalid memory address or nil pointer dereference"
    | .FuncDecl _ _ _ (some (.mk _ list _)) :: _ =>
      match list with
      | [] => .ok none
      | stmt :: _ => .ok (some (stmt.mapPos (offsetPos tok (pos - 1 - (stmt.Pos - 1)))))

/-- The type switch at the end of fixInitStmt (lines 521-550): the returned
boolean and the parent after it, for the statement stmt of the sub-parse. A
nil parent is none. -/
def fixInitStmt.move (stmt : ast.Stmt) (parent : Option ast.Node) : Bool × Option ast.Node :=
  match parent with
  | some (.Stmt (.IfStmt p none _ body els)) =>
    (true, some (.Stmt (.IfStmt p (some stmt)
      (.Ident { Name := "_", NamePos := stmt.End }) body els)))
  | some (.Stmt (.ForStmt p none _ post body)) =>
    (true, some (.Stmt (.ForStmt p (some stmt)
      (some (.Ident { Name := "_", NamePos := stmt.End })) post body)))
  | some (.Stmt (.SwitchStmt p none _ body)) =>
    (true, some (.Stmt (.SwitchStmt p (some stmt) none body)))
  | _ => (false, parent)

/-- fixInitStmt (lines 501-551); bad is given by its fields From and To. The
result is the returned boolean and the parent after the call; a fault is the
assert of line 511 or the slice expression of line 512 with start above
end, or a fault of parseStmt. -/
def fixInitStmt (parse : FileParser) (badFrom badTo : token.Pos) (parent : Option ast.Node)
    (tok : token.File) (src : Bytes) : Except String (Bool × Option ast.Node) :=
  if !badFrom.IsValid || !badTo.IsValid then .ok (false, parent)
  else
    match safetoken.Offsets tok badFrom badTo with
    | none => .ok (false, parent)
    | some (start, stop) =>
      if stop > src.length then .error "offset overflow"
      else if start > stop then .error "slice bounds out of range"
      else
        match parseStmt parse tok badFrom ((src.take stop).drop start) with
        | .error e => .error e
        | .ok none => .ok (false, parent)
        | .ok (some stmt) => .ok (fixInitStmt.move stmt parent)

/-- fixEmptySwitch (lines 379-404): the body after the call and the returned
boolean. -/
def fixEmptySwitch (body : ast.Block) (tok : token.File) (src : Bytes) :
    Except String (ast.Block × Bool) :=
  match body with
  | .mk lbrace list rbrace =>
    if list.length > 0 ∨ rbrace.IsValid = false then .ok (body, false)
    else
      match safetoken.Offset tok rbrace with
      | none => .ok (body, false)
      | some braceOffset =>
        if braceOffset < src.length ∧ src.get? braceOffset = some chRbrace then .ok (body, false)
        else
          let braceLine := safetoken.Line tok rbrace
          if braceLine ≥ tok.LineCount then .ok (body, false)
          else
            match tok.LineStart (braceLine + 1) with
            | .error e => .error e
            | .ok lineStart => .ok (ast.Block.mk lbrace list lineStart, true)

/-- The variables newSrc and fix that the traversal of fixSrc writes, a
run-time fault as the error case, and the log of the nodes (each with the
stack of its ancestors) that reached a fixer's case of the type switch. -/
structure SrcWalk where
  out : Except String (Option Bytes × FixType)
  examined : List (ast.Node × List ast.Node)

/-- The function literal that fixSrc passes to PreorderStack (lines 236-256):
the new state and the returned boolean. -/
def fixSrc.visit (scan : Scanner) (f : ast.File) (tf : token.File) (src : Bytes)
    (st : SrcWalk) (n : ast.Node) (stack : List ast.Node) : SrcWalk × Bool :=
  match st.out with
  | .error _ => (st, false)
  | .ok (some _, _) => (st, false)
  | .ok (none, fix) =>
    match n with
    | .Stmt (.BlockStmt b) =>
      match stack.getLast? with
      | none =>
        ({ out := .error "index out of range", examined := st.examined ++ [(n, stack)] }, false)
      | some parent =>
        match fixMissingCurlies scan f b parent tf src with
        | .error e => ({ out := .error e, examined := st.examined ++ [(n, stack)] }, false)
        | .ok none => ({ out := .ok (none, fix), examined := st.examined ++ [(n, stack)] }, true)
        | .ok (some newSrc) =>
          ({ out := .ok (some newSrc, FixType.FixedCurlies),
             examined := st.examined ++ [(n, stack)] }, false)
    | .Expr (.SelectorExpr X Sel) =>
      match fixDanglingSelector X Sel tf src with
      | .error e => ({ out := .error e, examined := st.examined ++ [(n, stack)] }, false)
      | .ok none => ({ out := .ok (none, fix), examined := st.examined ++ [(n, stack)] }, true)
      | .ok (some newSrc) =>
        ({ out := .ok (some newSrc, FixType.FixedDanglingSelector),
           examined := st.examined ++ [(n, stack)] }, false)
    | _ => (st, true)

/-- The traversal of fixSrc with its log. -/
def fixSrc.run (scan : Scanner) (f : ast.File) (tf : token.File) (src : Bytes) : SrcWalk :=
  astutil.PreorderStack (ast.Node.File f) [] (fixSrc.visit scan f tf src)
    { out := .ok (none, FixType.noFix), examined := [] }

/-- fixSrc (lines 235-259): the pair (newSrc, fix), or a run-time fault. -/
def fixSrc (scan : Scanner) (f : ast.File) (tf : token.File) (src : Bytes) :
    Except String (Option Bytes × FixType) :=
  (fixSrc.run scan f tf src).out

/-- The node is a block statement or a selector expression, the two node
types fixSrc has a fixer for. -/
def hasSrcFixer (p : ast.Node × List ast.Node) : Bool :=
  match p.1 with
  | .Stmt (.BlockStmt _) => true
  | .Expr (.SelectorExpr _ _) => true
  | _ => false

/-- The source-level fixer of a node, applied to the buffer src as fixSrc
received it: fixMissingCurlies for a block statement, with the enclosing
node as parent, and fixDanglingSelector for a selector expression. -/
def srcFixer (scan : Scanner) (f : ast.File) (tf : token.File) (src : Bytes)
    (p : ast.Node × List ast.Node) : Except String (Option Bytes) :=
  match p.1 with
  | .Stmt (.BlockStmt b) =>
    match p.2.getLast? with
    | none => .error "index out of range"
    | some parent => fixMissingCurlies scan f b parent tf src
  | .Expr (.SelectorExpr X Sel) => fixDanglingSelector X Sel tf src
  | _ => .ok none

/-- The tag that goes with the fixer of a node. -/
def srcFixTag (p : ast.Node × List ast.Node) : FixType :=
  match p.1 with
  | .Stmt (.BlockStmt _) => FixType.FixedCurlies
  | .Expr (.SelectorExpr _ _) => FixType.FixedDanglingSelector
  | _ => FixType.noFix

/-- The block statements and selector expressions of a file in depth-first
pre-order, each with the stack of its ancestors. -/
def candidates (f : ast.File) : List (ast.Node × List ast.Node) :=
  (ast.preorder (ast.Node.File f) []).filter hasSrcFixer

/-- The mapper built by protocol.NewMapper(uri, src): it stores its two arguments. -/
structure Mapper where
  URI : String
  Content : Bytes
deriving DecidableEq, Repr

/-- The record returned by Parse (the literal at parse.go lines 131-142).
The Cursor field is the root cursor of File and carries no further data. -/
structure File (F T : Type) where
  URI : String
  Mode : Nat
  Src : Bytes
  fixedSrc : Bool
  fixedAST : Bool
  File : F
  Tok : T
  Mapper : Mapper
  ParseErr : scanner.ErrorList
deriving DecidableEq, Repr

/-- What Parse calls. W is the state of the token.FileSet, F a syntax tree
(a non-nil *ast.File: for a byte-slice input go/parser always returns one,
which is what the two asserts of Parse restate), T a *token.File.

* ParseFile fset path src mode: the new file set, the tree and the error list;
* tokenFile fset file: fset.File(file.FileStart);
* fixAST file tok src: the tree after the in-place repairs, and their tags;
* fixSrc file tok src: the new buffer (none for nil) and its tag. -/
structure Collaborators (W F T : Type) where
  PurgeFuncBodies : Bytes → Bytes
  ParseFile : W → String → Bytes → Nat → W × F × scanner.ErrorList
  tokenFile : W → F → T
  fixAST : F → T → Bytes → F × List FixType
  fixSrc : F → T → Bytes → Option Bytes × FixType

/-- One logged call of Parse, with its arguments and its results. -/
inductive Call (W F T : Type) where
  | ParseFile (src : Bytes) (fset : W) (file : F) (err : scanner.ErrorList)
  | fixAST (file : F) (tok : T) (src : Bytes) (fixed : F) (fixes : List FixType)
  | fixSrc (file : F) (tok : T) (src : Bytes) (newSrc : Option Bytes) (fix : FixType)
deriving DecidableEq, Repr

/-- The local variables of Parse that the repair loop reads and writes,
and the call log. -/
structure State (W F T : Type) where
  fset : W
  file : F
  src : Bytes
  tok : T
  fixes : List FixType
  fixedSrc : Bool
  fixedAST : Bool
  calls : List (Call W F T)
deriving DecidableEq, Repr

/-- The statements `astFixes := fixAST(file, tok, src); fixedAST = len(astFixes) > 0;
if fixedAST { fixes = append(fixes, astFixes...) }` (lines 78-82 and 117-121). -/
def runFixAST {W F T : Type} (c : Collaborators W F T) (st : State W F T) : State W F T :=
  let out := c.fixAST st.file st.tok st.src
  let fixedAST := decide (out.2.length > 0)
  { st with
    file := out.1
    fixedAST := fixedAST
    fixes := if fixedAST then st.fixes ++ out.2 else st.fixes
    calls := st.calls ++ [Call.fixAST st.file st.tok st.src out.1 out.2] }

/-- The statements of one loop iteration after fixSrc has returned newSrc
and srcFix (lines 99-110): the buffer is parsed again and the new tree,
buffer and token file replace the old ones together. The second component
is newErr. -/
def adopt {W F T : Type} (c : Collaborators W F T) (uri : String) (mode : Nat)
    (st : State W F T) (newSrc : Bytes) (srcFix : FixType) : State W F T × scanner.ErrorList :=
  let out := c.ParseFile st.fset uri newSrc mode
  ({ fset := out.1
     file := out.2.1
     src := newSrc
     tok := c.tokenFile out.1 out.2.1
     fixes := st.fixes ++ [srcFix]
     fixedSrc := true
     fixedAST := st.fixedAST
     calls := st.calls ++ [Call.fixSrc st.file st.tok st.src (some newSrc) srcFix,
                           Call.ParseFile newSrc out.1 out.2.1 out.2.2] }, out.2.2)

/-- The loop `for i := range 10` of Parse (lines 84-122); the first argument
is the number of iterations still allowed, 10 - i. The diff logged when
i = 9 only writes to the event log. -/
def repairLoop {W F T : Type} (c : Collaborators W F T) (uri : String) (mode : Nat) :
    Nat → State W F T → State W F T
  | 0, st => st
  | n + 1, st =>
    match c.fixSrc st.file st.tok st.src with
    | (none, srcFix) =>
      { st with calls := st.calls ++ [Call.fixSrc st.file st.tok st.src none srcFix] }
    | (some newSrc, srcFix) =>
      let r := adopt c uri mode st newSrc srcFix
      if r.2 = [] then r.1 else repairLoop c uri mode n (runFixAST c r.1)

/-- The buffer handed to the first parse (lines 53-55). -/
def firstSrc {W F T : Type} (c : Collaborators W F T) (src : Bytes) (purgeFuncBodies : Bool) : Bytes :=
  if purgeFuncBodies then c.PurgeFuncBodies src else src

/-- What a run of Parse yields: its two results, and the log of its calls. -/
structure Run (W F T : Type) where
  res : File F T
  fixes : List FixType
  calls : List (Call W F T)
deriving DecidableEq, Repr

/-- Parse (lines 52-143). -/
def Parse {W F T : Type} (c : Collaborators W F T) (fset : W) (uri : String) (src : Bytes)
    (mode : Nat) (purgeFuncBodies : Bool) : Run W F T :=
  let src := firstSrc c src purgeFuncBodies
  let out := c.ParseFile fset uri src mode
  let parseErr := out.2.2
  let st0 : State W F T :=
    { fset := out.1
      file := out.2.1
      src := src
      tok := c.tokenFile out.1 out.2.1
      fixes := []
      fixedSrc := false
      fixedAST := false
      calls := [Call.ParseFile src out.1 out.2.1 parseErr] }
  let st := if parseErr ≠ [] then repairLoop c uri mode 10 (runFixAST c st0) else st0
  { res :=
      { URI := uri
        Mode := mode
        Src := st.src
        fixedSrc := st.fixedSrc
        fixedAST := st.fixedAST
        File := st.file
        Tok := st.tok
        Mapper := { URI := uri, Content := st.src }
        ParseErr := parseErr }
    fixes := st.fixes
    calls := st.calls }

/-- The call is an invocation of the base parser. -/
def Call.isParseFile {W F T : Type} : Call W F T → Bool
  | .ParseFile _ _ _ _ => true
  | _ => false

/-- The call is an invocation of fixSrc. -/
def Call.isFixSrc {W F T : Type} : Call W F T → Bool
  | .fixSrc _ _ _ _ _ => true
  | _ => false

/-- The buffer, resulting file set, tree and error list of a parser invocation. -/
def Call.parsed {W F T : Type} : Call W F T → Option (Bytes × W × F × scanner.ErrorList)
  | .ParseFile src fset file err => some (src, fset, file, err)
  | _ => none

/-- The buffer that an invocation of fixSrc returned, when it returned one. -/
def Call.accepted {W F T : Type} : Call W F T → Option Bytes
  | .fixSrc _ _ _ newSrc _ => newSrc
  | _ => none

/-- The fix tags a call gives rise to: the tags fixAST returned, the tag
fixSrc returned together with a new buffer, and nothing else. -/
def Call.tags {W F T : Type} : Call W F T → List FixType
  | .fixAST _ _ _ _ fixes => fixes
  | .fixSrc _ _ _ (some _) fix => [fix]
  | _ => []

/-- The last invocation of the base parser in a call log. -/
def lastParse {W F T : Type} (calls : List (Call W F T)) :
    Option (Bytes × W × F × scanner.ErrorList) :=
  (calls.filterMap Call.parsed).getLast?

/-- The calls of the repair rounds, in the order in which the loop makes
them: the loop ends at the iteration ceiling, or when fixSrc finds nothing,
or when the buffer it returned parses without errors; otherwise the new
tree goes through fixAST and the next round follows. In each round the
buffer that is parsed is the one fixSrc has just returned. -/
inductive Rounds {W F T : Type} : List (Call W F T) → Prop where
  | ceiling : Rounds []
  | nothing (file : F) (tok : T) (src : Bytes) (fix : FixType) :
      Rounds [Call.fixSrc file tok src none fix]
  | clean (file : F) (tok : T) (src newSrc : Bytes) (fix : FixType) (fset : W) (newFile : F) :
      Rounds [Call.fixSrc file tok src (some newSrc) fix, Call.ParseFile newSrc fset newFile []]
  | again (file : F) (tok : T) (src newSrc : Bytes) (fix : FixType) (fset : W) (newFile : F)
      (newErr : scanner.ErrorList) (newTok : T) (fixed : F) (fixes : List FixType)
      (rest : List (Call W F T)) :
      newErr ≠ [] → Rounds rest →
      Rounds (Call.fixSrc file tok src (some newSrc) fix :: Call.ParseFile newSrc fset newFile newErr
        :: Call.fixAST newFile newTok newSrc fixed fixes :: rest)

namespace demo

/-- The bytes of an ASCII string. -/
def ascii (s : String) : Bytes := s.toList.map Char.toUInt8

/-- Collaborators for the examples. The file set counts the files added to
it and a token file is its number; a tree is the buffer it was parsed from
together with the number of repairs made in it. A buffer parses without
errors when it has at least three bytes; fixAST always makes one repair and
fixSrc always appends an underscore. -/
def collab : Collaborators Nat (Bytes × Nat) Nat where
  PurgeFuncBodies := fun src => src.take 1
  ParseFile := fun fset _ src _ =>
    (fset + 1, (src, 0),
      if src.length < 3 then
        [{ Offset := src.length, Line := 1, Column := src.length + 1, Msg := "expected 3 bytes" }]
      else [])
  tokenFile := fun fset _ => fset
  fixAST := fun file _ _ => ((file.1, file.2 + 1), [FixType.FixedEmptySwitch])
  fixSrc := fun _ _ src => (some (src ++ [chUnderscore]), FixType.FixedDanglingSelector)

/-- Collaborators for the examples whose parser reports an error for every
buffer and whose fixSrc always finds something to fix. -/
def stubborn : Collaborators Nat (Bytes × Nat) Nat where
  PurgeFuncBodies := fun src => src
  ParseFile := fun fset _ src _ =>
    (fset + 1, (src, 0), [{ Offset := 0, Line := 1, Column := 1, Msg := "expected declaration" }])
  tokenFile := fun fset _ => fset
  fixAST := fun file _ _ => (file, [])
  fixSrc := fun _ _ src => (some (chLbrace :: chRbrace :: src), FixType.FixedCurlies)

/-- The byte can be part of an identifier. -/
def isLetter (b : UInt8) : Bool :=
  (decide (97 ≤ b) && decide (b ≤ 122)) || (decide (65 ≤ b) && decide (b ≤ 90)) || b == 95
    || (decide (48 ≤ b) && decide (b ≤ 57))

/-- A small scanner for the examples, from the given offset on: a run of
letters, digits and underscores is an identifier (keywords are not told
apart), a newline after an identifier, a closing parenthesis or a closing
brace is a semicolon, blanks are skipped. The two booleans say whether the
previous byte was part of an identifier and whether a newline would now be
a semicolon. -/
def scanFrom (base : Nat) : Bytes → Nat → Bool → Bool → List (token.Pos × token.Token)
  | [], _, _, _ => []
  | b :: rest, off, inIdent, semi =>
    if isLetter b then
      if inIdent then scanFrom base rest (off + 1) true true
      else (((base + off : Nat) : Int), token.Token.IDENT) :: scanFrom base rest (off + 1) true true
    else if b = 10 then
      if semi then
        (((base + off : Nat) : Int), token.Token.SEMICOLON) :: scanFrom base rest (off + 1) false false
      else scanFrom base rest (off + 1) false false
    else if b = 32 ∨ b = 9 then scanFrom base rest (off + 1) false semi
    else if b = 46 then
      (((base + off : Nat) : Int), token.Token.PERIOD) :: scanFrom base rest (off + 1) false false
    else if b = 123 then
      (((base + off : Nat) : Int), token.Token.LBRACE) :: scanFrom base rest (off + 1) false false
    else if b = 125 then
      (((base + off : Nat) : Int), token.Token.RBRACE) :: scanFrom base rest (off + 1) false true
    else if b = 40 then
      (((base + off : Nat) : Int), token.Token.LPAREN) :: scanFrom base rest (off + 1) false false
    else if b = 41 then
      (((base + off : Nat) : Int), token.Token.RPAREN) :: scanFrom base rest (off + 1) false true
    else if b = 59 then
      (((base + off : Nat) : Int), token.Token.SEMICOLON) :: scanFrom base rest (off + 1) false false
    else if b = 44 then
      (((base + off : Nat) : Int), token.Token.COMMA) :: scanFrom base rest (off + 1) false false
    else
      (((base + off : Nat) : Int), token.Token.operator "?") :: scanFrom base rest (off + 1) false false

/-- The scanner of the examples. -/
def scan : Scanner := fun tok src => scanFrom tok.base src 0 false false

/-- A buffer with an if statement that lacks its braces. -/
def ifSrc : Bytes := ascii "package p\n\nfunc _() \x7b\n\tif foo\n\tbar()\n\x7d\n"

/-- The token file of ifSrc: base 1, 39 bytes, six lines. -/
def ifTok : token.File := { base := 1, size := 39, lines := [0, 10, 11, 22, 30, 37] }

/-- The block the parser makes up for the if statement of ifSrc: its opening
brace is placed on the newline after the call, where the brace was expected. -/
def ifBody : ast.Block := ast.Block.mk 37 [] 38

/-- The if statement of ifSrc as the parser reads it: foo is taken for the
init statement and the call on the next line for the condition. -/
def ifStmt : ast.Stmt :=
  ast.Stmt.IfStmt 24 (some (ast.Stmt.ExprStmt (ast.Expr.Ident { NamePos := 27, Name := "foo" })))
    (ast.Expr.CallExpr (ast.Expr.Ident { NamePos := 32, Name := "bar" }) 35 [] 0 36) ifBody none

/-- The tree of ifSrc. -/
def ifFile : ast.File :=
  { Doc := none
    Package := 1
    Name := { NamePos := 9, Name := "p" }
    Decls := [ast.Decl.FuncDecl none { NamePos := 17, Name := "_" }
      { Func := 12, Params := { Opening := 18, Closing := 19 } }
      (some (ast.Block.mk 21 [ifStmt] 0))]
    FileStart := 1
    FileEnd := 40
    Comments := [] }

/-- The buffer ifSrc with the two braces inserted after the condition. -/
def okSrc : Bytes := ascii "package p\n\nfunc _() \x7b\n\tif foo\x7b\x7d\n\tbar()\n\x7d\n"

/-- The token file of okSrc. -/
def okTok : token.File := { base := 1, size := 41, lines := [0, 10, 11, 22, 32, 39] }

/-- The tree of okSrc. -/
def okFile : ast.File :=
  { Doc := none
    Package := 1
    Name := { NamePos := 9, Name := "p" }
    Decls := [ast.Decl.FuncDecl none { NamePos := 17, Name := "_" }
      { Func := 12, Params := { Opening := 18, Closing := 19 } }
      (some (ast.Block.mk 21
        [ast.Stmt.IfStmt 24 none (ast.Expr.Ident { NamePos := 27, Name := "foo" })
            (ast.Block.mk 30 [] 31) none,
          ast.Stmt.ExprStmt
            (ast.Expr.CallExpr (ast.Expr.Ident { NamePos := 34, Name := "bar" }) 37 [] 0 38)]
        40))]
    FileStart := 1
    FileEnd := 42
    Comments := [] }

/-- The fixer of the node returns nil. -/
def declines (scan : Scanner) (f : ast.File) (tf : token.File) (src : Bytes)
    (p : ast.Node × List ast.Node) : Bool :=
  match srcFixer scan f tf src p with
  | .ok none => true
  | _ => false

/-- A buffer that ends in a selector without a name. -/
def dotSrc : Bytes := ascii "x.\n"

/-- The token file of dotSrc. -/
def dotTok : token.File := { base := 1, size := 3, lines := [0] }

/-- A buffer with a for statement that lacks its braces. -/
def forSrc : Bytes := ascii "package p\n\nfunc _() \x7b\n\tfor ;x\n\tbar()\n\x7d\n"

/-- A for statement for forSrc whose post statement is an expression
statement of a BadExpr and whose condition is absent. -/
def forStmt : ast.Stmt :=
  ast.Stmt.ForStmt 24 none none (some (ast.Stmt.ExprStmt (ast.Expr.BadExpr 28 29))) ifBody

/-- A for statement for forSrc whose post statement is an expression
statement of a BadExpr and whose condition is a BadExpr as well. -/
def forBadCond : ast.Stmt :=
  ast.Stmt.ForStmt 24 none (some (ast.Expr.BadExpr 28 28))
    (some (ast.Stmt.ExprStmt (ast.Expr.BadExpr 28 29))) ifBody

/-- A buffer with a switch statement in which a case keyword is being typed. -/
def switchSrc : Bytes :=
  ascii "package p\n\nfunc _() \x7b\n\tswitch \x7b\n\tcas\n\t\x7d\n\x7d\n"

/-- The token file of switchSrc: base 1, 42 bytes, seven lines. -/
def switchTok : token.File := { base := 1, size := 42, lines := [0, 10, 11, 22, 32, 37, 40] }

/-- The body the parser gives the switch statement of switchSrc: no clauses,
and the closing brace recorded at the word cas, where it was expected. -/
def switchBody : ast.Block := ast.Block.mk 31 [] 34

/-- A stand-in for go/parser on the fake file of parseStmt: the statement x
is read as an expression statement of the identifier x, at the positions a
fresh file set gives it, and any other buffer gives no tree. -/
def parseIdent : FileParser := fun src =>
  if src = ascii "package fake;func _()\x7bx\x7d" then
    some { Doc := none
           Package := 1
           Name := { NamePos := 9, Name := "fake" }
           Decls := [ast.Decl.FuncDecl none { NamePos := 19, Name := "_" }
             { Func := 14, Params := { Opening := 20, Closing := 21 } }
             (some (ast.Block.mk 22
               [ast.Stmt.ExprStmt (ast.Expr.Ident { NamePos := 23, Name := "x" })] 24))]
           FileStart := 1
           FileEnd := 25
           Comments := [] }
  else none

/-- A buffer with an if statement whose condition is missing. -/
def initSrc : Bytes := ascii "if x\n\ty()\n"

/-- The token file of initSrc. -/
def initTok : token.File := { base := 1, size := 10, lines := [0, 5] }

/-- An if statement for initSrc without an init statement whose condition
is a BadExpr over the text x. -/
def initIf : ast.Stmt :=
  ast.Stmt.IfStmt 1 none (ast.Expr.BadExpr 4 5) (ast.Block.mk 0 [] 0) none

/-- The same if statement with an init statement in place. -/
def initIfTaken : ast.Stmt :=
  ast.Stmt.IfStmt 1 (some (ast.Stmt.BadStmt 4 4)) (ast.Expr.BadExpr 4 5) (ast.Block.mk 0 [] 0) none

/-- Three comments that lead the comment loop from position 60 back to
position 10 in two moving passes: the first listed comment holds the start
of the third, and the third holds position 60. -/
def nested : List ast.CommentGroup :=
  [{ first := { Slash := 10, Text := "/* a long comment that goes on */" }, rest := [] },
   { first := { Slash := 70, Text := "// later" }, rest := [] },
   { first := { Slash := 40, Text := "/* over position 60 .. */" }, rest := [] }]

/-- Collaborators for the examples over syntax trees: the file set is the
token file of the buffer parsed last; the buffer ifSrc parses to ifFile with
an error and every other buffer to okFile without one; fixAST repairs
nothing; fixSrc is the fixSrc of parse.go with the scanner of the examples,
a fault counting as no fix. -/
def goCollab : Collaborators token.File ast.File token.File where
  PurgeFuncBodies := fun src => src
  ParseFile := fun _ _ src _ =>
    if src = ifSrc then
      (ifTok, ifFile, [{ Offset := 29, Line := 4, Column := 8, Msg := "expected a block" }])
    else (okTok, okFile, [])
  tokenFile := fun fset _ => fset
  fixAST := fun file _ _ => (file, [])
  fixSrc := fun f tf src =>
    match fixSrc scan f tf src with
    | .ok r => r
    | .error _ => (none, FixType.noFix)

end demo

end parsego

/-! ## Theorems -/

namespace parsego

section loop

variable {W F T : Type}

theorem repairLoop_succ_none (c : Collaborators W F T) (uri : String) (mode n : Nat)
    (st : State W F T) (srcFix : FixType)
    (h : c.fixSrc st.file st.tok st.src = (none, srcFix)) :
    repairLoop c uri mode (n + 1) st
      = { st with calls := st.calls ++ [Call.fixSrc st.file st.tok st.src none srcFix] } := by
  rw [repairLoop, h]

theorem repairLoop_succ_clean (c : Collaborators W F T) (uri : String) (mode n : Nat)
    (st : State W F T) (newSrc : Bytes) (srcFix : FixType)
    (h : c.fixSrc st.file st.tok st.src = (some newSrc, srcFix))
    (hc : (adopt c uri mode st newSrc srcFix).2 = []) :
    repairLoop c uri mode (n + 1) st = (adopt c uri mode st newSrc srcFix).1 := by
  rw [repairLoop, h]
  simp only [hc, if_true]

theorem repairLoop_succ_again (c : Collaborators W F T) (uri : String) (mode n : Nat)
    (st : State W F T) (newSrc : Bytes) (srcFix : FixType)
    (h : c.fixSrc st.file st.tok st.src = (some newSrc, srcFix))
    (hc : (adopt c uri mode st newSrc srcFix).2 ≠ []) :
    repairLoop c uri mode (n + 1) st
      = repairLoop c uri mode n (runFixAST c (adopt c uri mode st newSrc srcFix).1) := by
  rw [repairLoop, h]
  simp only [hc, if_false]

/-- The proof rule of the repair loop: an invariant indexed by the number of
iterations still allowed, and what holds of the state the loop ends in. -/
theorem repairLoop_rule (c : Collaborators W F T) (uri : String) (mode : Nat)
    (I : Nat → State W F T → Prop) (Q : State W F T → Prop)
    (hceil : ∀ st, I 0 st → Q st)
    (hnone : ∀ n st srcFix, I (n + 1) st → c.fixSrc st.file st.tok st.src = (none, srcFix) →
      Q { st with calls := st.calls ++ [Call.fixSrc st.file st.tok st.src none srcFix] })
    (hclean : ∀ n st newSrc srcFix, I (n + 1) st →
      c.fixSrc st.file st.tok st.src = (some newSrc, srcFix) →
      (adopt c uri mode st newSrc srcFix).2 = [] → Q (adopt c uri mode st newSrc srcFix).1)
    (hagain : ∀ n st newSrc srcFix, I (n + 1) st →
      c.fixSrc st.file st.tok st.src = (some newSrc, srcFix) →
      (adopt c uri mode st newSrc srcFix).2 ≠ [] →
      I n (runFixAST c (adopt c uri mode st newSrc srcFix).1)) :
    ∀ n st, I n st → Q (repairLoop c uri mode n st) := by
  intro n
  induction n with
  | zero => intro st h; exact hceil st h
  | succ n ih =>
    intro st h
    rcases hfix : c.fixSrc st.file st.tok st.src with ⟨newSrc, srcFix⟩
    cases newSrc with
    | none =>
      rw [repairLoop_succ_none c uri mode n st srcFix hfix]
      exact hnone n st srcFix h hfix
    | some newSrc =>
      by_cases hc : (adopt c uri mode st newSrc srcFix).2 = []
      · rw [repairLoop_succ_clean c uri mode n st newSrc srcFix hfix hc]
        exact hclean n st newSrc srcFix h hfix hc
      · rw [repairLoop_succ_again c uri mode n st newSrc srcFix hfix hc]
        exact ih _ (hagain n st newSrc srcFix h hfix hc)

end loop

section orchestrator

variable {W F T : Type}

theorem accepted_length_le_countP (calls : List (Call W F T)) :
    (calls.filterMap Call.accepted).length ≤ calls.countP Call.isFixSrc := by
  induction calls with
  | nil => simp
  | cons a l ih =>
    cases a with
    | ParseFile src fset file err => simpa [Call.accepted, Call.isFixSrc] using ih
    | fixAST file tok src fixed fixes => simpa [Call.accepted, Call.isFixSrc] using ih
    | fixSrc file tok src newSrc fix =>
      cases newSrc with
      | none =>
        simp only [List.filterMap_cons, Call.accepted, List.countP_cons, Call.isFixSrc]
        omega
      | some b =>
        simp only [List.filterMap_cons, Call.accepted, List.countP_cons, Call.isFixSrc,
          List.length_cons]
        simpa using ih

/-- C1: when the first invocation of the base parser reports no errors, Parse
makes exactly one call, that parse, and returns an empty fix list, the bytes
it handed to that parse (the input, or its body-stripped form) as Src, and
fixedSrc = fixedAST = false. -/
theorem Parse_no_errors (c : Collaborators W F T) (fset : W) (uri : String) (src : Bytes)
    (mode : Nat) (purgeFuncBodies : Bool)
    (h : (c.ParseFile fset uri (firstSrc c src purgeFuncBodies) mode).2.2 = []) :
    (Parse c fset uri src mode purgeFuncBodies).calls
        = [Call.ParseFile (firstSrc c src purgeFuncBodies)
            (c.ParseFile fset uri (firstSrc c src purgeFuncBodies) mode).1
            (c.ParseFile fset uri (firstSrc c src purgeFuncBodies) mode).2.1 []]
      ∧ (Parse c fset uri src mode purgeFuncBodies).calls.countP Call.isParseFile = 1
      ∧ (Parse c fset uri src mode purgeFuncBodies).fixes = []
      ∧ (Parse c fset uri src mode purgeFuncBodies).res.Src = firstSrc c src purgeFuncBodies
      ∧ (Parse c fset uri src mode purgeFuncBodies).res.fixedSrc = false
      ∧ (Parse c fset uri src mode purgeFuncBodies).res.fixedAST = false := by
  simp [Parse, h, Call.isParseFile]

theorem Parse_no_errors_witness :
    (demo.collab.ParseFile 0 "a.go" (firstSrc demo.collab (demo.ascii "xyz") false) 0).2.2 = []
      ∧ (Parse demo.collab 0 "a.go" (demo.ascii "xyz") 0 false).calls.countP Call.isParseFile = 1
      ∧ (Parse demo.collab 0 "a.go" (demo.ascii "xyz") 0 false).fixes = []
      ∧ (Parse demo.collab 0 "a.go" (demo.ascii "xyz") 0 false).res.Src = demo.ascii "xyz" :=
  ⟨by decide,
   (Parse_no_errors demo.collab 0 "a.go" (demo.ascii "xyz") 0 false (by decide)).2.1,
   (Parse_no_errors demo.collab 0 "a.go" (demo.ascii "xyz") 0 false (by decide)).2.2.1,
   (Parse_no_errors demo.collab 0 "a.go" (demo.ascii "xyz") 0 false (by decide)).2.2.2.1⟩

/-- C2: whatever the base parser and the fixers do, Parse calls fixSrc at most
10 times, parses again once for each buffer fixSrc returned and so at most
10 times, and invokes the parser at most 11 times in all; being a total
function it returns its result after that. -/
theorem Parse_at_most_ten_rounds (c : Collaborators W F T) (fset : W) (uri : String)
    (src : Bytes) (mode : Nat) (purgeFuncBodies : Bool) :
    (Parse c fset uri src mode purgeFuncBodies).calls.countP Call.isFixSrc ≤ 10
      ∧ ((Parse c fset uri src mode purgeFuncBodies).calls.filterMap Call.accepted).length ≤ 10
      ∧ (Parse c fset uri src mode purgeFuncBodies).calls.countP Call.isParseFile
          = 1 + ((Parse c fset uri src mode purgeFuncBodies).calls.filterMap Call.accepted).length
      ∧ (Parse c fset uri src mode purgeFuncBodies).calls.countP Call.isParseFile ≤ 11 := by
  have key : ∀ n (st : State W F T),
      (st.calls.countP Call.isFixSrc + n ≤ 10
        ∧ st.calls.countP Call.isParseFile = 1 + (st.calls.filterMap Call.accepted).length) →
      ((repairLoop c uri mode n st).calls.countP Call.isFixSrc ≤ 10
        ∧ (repairLoop c uri mode n st).calls.countP Call.isParseFile
            = 1 + ((repairLoop c uri mode n st).calls.filterMap Call.accepted).length) := by
    apply repairLoop_rule c uri mode
      (fun n st => st.calls.countP Call.isFixSrc + n ≤ 10
        ∧ st.calls.countP Call.isParseFile = 1 + (st.calls.filterMap Call.accepted).length)
      (fun st => st.calls.countP Call.isFixSrc ≤ 10
        ∧ st.calls.countP Call.isParseFile = 1 + (st.calls.filterMap Call.accepted).length)
    · intro st h
      exact ⟨by omega, h.2⟩
    · intro n st srcFix h _
      simp only [List.countP_append, List.countP_cons, List.countP_nil, Call.isFixSrc,
        Call.isParseFile, List.filterMap_append, List.filterMap_cons, List.filterMap_nil,
        Call.accepted, List.length_append, List.length_nil]
      simp only [if_true, Bool.false_eq_true, if_false]
      omega
    · intro n st newSrc srcFix h _ _
      simp only [adopt, List.countP_append, List.countP_cons, List.countP_nil, Call.isFixSrc,
        Call.isParseFile, List.filterMap_append, List.filterMap_cons, List.filterMap_nil,
        Call.accepted, List.length_append, List.length_cons, List.length_nil]
      simp only [if_true, Bool.false_eq_true, if_false]
      omega
    · intro n st newSrc srcFix h _ _
      simp only [runFixAST, adopt, List.countP_append, List.countP_cons, List.countP_nil,
        Call.isFixSrc, Call.isParseFile, List.filterMap_append, List.filterMap_cons,
        List.filterMap_nil, Call.accepted, List.length_append, List.length_cons, List.length_nil]
      simp only [if_true, Bool.false_eq_true, if_false]
      omega
  have main : (Parse c fset uri src mode purgeFuncBodies).calls.countP Call.isFixSrc ≤ 10
      ∧ (Parse c fset uri src mode purgeFuncBodies).calls.countP Call.isParseFile
          = 1 + ((Parse c fset uri src mode purgeFuncBodies).calls.filterMap Call.accepted).length := by
    unfold Parse
    by_cases h : (c.ParseFile fset uri (firstSrc c src purgeFuncBodies) mode).2.2 = []
    · simp [h, Call.isFixSrc, Call.isParseFile, Call.accepted]
    · simp only [ne_eq, h, not_false_eq_true, if_true]
      apply key
      simp [runFixAST, Call.isFixSrc, Call.isParseFile, Call.accepted]
  have hle := accepted_length_le_countP (Parse c fset uri src mode purgeFuncBodies).calls
  refine ⟨main.1, by omega, main.2, by omega⟩

/-- The bounds of the repair loop are reached: with a parser that always
reports an error and a fixSrc that always returns a buffer, Parse calls
fixSrc 10 times and the parser 11 times. -/
theorem Parse_ten_rounds_reached :
    (Parse demo.stubborn 0 "a.go" (demo.ascii "x") 0 false).calls.countP Call.isFixSrc = 10
      ∧ (Parse demo.stubborn 0 "a.go" (demo.ascii "x") 0 false).calls.countP Call.isParseFile = 11
      ∧ (Parse demo.stubborn 0 "a.go" (demo.ascii "x") 0 false).res.Src.length = 21 := by
  decide

/-- C3: the ParseErr field of the result is the error list of the first
invocation of the base parser, the call that opens the log, whatever the
later rounds and the parses of repaired buffers report. -/
theorem Parse_keeps_first_errors (c : Collaborators W F T) (fset : W) (uri : String)
    (src : Bytes) (mode : Nat) (purgeFuncBodies : Bool) :
    (Parse c fset uri src mode purgeFuncBodies).res.ParseErr
        = (c.ParseFile fset uri (firstSrc c src purgeFuncBodies) mode).2.2
      ∧ (Parse c fset uri src mode purgeFuncBodies).calls.head?
        = some (Call.ParseFile (firstSrc c src purgeFuncBodies)
            (c.ParseFile fset uri (firstSrc c src purgeFuncBodies) mode).1
            (c.ParseFile fset uri (firstSrc c src purgeFuncBodies) mode).2.1
            (Parse c fset uri src mode purgeFuncBodies).res.ParseErr) := by
  refine ⟨rfl, ?_⟩
  have key : ∀ (x : Call W F T) n (st : State W F T), st.calls.head? = some x →
      (repairLoop c uri mode n st).calls.head? = some x := by
    intro x
    apply repairLoop_rule c uri mode (fun _ st => st.calls.head? = some x)
      (fun st => st.calls.head? = some x)
    · intro st h
      exact h
    · intro n st srcFix h _
      cases hc : st.calls with
      | nil => simp [hc] at h
      | cons a l => simpa [hc] using h
    · intro n st newSrc srcFix h _ _
      cases hc : st.calls with
      | nil => simp [hc] at h
      | cons a l => simpa [adopt, hc] using h
    · intro n st newSrc srcFix h _ _
      cases hc : st.calls with
      | nil => simp [hc] at h
      | cons a l => simpa [runFixAST, adopt, hc] using h
  unfold Parse
  by_cases h : (c.ParseFile fset uri (firstSrc c src purgeFuncBodies) mode).2.2 = []
  · simp [h]
  · simp only [ne_eq, h, not_false_eq_true, if_true]
    apply key
    simp [runFixAST]

/-- C4: the tree, the token file and the buffer of the result belong to one
and the same invocation of the base parser, the last one of the run: Src
(and the mapper's content) is the buffer passed to it, Tok is the token file
of the tree it returned, and File is that tree, as fixAST left it when that
parse reported errors. That buffer is the last one fixSrc returned, or the
first buffer when fixSrc returned none. -/
theorem Parse_result_consistent (c : Collaborators W F T) (fset : W) (uri : String)
    (src : Bytes) (mode : Nat) (purgeFuncBodies : Bool) :
    ∃ lastSrc lastFset lastFile lastErr,
      lastParse (Parse c fset uri src mode purgeFuncBodies).calls
          = some (lastSrc, lastFset, lastFile, lastErr)
        ∧ (Parse c fset uri src mode purgeFuncBodies).res.Src = lastSrc
        ∧ (Parse c fset uri src mode purgeFuncBodies).res.Mapper.Content = lastSrc
        ∧ (Parse c fset uri src mode purgeFuncBodies).res.Tok = c.tokenFile lastFset lastFile
        ∧ (Parse c fset uri src mode purgeFuncBodies).res.File
            = (if lastErr = [] then lastFile
               else (c.fixAST lastFile (c.tokenFile lastFset lastFile) lastSrc).1)
        ∧ lastSrc
            = (((Parse c fset uri src mode purgeFuncBodies).calls.filterMap Call.accepted).getLast?).getD
                (firstSrc c src purgeFuncBodies) := by
  have key : ∀ n (st : State W F T),
      (∃ lastSrc lastFset lastFile lastErr,
        lastParse st.calls = some (lastSrc, lastFset, lastFile, lastErr) ∧ lastErr ≠ []
          ∧ st.fset = lastFset ∧ st.src = lastSrc ∧ st.tok = c.tokenFile lastFset lastFile
          ∧ st.file = (c.fixAST lastFile (c.tokenFile lastFset lastFile) lastSrc).1
          ∧ lastSrc = ((st.calls.filterMap Call.accepted).getLast?).getD
              (firstSrc c src purgeFuncBodies)) →
      (∃ lastSrc lastFset lastFile lastErr,
        lastParse (repairLoop c uri mode n st).calls = some (lastSrc, lastFset, lastFile, lastErr)
          ∧ (repairLoop c uri mode n st).src = lastSrc
          ∧ (repairLoop c uri mode n st).tok = c.tokenFile lastFset lastFile
          ∧ (repairLoop c uri mode n st).file
              = (if lastErr = [] then lastFile
                 else (c.fixAST lastFile (c.tokenFile lastFset lastFile) lastSrc).1)
          ∧ lastSrc = (((repairLoop c uri mode n st).calls.filterMap Call.accepted).getLast?).getD
              (firstSrc c src purgeFuncBodies)) := by
    apply repairLoop_rule c uri mode
      (fun _ st => ∃ lastSrc lastFset lastFile lastErr,
        lastParse st.calls = some (lastSrc, lastFset, lastFile, lastErr) ∧ lastErr ≠ []
          ∧ st.fset = lastFset ∧ st.src = lastSrc ∧ st.tok = c.tokenFile lastFset lastFile
          ∧ st.file = (c.fixAST lastFile (c.tokenFile lastFset lastFile) lastSrc).1
          ∧ lastSrc = ((st.calls.filterMap Call.accepted).getLast?).getD
              (firstSrc c src purgeFuncBodies))
      (fun st => ∃ lastSrc lastFset lastFile lastErr,
        lastParse st.calls = some (lastSrc, lastFset, lastFile, lastErr)
          ∧ st.src = lastSrc ∧ st.tok = c.tokenFile lastFset lastFile
          ∧ st.file = (if lastErr = [] then lastFile
                 else (c.fixAST lastFile (c.tokenFile lastFset lastFile) lastSrc).1)
          ∧ lastSrc = ((st.calls.filterMap Call.accepted).getLast?).getD
              (firstSrc c src purgeFuncBodies))
    · rintro st ⟨s1, w1, f1, e1, h1, h2, _, h4, h5, h6, h7⟩
      exact ⟨s1, w1, f1, e1, h1, h4, h5, by simp [h2, h6], h7⟩
    · rintro n st srcFix ⟨s1, w1, f1, e1, h1, h2, _, h4, h5, h6, h7⟩ _
      refine ⟨s1, w1, f1, e1, ?_, h4, h5, by simp [h2, h6], ?_⟩
      · simpa [lastParse, List.filterMap_append, Call.parsed] using h1
      · simpa [List.filterMap_append, Call.accepted] using h7
    · rintro n st newSrc srcFix ⟨s1, w1, f1, e1, h1, h2, h3, h4, h5, h6, h7⟩ _ hc
      refine ⟨newSrc, (c.ParseFile st.fset uri newSrc mode).1,
        (c.ParseFile st.fset uri newSrc mode).2.1, [], ?_, rfl, rfl, by simp [adopt], ?_⟩
      · simp only [adopt] at hc
        simp [lastParse, adopt, List.filterMap_append, Call.parsed, hc]
      · simp [adopt, List.filterMap_append, Call.accepted]
    · rintro n st newSrc srcFix ⟨s1, w1, f1, e1, h1, h2, h3, h4, h5, h6, h7⟩ _ hc
      refine ⟨newSrc, (c.ParseFile st.fset uri newSrc mode).1,
        (c.ParseFile st.fset uri newSrc mode).2.1, (c.ParseFile st.fset uri newSrc mode).2.2,
        ?_, ?_, rfl, rfl, rfl, rfl, ?_⟩
      · simp [lastParse, runFixAST, adopt, List.filterMap_append, Call.parsed]
      · simpa [adopt] using hc
      · simp [runFixAST, adopt, List.filterMap_append, Call.accepted]
  by_cases h : (c.ParseFile fset uri (firstSrc c src purgeFuncBodies) mode).2.2 = []
  · refine ⟨firstSrc c src purgeFuncBodies,
      (c.ParseFile fset uri (firstSrc c src purgeFuncBodies) mode).1,
      (c.ParseFile fset uri (firstSrc c src purgeFuncBodies) mode).2.1, [], ?_⟩
    simp [Parse, h, lastParse, Call.parsed, Call.accepted]
  · have hk := key 10 (runFixAST c
        { fset := (c.ParseFile fset uri (firstSrc c src purgeFuncBodies) mode).1
          file := (c.ParseFile fset uri (firstSrc c src purgeFuncBodies) mode).2.1
          src := firstSrc c src purgeFuncBodies
          tok := c.tokenFile (c.ParseFile fset uri (firstSrc c src purgeFuncBodies) mode).1
            (c.ParseFile fset uri (firstSrc c src purgeFuncBodies) mode).2.1
          fixes := []
          fixedSrc := false
          fixedAST := false
          calls := [Call.ParseFile (firstSrc c src purgeFuncBodies)
            (c.ParseFile fset uri (firstSrc c src purgeFuncBodies) mode).1
            (c.ParseFile fset uri (firstSrc c src purgeFuncBodies) mode).2.1
            (c.ParseFile fset uri (firstSrc c src purgeFuncBodies) mode).2.2] })
      ⟨firstSrc c src purgeFuncBodies,
        (c.ParseFile fset uri (firstSrc c src purgeFuncBodies) mode).1,
        (c.ParseFile fset uri (firstSrc c src purgeFuncBodies) mode).2.1,
        (c.ParseFile fset uri (firstSrc c src purgeFuncBodies) mode).2.2,
        by simp [lastParse, runFixAST, Call.parsed], h, rfl, rfl, rfl, rfl,
        by simp [runFixAST, Call.accepted]⟩
    obtain ⟨s1, w1, f1, e1, h1, h2, h3, h4, h5⟩ := hk
    refine ⟨s1, w1, f1, e1, ?_, ?_, ?_, ?_, ?_, ?_⟩
    · simpa [Parse, h] using h1
    · simpa [Parse, h] using h2
    · simpa [Parse, h] using h2
    · simpa [Parse, h] using h3
    · simpa [Parse, h] using h4
    · simpa [Parse, h] using h5

/-- C5 (the code at the failing input): fixAST repairs the first tree, so
fixedAST becomes true; fixSrc returns a buffer that parses without errors,
and the loop is left before fixedAST is written again. The result carries
the tree of the second parse, in which nothing was repaired, and fixedAST =
true. -/
theorem Parse_fixedAST_stale :
    (Parse demo.collab 0 "a.go" (demo.ascii "xy") 0 false).res.fixedAST = true
      ∧ (Parse demo.collab 0 "a.go" (demo.ascii "xy") 0 false).res.File = (demo.ascii "xy_", 0)
      ∧ lastParse (Parse demo.collab 0 "a.go" (demo.ascii "xy") 0 false).calls
          = some (demo.ascii "xy_", 2, (demo.ascii "xy_", 0), [])
      ∧ (Parse demo.collab 0 "a.go" (demo.ascii "xy") 0 false).calls.map Call.tags
          = [[], [FixType.FixedEmptySwitch], [FixType.FixedDanglingSelector], []] := by
  decide

/-- The calls of a run that is not yet over can be followed by the calls of
further rounds. -/
theorem Rounds_snoc_again (calls : List (Call W F T)) (file : F) (tok : T) (src newSrc : Bytes)
    (fix : FixType) (fset : W) (newFile : F) (newErr : scanner.ErrorList) (newTok : T) (fixed : F)
    (fixes : List FixType) (hne : newErr ≠ [])
    (h : ∀ rest : List (Call W F T), Rounds rest → Rounds (calls ++ rest)) :
    ∀ rest : List (Call W F T), Rounds rest →
      Rounds ((calls ++ [Call.fixSrc file tok src (some newSrc) fix,
        Call.ParseFile newSrc fset newFile newErr]
        ++ [Call.fixAST newFile newTok newSrc fixed fixes]) ++ rest) := by
  intro rest hrest
  have := h _ (Rounds.again file tok src newSrc fix fset newFile newErr newTok fixed fixes rest
    hne hrest)
  simpa [List.append_assoc] using this

/-- C6: the fix list is the list of the tags of the calls in the order in
which they were made, and the calls are: the first parse; when it reported
errors, fixAST on the first tree; then the rounds, each one a call of fixSrc
whose buffer is parsed next and, when that parse reported errors, a call of
fixAST on the new tree. A tag of fixSrc is in the list only with the parse of
its buffer behind it in the log. One tag can occur several times. -/
theorem Parse_fixes_in_arrival_order :
    (∀ (c : Collaborators W F T) (fset : W) (uri : String) (src : Bytes) (mode : Nat)
        (purgeFuncBodies : Bool),
      (Parse c fset uri src mode purgeFuncBodies).fixes
          = ((Parse c fset uri src mode purgeFuncBodies).calls.map Call.tags).flatten
        ∧ ((Parse c fset uri src mode purgeFuncBodies).calls
              = [Call.ParseFile (firstSrc c src purgeFuncBodies)
                  (c.ParseFile fset uri (firstSrc c src purgeFuncBodies) mode).1
                  (c.ParseFile fset uri (firstSrc c src purgeFuncBodies) mode).2.1 []]
            ∨ ∃ firstErr fixed fixes rest, firstErr ≠ [] ∧ Rounds rest
                ∧ (Parse c fset uri src mode purgeFuncBodies).calls
                  = Call.ParseFile (firstSrc c src purgeFuncBodies)
                      (c.ParseFile fset uri (firstSrc c src purgeFuncBodies) mode).1
                      (c.ParseFile fset uri (firstSrc c src purgeFuncBodies) mode).2.1 firstErr
                    :: Call.fixAST (c.ParseFile fset uri (firstSrc c src purgeFuncBodies) mode).2.1
                        (c.tokenFile (c.ParseFile fset uri (firstSrc c src purgeFuncBodies) mode).1
                          (c.ParseFile fset uri (firstSrc c src purgeFuncBodies) mode).2.1)
                        (firstSrc c src purgeFuncBodies) fixed fixes
                    :: rest))
      ∧ (Parse demo.collab 0 "a.go" [] 0 false).fixes.count FixType.FixedDanglingSelector = 3 := by
  refine ⟨?_, by decide⟩
  intro c fset uri src mode purgeFuncBodies
  have tagsOf : ∀ n (st : State W F T), st.fixes = (st.calls.map Call.tags).flatten →
      (repairLoop c uri mode n st).fixes
        = ((repairLoop c uri mode n st).calls.map Call.tags).flatten := by
    apply repairLoop_rule c uri mode (fun _ st => st.fixes = (st.calls.map Call.tags).flatten)
      (fun st => st.fixes = (st.calls.map Call.tags).flatten)
    · intro st h
      exact h
    · intro n st srcFix h _
      simpa [Call.tags] using h
    · intro n st newSrc srcFix h _ _
      simp [adopt, Call.tags, h]
    · intro n st newSrc srcFix h _ _
      by_cases hl : 0 < (c.fixAST (c.ParseFile st.fset uri newSrc mode).2.1
          (c.tokenFile (c.ParseFile st.fset uri newSrc mode).1
            (c.ParseFile st.fset uri newSrc mode).2.1) newSrc).2.length
      · simp [runFixAST, adopt, Call.tags, h, hl]
      · have hnil : (c.fixAST (c.ParseFile st.fset uri newSrc mode).2.1
            (c.tokenFile (c.ParseFile st.fset uri newSrc mode).1
              (c.ParseFile st.fset uri newSrc mode).2.1) newSrc).2 = [] :=
          List.length_eq_zero.mp (by omega)
        simp [runFixAST, adopt, Call.tags, h, hnil]
  have shape : ∀ (pre : List (Call W F T)) n (st : State W F T),
      (∃ calls, st.calls = pre ++ calls
        ∧ ∀ rest : List (Call W F T), Rounds rest → Rounds (calls ++ rest)) →
      (∃ calls, (repairLoop c uri mode n st).calls = pre ++ calls ∧ Rounds calls) := by
    intro pre
    apply repairLoop_rule c uri mode
      (fun _ st => ∃ calls, st.calls = pre ++ calls
        ∧ ∀ rest : List (Call W F T), Rounds rest → Rounds (calls ++ rest))
      (fun st => ∃ calls, st.calls = pre ++ calls ∧ Rounds calls)
    · rintro st ⟨calls, h1, h2⟩
      exact ⟨calls, h1, by simpa using h2 [] Rounds.ceiling⟩
    · rintro n st srcFix ⟨calls, h1, h2⟩ _
      exact ⟨calls ++ [Call.fixSrc st.file st.tok st.src none srcFix],
        by simp [h1], h2 _ (Rounds.nothing _ _ _ _)⟩
    · rintro n st newSrc srcFix ⟨calls, h1, h2⟩ _ hc
      simp only [adopt] at hc
      refine ⟨calls ++ [Call.fixSrc st.file st.tok st.src (some newSrc) srcFix,
        Call.ParseFile newSrc (c.ParseFile st.fset uri newSrc mode).1
          (c.ParseFile st.fset uri newSrc mode).2.1 []], by simp [adopt, h1, hc],
        h2 _ (Rounds.clean _ _ _ _ _ _ _)⟩
    · rintro n st newSrc srcFix ⟨calls, h1, h2⟩ _ hc
      simp only [adopt] at hc
      refine ⟨(calls ++ [Call.fixSrc st.file st.tok st.src (some newSrc) srcFix,
          Call.ParseFile newSrc (c.ParseFile st.fset uri newSrc mode).1
            (c.ParseFile st.fset uri newSrc mode).2.1 (c.ParseFile st.fset uri newSrc mode).2.2]
          ++ [Call.fixAST (c.ParseFile st.fset uri newSrc mode).2.1
            (c.tokenFile (c.ParseFile st.fset uri newSrc mode).1
              (c.ParseFile st.fset uri newSrc mode).2.1) newSrc
            (c.fixAST (c.ParseFile st.fset uri newSrc mode).2.1
              (c.tokenFile (c.ParseFile st.fset uri newSrc mode).1
                (c.ParseFile st.fset uri newSrc mode).2.1) newSrc).1
            (c.fixAST (c.ParseFile st.fset uri newSrc mode).2.1
              (c.tokenFile (c.ParseFile st.fset uri newSrc mode).1
                (c.ParseFile st.fset uri newSrc mode).2.1) newSrc).2]),
        by simp [runFixAST, adopt, h1], ?_⟩
      exact Rounds_snoc_again calls _ _ _ _ _ _ _ _ _ _ _ hc h2
  by_cases h : (c.ParseFile fset uri (firstSrc c src purgeFuncBodies) mode).2.2 = []
  · refine ⟨by simp [Parse, h, Call.tags], Or.inl (by simp [Parse, h])⟩
  · constructor
    · simp only [Parse, ne_eq, h, not_false_eq_true, if_true]
      apply tagsOf
      by_cases hl : 0 < (c.fixAST (c.ParseFile fset uri (firstSrc c src purgeFuncBodies) mode).2.1
          (c.tokenFile (c.ParseFile fset uri (firstSrc c src purgeFuncBodies) mode).1
            (c.ParseFile fset uri (firstSrc c src purgeFuncBodies) mode).2.1)
          (firstSrc c src purgeFuncBodies)).2.length
      · simp [runFixAST, Call.tags, hl]
      · have hnil : (c.fixAST (c.ParseFile fset uri (firstSrc c src purgeFuncBodies) mode).2.1
            (c.tokenFile (c.ParseFile fset uri (firstSrc c src purgeFuncBodies) mode).1
              (c.ParseFile fset uri (firstSrc c src purgeFuncBodies) mode).2.1)
            (firstSrc c src purgeFuncBodies)).2 = [] :=
          List.length_eq_zero.mp (by omega)
        simp [runFixAST, Call.tags, hnil]
    · right
      have hs := shape
        [Call.ParseFile (firstSrc c src purgeFuncBodies)
            (c.ParseFile fset uri (firstSrc c src purgeFuncBodies) mode).1
            (c.ParseFile fset uri (firstSrc c src purgeFuncBodies) mode).2.1
            (c.ParseFile fset uri (firstSrc c src purgeFuncBodies) mode).2.2,
          Call.fixAST (c.ParseFile fset uri (firstSrc c src purgeFuncBodies) mode).2.1
            (c.tokenFile (c.ParseFile fset uri (firstSrc c src purgeFuncBodies) mode).1
              (c.ParseFile fset uri (firstSrc c src purgeFuncBodies) mode).2.1)
            (firstSrc c src purgeFuncBodies)
            (c.fixAST (c.ParseFile fset uri (firstSrc c src purgeFuncBodies) mode).2.1
              (c.tokenFile (c.ParseFile fset uri (firstSrc c src purgeFuncBodies) mode).1
                (c.ParseFile fset uri (firstSrc c src purgeFuncBodies) mode).2.1)
              (firstSrc c src purgeFuncBodies)).1
            (c.fixAST (c.ParseFile fset uri (firstSrc c src purgeFuncBodies) mode).2.1
              (c.tokenFile (c.ParseFile fset uri (firstSrc c src purgeFuncBodies) mode).1
                (c.ParseFile fset uri (firstSrc c src purgeFuncBodies) mode).2.1)
              (firstSrc c src purgeFuncBodies)).2]
        10
        (runFixAST c
          { fset := (c.ParseFile fset uri (firstSrc c src purgeFuncBodies) mode).1
            file := (c.ParseFile fset uri (firstSrc c src purgeFuncBodies) mode).2.1
            src := firstSrc c src purgeFuncBodies
            tok := c.tokenFile (c.ParseFile fset uri (firstSrc c src purgeFuncBodies) mode).1
              (c.ParseFile fset uri (firstSrc c src purgeFuncBodies) mode).2.1
            fixes := []
            fixedSrc := false
            fixedAST := false
            calls := [Call.ParseFile (firstSrc c src purgeFuncBodies)
              (c.ParseFile fset uri (firstSrc c src purgeFuncBodies) mode).1
              (c.ParseFile fset uri (firstSrc c src purgeFuncBodies) mode).2.1
              (c.ParseFile fset uri (firstSrc c src purgeFuncBodies) mode).2.2] })
        ⟨[], by simp [runFixAST], fun rest hr => by simpa using hr⟩
      obtain ⟨calls, h1, h2⟩ := hs
      refine ⟨(c.ParseFile fset uri (firstSrc c src purgeFuncBodies) mode).2.2,
        (c.fixAST (c.ParseFile fset uri (firstSrc c src purgeFuncBodies) mode).2.1
          (c.tokenFile (c.ParseFile fset uri (firstSrc c src purgeFuncBodies) mode).1
            (c.ParseFile fset uri (firstSrc c src purgeFuncBodies) mode).2.1)
          (firstSrc c src purgeFuncBodies)).1,
        (c.fixAST (c.ParseFile fset uri (firstSrc c src purgeFuncBodies) mode).2.1
          (c.tokenFile (c.ParseFile fset uri (firstSrc c src purgeFuncBodies) mode).1
            (c.ParseFile fset uri (firstSrc c src purgeFuncBodies) mode).2.1)
          (firstSrc c src purgeFuncBodies)).2, calls, h, h2, ?_⟩
      simpa [Parse, h] using h1

end orchestrator

end parsego

namespace parsego

section fixers

theorem Offset_le (tok : token.File) (pos : token.Pos) (o : Nat)
    (h : safetoken.Offset tok pos = some o) : (o : Int) ≤ pos - (tok.base : Int) ∧ o ≤ tok.size := by
  unfold safetoken.Offset at h
  by_cases hr : safetoken.inRange tok pos = true
  · rw [if_pos hr] at h
    simp only [Option.some.injEq] at h
    simp only [safetoken.inRange, Bool.and_eq_true, decide_eq_true_eq] at hr
    unfold token.Pos at *
    have h0 : (0 : Int) ≤ pos - (tok.base : Int) := by omega
    have h1 : (((pos - (tok.base : Int)).toNat : Nat) : Int) = pos - (tok.base : Int) :=
      Int.toNat_of_nonneg h0
    rw [h] at h1
    omega
  · rw [if_neg hr] at h
    by_cases he : pos = (tok.base : Int) + (tok.size : Int) + 1
    · rw [if_pos he] at h
      simp only [Option.some.injEq] at h
      unfold token.Pos at *
      omega
    · rw [if_neg he] at h
      simp at h

theorem commentPass_foldl_le (comments : List ast.CommentGroup) (p : token.Pos) :
    ∀ acc : token.Pos × Bool, acc.1 ≤ p →
      (comments.foldl
        (fun acc c => if c.Pos < acc.1 ∧ acc.1 ≤ c.End then (c.Pos, true) else acc) acc).1 ≤ p := by
  induction comments with
  | nil => intro acc h; simpa using h
  | cons c cs ih =>
    intro acc h
    simp only [List.foldl_cons]
    apply ih
    by_cases hc : c.Pos < acc.1 ∧ acc.1 ≤ c.End
    · simp only [hc, and_self, if_true]
      exact le_of_lt (lt_of_lt_of_le hc.1 h)
    · simp only [hc, if_false]
      exact h

theorem commentPass_le (comments : List ast.CommentGroup) (p : token.Pos) :
    (commentPass comments p).1 ≤ p :=
  commentPass_foldl_le comments p (p, false) (le_refl p)

theorem backOutOfComments_loop_le (comments : List ast.CommentGroup) :
    ∀ (passes : Nat) (p : token.Pos), backOutOfComments.loop comments passes p ≤ p := by
  intro passes
  induction passes with
  | zero => intro p; simp [backOutOfComments.loop]
  | succ n ih =>
    intro p
    simp only [backOutOfComments.loop]
    have h1 := commentPass_le comments p
    by_cases hd : (commentPass comments p).2 = true
    · simp only [hd, if_true]
      exact le_trans (ih _) h1
    · simp only [hd, Bool.false_eq_true, if_false]
      exact h1

theorem backOutOfComments_le (comments : List ast.CommentGroup) (p : token.Pos) :
    backOutOfComments comments p ≤ p :=
  backOutOfComments_loop_le comments _ p

theorem commentPass_foldl_cases (all : List ast.CommentGroup) (p : token.Pos) :
    ∀ (cs : List ast.CommentGroup) (acc : token.Pos × Bool), (∀ c ∈ cs, c ∈ all) →
      ((acc.2 = false ∧ acc.1 = p) ∨ (acc.2 = true ∧ ∃ c ∈ all, acc.1 = c.Pos ∧ c.Pos < p)) →
      (((cs.foldl (fun acc c => if c.Pos < acc.1 ∧ acc.1 ≤ c.End then (c.Pos, true) else acc)
            acc).2 = false
          ∧ (cs.foldl (fun acc c => if c.Pos < acc.1 ∧ acc.1 ≤ c.End then (c.Pos, true) else acc)
            acc).1 = p)
        ∨ ((cs.foldl (fun acc c => if c.Pos < acc.1 ∧ acc.1 ≤ c.End then (c.Pos, true) else acc)
            acc).2 = true
          ∧ ∃ c ∈ all,
            (cs.foldl (fun acc c => if c.Pos < acc.1 ∧ acc.1 ≤ c.End then (c.Pos, true) else acc)
              acc).1 = c.Pos ∧ c.Pos < p)) := by
  intro cs
  induction cs with
  | nil => intro acc _ h; simpa using h
  | cons c cs ih =>
    intro acc hsub h
    simp only [List.foldl_cons]
    apply ih _ (fun x hx => hsub x (List.mem_cons_of_mem _ hx))
    by_cases hc : c.Pos < acc.1 ∧ acc.1 ≤ c.End
    · rw [if_pos hc]
      right
      refine ⟨rfl, c, hsub c (List.mem_cons_self _ _), rfl, ?_⟩
      rcases h with ⟨_, h2⟩ | ⟨_, c2, _, h3, h4⟩
      · rw [← h2]; exact hc.1
      · exact lt_trans (h3 ▸ hc.1) h4
    · rw [if_neg hc]
      exact h

/-- A pass of the comment loop either leaves the position alone or moves it
to the start of a comment that begins before it. -/
theorem commentPass_cases (comments : List ast.CommentGroup) (p : token.Pos) :
    ((commentPass comments p).2 = false ∧ (commentPass comments p).1 = p)
      ∨ ((commentPass comments p).2 = true
        ∧ ∃ c ∈ comments, (commentPass comments p).1 = c.Pos ∧ c.Pos < p) :=
  commentPass_foldl_cases comments p comments (p, false) (fun _ h => h) (Or.inl ⟨rfl, rfl⟩)

theorem countP_lt_of_witness {α : Type} (P Q : α → Bool) (himp : ∀ x, P x = true → Q x = true) :
    ∀ (l : List α) (c : α), c ∈ l → Q c = true → P c = false → l.countP P < l.countP Q := by
  intro l
  induction l with
  | nil => intro c hc; simp at hc
  | cons a l ih =>
    intro c hc hq hp
    have hmono : l.countP P ≤ l.countP Q := List.countP_mono_left (fun x _ => himp x)
    simp only [List.countP_cons]
    rcases List.mem_cons.mp hc with h | h
    · rw [← h, hq, hp]
      simp only [if_true, Bool.false_eq_true, if_false]
      omega
    · have hlt := ih c h hq hp
      by_cases hpa : P a = true
      · rw [hpa, himp a hpa]
        simp only [if_true]
        omega
      · simp only [hpa, Bool.false_eq_true, if_false]
        split <;> omega

/-- The comment loop is over when it returns: the number of passes it is
allowed is enough to reach a pass that does not move the position. -/
theorem backOutOfComments_settled (comments : List ast.CommentGroup) (p : token.Pos) :
    (commentPass comments (backOutOfComments comments p)).2 = false := by
  have key : ∀ (passes : Nat) (q : token.Pos),
      comments.countP (fun c => decide (c.Pos < q)) < passes →
      (commentPass comments (backOutOfComments.loop comments passes q)).2 = false := by
    intro passes
    induction passes with
    | zero => intro q h; omega
    | succ n ih =>
      intro q h
      simp only [backOutOfComments.loop]
      rcases commentPass_cases comments q with ⟨h1, h2⟩ | ⟨h1, c, hc, h3, h4⟩
      · rw [h1]
        simp only [Bool.false_eq_true, if_false]
        rw [h2]
        exact h1
      · rw [h1]
        simp only [if_true]
        apply ih
        have hlt : comments.countP (fun c => decide (c.Pos < (commentPass comments q).1))
            < comments.countP (fun c => decide (c.Pos < q)) := by
          apply countP_lt_of_witness _ _ _ comments c hc
          · simpa using h4
          · rw [h3]; simp
          · intro x hx
            simp only [decide_eq_true_eq] at hx ⊢
            rw [h3] at hx
            exact lt_trans hx h4
        omega
  apply key
  have := List.countP_le_length (fun c : ast.CommentGroup => decide (c.Pos < p)) (l := comments)
  omega

/-- C9: a buffer returned by fixDanglingSelector is src with the one byte of
an underscore inserted after the period that src holds at the offset o of
s.X.End(): it is src[:o+1], the underscore, src[o+1:], and one byte longer
than src. (src is a value here and cannot be modified.) -/
theorem fixDanglingSelector_inserts_underscore (X : ast.Expr) (Sel : ast.Ident)
    (tf : token.File) (src newSrc : Bytes)
    (h : fixDanglingSelector X Sel tf src = .ok (some newSrc)) :
    ∃ o, safetoken.Offset tf X.End = some o
      ∧ o < src.length
      ∧ src.get? o = some chPeriod
      ∧ newSrc = src.take (o + 1) ++ [chUnderscore] ++ src.drop (o + 1)
      ∧ newSrc.length = src.length + 1 := by
  unfold fixDanglingSelector at h
  split at h
  · simp at h
  · split at h
    · simp at h
    · split at h
      · simp at h
      · rename_i offset hoff
        simp only [Nat.add_sub_cancel] at h
        split at h
        · simp at h
        · rename_i c hc
          split at h
          · simp at h
          · rename_i hne
            simp only [ne_eq, Decidable.not_not] at hne
            simp only [Except.ok.injEq, Option.some.injEq] at h
            have hlt : offset < src.length := by
              rcases Nat.lt_or_ge offset src.length with hl | hl
              · exact hl
              · rw [List.get?_eq_none.mpr hl] at hc
                simp at hc
            refine ⟨offset, hoff, hlt, by rw [hc, hne], h.symm, ?_⟩
            rw [← h]
            simp only [List.length_append, List.length_take, List.length_drop, List.length_cons,
              List.length_nil]
            omega

theorem fixDanglingSelector_inserts_underscore_witness :
    fixDanglingSelector (ast.Expr.Ident { NamePos := 1, Name := "x" }) { NamePos := 3, Name := "_" }
        demo.dotTok demo.dotSrc = .ok (some (demo.ascii "x._\n"))
      ∧ ∃ o, safetoken.Offset demo.dotTok (ast.Expr.Ident { NamePos := 1, Name := "x" }).End = some o
        ∧ o < demo.dotSrc.length
        ∧ demo.dotSrc.get? o = some chPeriod
        ∧ demo.ascii "x._\n" = demo.dotSrc.take (o + 1) ++ [chUnderscore] ++ demo.dotSrc.drop (o + 1)
        ∧ (demo.ascii "x._\n").length = demo.dotSrc.length + 1 :=
  ⟨rfl, fixDanglingSelector_inserts_underscore (ast.Expr.Ident { NamePos := 1, Name := "x" })
    { NamePos := 3, Name := "_" } demo.dotTok demo.dotSrc (demo.ascii "x._\n") rfl⟩

/-- C10: a buffer returned by fixMissingCurlies is src[:o], an optional
semicolon, the two braces, src[o:], for one offset o within src, so it is
two or three bytes longer than src and keeps every byte of src in order;
and o is not after the offset of the last position of the line on which
the parent starts, the position before the start of the next line. -/
theorem fixMissingCurlies_inserts_braces (scan : Scanner) (f : ast.File) (b : ast.Block)
    (parent : ast.Node) (tok : token.File) (src newSrc : Bytes)
    (h : fixMissingCurlies scan f b parent tok src = .ok (some newSrc)) :
    ∃ (o : Nat) (sep : Bytes) (lineStart : token.Pos),
      tok.LineStart (safetoken.Line tok parent.Pos + 1) = .ok lineStart
        ∧ (o : Int) ≤ (lineStart - 1) - (tok.base : Int)
        ∧ o ≤ src.length
        ∧ (sep = [] ∨ sep = [chSemicolon])
        ∧ newSrc = src.take o ++ sep ++ [chLbrace, chRbrace] ++ src.drop o
        ∧ newSrc.length = src.length + 2 + sep.length
        ∧ (newSrc.length = src.length + 2 ∨ newSrc.length = src.length + 3) := by
  cases b with
  | mk lbrace list rbrace =>
    simp only [fixMissingCurlies] at h
    by_cases h1 : hasLbrace lbrace tok src = true
    · simp [h1] at h
    · rw [if_neg h1] at h
      by_cases h2 : safetoken.Line tok parent.Pos ≥ tok.LineCount
      · simp [h2] at h
      · rw [if_neg h2] at h
        cases hls : tok.LineStart (safetoken.Line tok parent.Pos + 1) with
        | error e => simp [hls] at h
        | ok lineStart =>
          simp only [hls] at h
          cases hpt : precedingToken scan (backOutOfComments f.Comments (lineStart - 1)) tok src with
          | error e => simp [hpt] at h
          | ok t =>
            simp only [hpt] at h
            by_cases h3 : t = token.Token.IDENT ∨ t = token.Token.PERIOD
            · rw [if_pos h3] at h
              cases hoff : safetoken.Offset tok (backOutOfComments f.Comments (lineStart - 1)) with
              | none => simp [hoff] at h
              | some offset =>
                simp only [hoff] at h
                by_cases h4 : offset > src.length
                · simp [h4] at h
                · rw [if_neg h4] at h
                  simp only [Except.ok.injEq, Option.some.injEq] at h
                  have hpos := backOutOfComments_le f.Comments (lineStart - 1)
                  have ho := (Offset_le tok _ offset hoff).1
                  have hlen : offset ≤ src.length := by omega
                  have hsep : (if needsSemicolon parent = true then [chSemicolon] else ([] : Bytes))
                        = []
                      ∨ (if needsSemicolon parent = true then [chSemicolon] else ([] : Bytes))
                        = [chSemicolon] := by
                    by_cases hn : needsSemicolon parent = true
                    · right; simp [hn]
                    · left; simp [hn]
                  have hl : newSrc.length = src.length + 2
                      + (if needsSemicolon parent = true then [chSemicolon]
                          else ([] : Bytes)).length := by
                    rw [← h]
                    simp only [List.length_append, List.length_take, List.length_drop,
                      List.length_cons, List.length_nil]
                    omega
                  have hoo : (offset : Int) ≤ (lineStart - 1) - (tok.base : Int) := by
                    unfold token.Pos at *
                    omega
                  refine ⟨offset, _, lineStart, rfl, hoo, hlen, hsep, h.symm, hl, ?_⟩
                  rcases hsep with hs | hs
                  · left; rw [hl, hs]; rfl
                  · right; rw [hl, hs]; rfl
            · simp [h3] at h

theorem fixMissingCurlies_inserts_braces_witness :
    fixMissingCurlies demo.scan demo.ifFile demo.ifBody (ast.Node.Stmt demo.ifStmt) demo.ifTok
        demo.ifSrc = .ok (some (demo.ascii "package p\n\nfunc _() \x7b\n\tif foo\x7b\x7d\n\tbar()\n\x7d\n"))
      ∧ ∃ (o : Nat) (sep : Bytes) (lineStart : token.Pos),
        demo.ifTok.LineStart (safetoken.Line demo.ifTok (ast.Node.Stmt demo.ifStmt).Pos + 1)
            = .ok lineStart
          ∧ (o : Int) ≤ (lineStart - 1) - (demo.ifTok.base : Int)
          ∧ o ≤ demo.ifSrc.length
          ∧ (sep = [] ∨ sep = [chSemicolon])
          ∧ demo.ascii "package p\n\nfunc _() \x7b\n\tif foo\x7b\x7d\n\tbar()\n\x7d\n"
              = demo.ifSrc.take o ++ sep ++ [chLbrace, chRbrace] ++ demo.ifSrc.drop o
          ∧ (demo.ascii "package p\n\nfunc _() \x7b\n\tif foo\x7b\x7d\n\tbar()\n\x7d\n").length
              = demo.ifSrc.length + 2 + sep.length
          ∧ ((demo.ascii "package p\n\nfunc _() \x7b\n\tif foo\x7b\x7d\n\tbar()\n\x7d\n").length
                = demo.ifSrc.length + 2
              ∨ (demo.ascii "package p\n\nfunc _() \x7b\n\tif foo\x7b\x7d\n\tbar()\n\x7d\n").length
                = demo.ifSrc.length + 3) :=
  ⟨rfl, fixMissingCurlies_inserts_braces demo.scan demo.ifFile demo.ifBody
    (ast.Node.Stmt demo.ifStmt) demo.ifTok demo.ifSrc
    (demo.ascii "package p\n\nfunc _() \x7b\n\tif foo\x7b\x7d\n\tbar()\n\x7d\n") rfl⟩

end fixers

section traversal

open ast

theorem foldl_map_flatten {α β σ : Type} (step : σ → β → σ) (g : α → List β) :
    ∀ (l : List α) (acc : σ),
      l.foldl (fun acc c => (g c).foldl step acc) acc = ((l.map g).flatten).foldl step acc := by
  intro l
  induction l with
  | nil => intro acc; rfl
  | cons a l ih =>
    intro acc
    simp only [List.foldl_cons, List.map_cons, List.flatten_cons, List.foldl_append]
    exact ih _

theorem foldl_fixed {β σ : Type} (step : σ → β → σ) (s : σ) (hs : ∀ b, step s b = s) :
    ∀ l : List β, l.foldl step s = s := by
  intro l
  induction l with
  | nil => rfl
  | cons b l ih => simp only [List.foldl_cons, hs, ih]

/-- A traversal whose callback leaves a stopped state alone and descends
exactly when the state it returns is not stopped is a left fold of the
callback over the nodes in pre-order. -/
theorem PreorderStack_walk_eq_foldl {σ : Type} (cb : σ → Node → List Node → σ × Bool)
    (stopped : σ → Prop)
    (hstop : ∀ s n k, stopped s → cb s n k = (s, false))
    (hdesc : ∀ s n k, (cb s n k).2 = false → stopped (cb s n k).1) :
    ∀ (d : Nat) (n : Node) (stack : List Node) (s : σ),
      PreorderStack.walk cb d n stack s
        = (preorder.walk d n stack).foldl (fun s p => (cb s p.1 p.2).1) s := by
  intro d
  induction d with
  | zero => intro n stack s; rfl
  | succ d ih =>
    intro n stack s
    simp only [PreorderStack.walk, preorder.walk, List.foldl_cons]
    by_cases hb : (cb s n stack).2 = true
    · rw [if_pos hb]
      have hfun : (fun acc c => PreorderStack.walk cb d c (stack ++ [n]) acc)
          = (fun acc c => (preorder.walk d c (stack ++ [n])).foldl
              (fun s p => (cb s p.1 p.2).1) acc) := by
        funext acc c
        exact ih c (stack ++ [n]) acc
      rw [hfun]
      exact foldl_map_flatten (fun s p => (cb s p.1 p.2).1)
        (fun c => preorder.walk d c (stack ++ [n])) (children n) (cb s n stack).1
    · rw [if_neg hb]
      have hst : stopped (cb s n stack).1 := hdesc s n stack (by simpa using hb)
      symm
      apply foldl_fixed
      intro p
      rw [hstop _ p.1 p.2 hst]

theorem visit_of_not_running (scan : Scanner) (f : ast.File) (tf : token.File) (src : Bytes)
    (st : SrcWalk) (n : Node) (stack : List Node)
    (h : ¬ ∃ fix, st.out = .ok (none, fix)) :
    fixSrc.visit scan f tf src st n stack = (st, false) := by
  unfold fixSrc.visit
  cases hout : st.out with
  | error e => rfl
  | ok r =>
    rcases r with ⟨newSrc, fix⟩
    cases newSrc with
    | none => exact absurd ⟨fix, hout⟩ h
    | some b => rfl

theorem visit_no_fixer (scan : Scanner) (f : ast.File) (tf : token.File) (src : Bytes)
    (st : SrcWalk) (n : Node) (stack : List Node) (fix : FixType)
    (hout : st.out = .ok (none, fix)) (hc : hasSrcFixer (n, stack) = false) :
    fixSrc.visit scan f tf src st n stack = (st, true) := by
  unfold fixSrc.visit
  rw [hout]
  cases n with
  | Expr e => cases e <;> first | rfl | simp [hasSrcFixer] at hc
  | Stmt s => cases s <;> first | rfl | simp [hasSrcFixer] at hc
  | Comment c => rfl
  | CommentGroup g => rfl
  | FieldList l => rfl
  | FuncType t => rfl
  | Decl d => rfl
  | File f => rfl

theorem visit_fixer (scan : Scanner) (f : ast.File) (tf : token.File) (src : Bytes)
    (st : SrcWalk) (n : Node) (stack : List Node) (fix : FixType)
    (hout : st.out = .ok (none, fix)) (hc : hasSrcFixer (n, stack) = true) :
    fixSrc.visit scan f tf src st n stack
      = match srcFixer scan f tf src (n, stack) with
        | .error e => ({ out := .error e, examined := st.examined ++ [(n, stack)] }, false)
        | .ok none => ({ out := .ok (none, fix), examined := st.examined ++ [(n, stack)] }, true)
        | .ok (some newSrc) =>
          ({ out := .ok (some newSrc, srcFixTag (n, stack)),
             examined := st.examined ++ [(n, stack)] }, false) := by
  unfold fixSrc.visit
  rw [hout]
  cases n with
  | Expr e =>
    cases e with
    | SelectorExpr X Sel =>
      simp only [srcFixer, srcFixTag]
    | BadExpr a b => simp [hasSrcFixer] at hc
    | Ident a => simp [hasSrcFixer] at hc
    | BasicLit a b => simp [hasSrcFixer] at hc
    | ParenExpr a b c => simp [hasSrcFixer] at hc
    | CallExpr a b c d e => simp [hasSrcFixer] at hc
    | FuncLit a b => simp [hasSrcFixer] at hc
  | Stmt s =>
    cases s with
    | BlockStmt b =>
      simp only [srcFixer, srcFixTag]
      cases stack.getLast? with
      | none => rfl
      | some parent => rfl
    | BadStmt a b => simp [hasSrcFixer] at hc
    | ExprStmt a => simp [hasSrcFixer] at hc
    | IfStmt a b c d e => simp [hasSrcFixer] at hc
    | ForStmt a b c d e => simp [hasSrcFixer] at hc
    | SwitchStmt a b c d => simp [hasSrcFixer] at hc
    | CaseClause a b c d => simp [hasSrcFixer] at hc
  | Comment c => simp [hasSrcFixer] at hc
  | CommentGroup g => simp [hasSrcFixer] at hc
  | FieldList l => simp [hasSrcFixer] at hc
  | FuncType t => simp [hasSrcFixer] at hc
  | Decl d => simp [hasSrcFixer] at hc
  | File f => simp [hasSrcFixer] at hc

theorem visit_descends (scan : Scanner) (f : ast.File) (tf : token.File) (src : Bytes)
    (st : SrcWalk) (n : Node) (k : List Node)
    (h : (fixSrc.visit scan f tf src st n k).2 = false) :
    ¬ ∃ fix, (fixSrc.visit scan f tf src st n k).1.out = .ok (none, fix) := by
  by_cases hr : ∃ fix, st.out = .ok (none, fix)
  · obtain ⟨fix, hout⟩ := hr
    by_cases hc : hasSrcFixer (n, k) = true
    · rw [visit_fixer scan f tf src st n k fix hout hc] at h ⊢
      cases hfix : srcFixer scan f tf src (n, k) with
      | error e =>
        rintro ⟨fix2, h2⟩
        simp at h2
      | ok r =>
        cases r with
        | none => simp [hfix] at h
        | some b =>
          rintro ⟨fix2, h2⟩
          simp at h2
    · rw [visit_no_fixer scan f tf src st n k fix hout (by simpa using hc)] at h
      simp at h
  · rw [visit_of_not_running scan f tf src st n k hr]
    exact hr

theorem fixSrc_run_eq_foldl (scan : Scanner) (f : ast.File) (tf : token.File) (src : Bytes) :
    fixSrc.run scan f tf src
      = (preorder (Node.File f) []).foldl
          (fun st p => (fixSrc.visit scan f tf src st p.1 p.2).1)
          { out := .ok (none, FixType.noFix), examined := [] } := by
  unfold fixSrc.run astutil.PreorderStack preorder
  exact PreorderStack_walk_eq_foldl (fixSrc.visit scan f tf src)
    (fun st => ¬ ∃ fix, st.out = .ok (none, fix))
    (fun st n k h => visit_of_not_running scan f tf src st n k h)
    (visit_descends scan f tf src) _ _ _ _

theorem foldl_visit_spec (scan : Scanner) (f : ast.File) (tf : token.File) (src : Bytes) :
    ∀ (l : List (Node × List Node)) (st : SrcWalk) (fix0 : FixType),
      st.out = .ok (none, fix0) →
      ∃ ex rest, l.filter hasSrcFixer = ex ++ rest
        ∧ (l.foldl (fun st p => (fixSrc.visit scan f tf src st p.1 p.2).1) st).examined
            = st.examined ++ ex
        ∧ (((l.foldl (fun st p => (fixSrc.visit scan f tf src st p.1 p.2).1) st).out
                = .ok (none, fix0)
              ∧ rest = [] ∧ ∀ p ∈ ex, srcFixer scan f tf src p = .ok none)
          ∨ (∃ pre p newSrc, ex = pre ++ [p]
              ∧ (∀ q ∈ pre, srcFixer scan f tf src q = .ok none)
              ∧ srcFixer scan f tf src p = .ok (some newSrc)
              ∧ (l.foldl (fun st p => (fixSrc.visit scan f tf src st p.1 p.2).1) st).out
                  = .ok (some newSrc, srcFixTag p))
          ∨ (∃ pre p e, ex = pre ++ [p]
              ∧ (∀ q ∈ pre, srcFixer scan f tf src q = .ok none)
              ∧ srcFixer scan f tf src p = .error e
              ∧ (l.foldl (fun st p => (fixSrc.visit scan f tf src st p.1 p.2).1) st).out
                  = .error e)) := by
  intro l
  induction l with
  | nil =>
    intro st fix0 hout
    exact ⟨[], [], rfl, by simp, Or.inl ⟨by simpa using hout, rfl, by simp⟩⟩
  | cons p l ih =>
    intro st fix0 hout
    rcases p with ⟨n, k⟩
    simp only [List.foldl_cons]
    by_cases hc : hasSrcFixer (n, k) = true
    · rw [visit_fixer scan f tf src st n k fix0 hout hc]
      cases hfix : srcFixer scan f tf src (n, k) with
      | error e =>
        simp only []
        have hfixed : l.foldl (fun st p => (fixSrc.visit scan f tf src st p.1 p.2).1)
              { out := .error e, examined := st.examined ++ [(n, k)] }
            = { out := .error e, examined := st.examined ++ [(n, k)] } := by
          apply foldl_fixed
          intro q
          rw [visit_of_not_running]
          rintro ⟨fix2, h2⟩
          simp at h2
        rw [hfixed]
        refine ⟨[(n, k)], l.filter hasSrcFixer, by simp [List.filter_cons, hc], rfl, ?_⟩
        exact Or.inr (Or.inr ⟨[], (n, k), e, rfl, by simp, hfix, rfl⟩)
      | ok r =>
        cases r with
        | none =>
          simp only []
          obtain ⟨ex, rest, h1, h2, h3⟩ :=
            ih { out := .ok (none, fix0), examined := st.examined ++ [(n, k)] } fix0 rfl
          refine ⟨(n, k) :: ex, rest, by simp [List.filter_cons, hc, h1], by simp [h2], ?_⟩
          rcases h3 with ⟨h4, h5, h6⟩ | ⟨pre, q, newSrc, h4, h5, h6, h7⟩ | ⟨pre, q, e, h4, h5, h6, h7⟩
          · refine Or.inl ⟨h4, h5, ?_⟩
            intro q hq
            rcases List.mem_cons.mp hq with hq | hq
            · rw [hq]; exact hfix
            · exact h6 q hq
          · refine Or.inr (Or.inl ⟨(n, k) :: pre, q, newSrc, by simp [h4], ?_, h6, h7⟩)
            intro q hq
            rcases List.mem_cons.mp hq with hq | hq
            · rw [hq]; exact hfix
            · exact h5 q hq
          · refine Or.inr (Or.inr ⟨(n, k) :: pre, q, e, by simp [h4], ?_, h6, h7⟩)
            intro q hq
            rcases List.mem_cons.mp hq with hq | hq
            · rw [hq]; exact hfix
            · exact h5 q hq
        | some b =>
          simp only []
          have hfixed : l.foldl (fun st p => (fixSrc.visit scan f tf src st p.1 p.2).1)
                { out := .ok (some b, srcFixTag (n, k)), examined := st.examined ++ [(n, k)] }
              = { out := .ok (some b, srcFixTag (n, k)), examined := st.examined ++ [(n, k)] } := by
            apply foldl_fixed
            intro q
            rw [visit_of_not_running]
            rintro ⟨fix2, h2⟩
            simp at h2
          rw [hfixed]
          refine ⟨[(n, k)], l.filter hasSrcFixer, by simp [List.filter_cons, hc], rfl, ?_⟩
          exact Or.inr (Or.inl ⟨[], (n, k), b, rfl, by simp, hfix, rfl⟩)
    · have hc2 : hasSrcFixer (n, k) = false := by simpa using hc
      rw [visit_no_fixer scan f tf src st n k fix0 hout hc2]
      obtain ⟨ex, rest, h1, h2, h3⟩ := ih st fix0 hout
      exact ⟨ex, rest, by simp [List.filter_cons, hc2, h1], h2, h3⟩

theorem srcFixTag_of_hasSrcFixer (p : Node × List Node) (h : hasSrcFixer p = true) :
    srcFixTag p = FixType.FixedCurlies ∨ srcFixTag p = FixType.FixedDanglingSelector := by
  rcases p with ⟨n, k⟩
  cases n with
  | Expr e => cases e <;> simp [hasSrcFixer, srcFixTag] at h ⊢
  | Stmt s => cases s <;> simp [hasSrcFixer, srcFixTag] at h ⊢
  | Comment c => simp [hasSrcFixer] at h
  | CommentGroup g => simp [hasSrcFixer] at h
  | FieldList l => simp [hasSrcFixer] at h
  | FuncType t => simp [hasSrcFixer] at h
  | Decl d => simp [hasSrcFixer] at h
  | File f => simp [hasSrcFixer] at h

/-- What a run of fixSrc does, in terms of the block statements and selector
expressions of the file in pre-order: the examined nodes are an initial
stretch of them, every examined node but the last has a fixer that returned
nil, and the last one decides the result. -/
theorem fixSrc_run_spec (scan : Scanner) (f : ast.File) (tf : token.File) (src : Bytes) :
    ∃ rest, candidates f = (fixSrc.run scan f tf src).examined ++ rest
      ∧ ((fixSrc scan f tf src = .ok (none, FixType.noFix) ∧ rest = []
            ∧ ∀ p ∈ (fixSrc.run scan f tf src).examined, srcFixer scan f tf src p = .ok none)
        ∨ (∃ pre p newSrc, (fixSrc.run scan f tf src).examined = pre ++ [p]
            ∧ (∀ q ∈ pre, srcFixer scan f tf src q = .ok none)
            ∧ srcFixer scan f tf src p = .ok (some newSrc)
            ∧ fixSrc scan f tf src = .ok (some newSrc, srcFixTag p))
        ∨ (∃ pre p e, (fixSrc.run scan f tf src).examined = pre ++ [p]
            ∧ (∀ q ∈ pre, srcFixer scan f tf src q = .ok none)
            ∧ srcFixer scan f tf src p = .error e
            ∧ fixSrc scan f tf src = .error e)) := by
  obtain ⟨ex, rest, h1, h2, h3⟩ := foldl_visit_spec scan f tf src (preorder (Node.File f) [])
    { out := .ok (none, FixType.noFix), examined := [] } FixType.noFix rfl
  rw [← fixSrc_run_eq_foldl] at h2 h3
  simp only [List.nil_append] at h2
  unfold fixSrc
  rw [h2]
  exact ⟨rest, h1, h3⟩

/-- C7: fixSrc returns whenever none of the fixers it calls faults; when it
returns, its newSrc is non-nil exactly when its tag is not noFix, and the
tag is then FixedCurlies or FixedDanglingSelector; when no fixer of a block
statement or selector expression of the file fires, fixSrc returns
(nil, noFix). -/
theorem fixSrc_non_nil_iff_fix (scan : Scanner) (f : ast.File) (tf : token.File) (src : Bytes) :
    (∀ newSrc fix, fixSrc scan f tf src = .ok (newSrc, fix) →
        (newSrc ≠ none ↔ fix ≠ FixType.noFix)
          ∧ (newSrc ≠ none →
              fix = FixType.FixedCurlies ∨ fix = FixType.FixedDanglingSelector))
      ∧ ((∀ p ∈ candidates f, srcFixer scan f tf src p = .ok none) →
          fixSrc scan f tf src = .ok (none, FixType.noFix))
      ∧ ((∀ p ∈ candidates f, ∀ e, srcFixer scan f tf src p ≠ .error e) →
          ∃ newSrc fix, fixSrc scan f tf src = .ok (newSrc, fix)) := by
  obtain ⟨rest, hcand, hcase⟩ := fixSrc_run_spec scan f tf src
  have hmem : ∀ p ∈ (fixSrc.run scan f tf src).examined, p ∈ candidates f := by
    intro p hp
    rw [hcand]
    exact List.mem_append_left _ hp
  refine ⟨?_, ?_, ?_⟩
  · intro newSrc fix hres
    rcases hcase with ⟨h1, _, _⟩ | ⟨pre, p, b, h1, _, _, h4⟩ | ⟨pre, p, e, _, _, _, h4⟩
    · rw [h1] at hres
      simp only [Except.ok.injEq, Prod.mk.injEq] at hres
      rw [← hres.1, ← hres.2]
      simp
    · rw [h4] at hres
      simp only [Except.ok.injEq, Prod.mk.injEq] at hres
      have hp : p ∈ candidates f := hmem p (by rw [h1]; simp)
      have hc : hasSrcFixer p = true := by
        unfold candidates at hp
        exact (List.mem_filter.mp hp).2
      have htag := srcFixTag_of_hasSrcFixer p hc
      rw [← hres.1, ← hres.2]
      refine ⟨⟨fun _ => ?_, fun _ => by simp⟩, fun _ => htag⟩
      rcases htag with ht | ht <;> rw [ht] <;> simp
    · rw [h4] at hres
      simp at hres
  · intro hall
    rcases hcase with ⟨h1, _, _⟩ | ⟨pre, p, b, h1, _, h3, _⟩ | ⟨pre, p, e, h1, _, h3, _⟩
    · exact h1
    · have hp : p ∈ candidates f := hmem p (by rw [h1]; simp)
      rw [hall p hp] at h3
      simp at h3
    · have hp : p ∈ candidates f := hmem p (by rw [h1]; simp)
      rw [hall p hp] at h3
      simp at h3
  · intro hall
    rcases hcase with ⟨h1, _, _⟩ | ⟨pre, p, b, _, _, _, h4⟩ | ⟨pre, p, e, h1, _, h3, _⟩
    · exact ⟨_, _, h1⟩
    · exact ⟨_, _, h4⟩
    · have hp : p ∈ candidates f := hmem p (by rw [h1]; simp)
      exact absurd h3 (hall p hp e)

/-- C8: fixSrc makes one edit per call. The nodes it examines are an initial
stretch of the block statements and selector expressions of the file in
depth-first pre-order; the fixer of every examined node but the last
returned nil on src; when the fixer of the last examined node returns a
buffer, that buffer, computed from the unchanged src, is the result, with
the tag of that node, and no later node is examined. When every fixer
returns nil all nodes are examined and the result is (nil, noFix). -/
theorem fixSrc_first_fix_in_preorder (scan : Scanner) (f : ast.File) (tf : token.File)
    (src : Bytes) :
    ∃ rest, candidates f = (fixSrc.run scan f tf src).examined ++ rest
      ∧ ((fixSrc scan f tf src = .ok (none, FixType.noFix) ∧ rest = []
            ∧ ∀ p ∈ (fixSrc.run scan f tf src).examined, srcFixer scan f tf src p = .ok none)
        ∨ (∃ pre p newSrc, (fixSrc.run scan f tf src).examined = pre ++ [p]
            ∧ (∀ q ∈ pre, srcFixer scan f tf src q = .ok none)
            ∧ srcFixer scan f tf src p = .ok (some newSrc)
            ∧ fixSrc scan f tf src = .ok (some newSrc, srcFixTag p))
        ∨ (∃ pre p e, (fixSrc.run scan f tf src).examined = pre ++ [p]
            ∧ (∀ q ∈ pre, srcFixer scan f tf src q = .ok none)
            ∧ srcFixer scan f tf src p = .error e
            ∧ fixSrc scan f tf src = .error e)) :=
  fixSrc_run_spec scan f tf src

theorem declines_eq_true (scan : Scanner) (f : ast.File) (tf : token.File) (src : Bytes)
    (p : Node × List Node) (h : demo.declines scan f tf src p = true) :
    srcFixer scan f tf src p = .ok none := by
  unfold demo.declines at h
  cases hfix : srcFixer scan f tf src p with
  | error e => simp [hfix] at h
  | ok r =>
    cases r with
    | none => rfl
    | some b => simp [hfix] at h

theorem fixSrc_non_nil_iff_fix_witness :
    fixSrc demo.scan demo.ifFile demo.ifTok demo.ifSrc
        = .ok (some demo.okSrc, FixType.FixedCurlies)
      ∧ ((some demo.okSrc ≠ none ↔ FixType.FixedCurlies ≠ FixType.noFix)
          ∧ (some demo.okSrc ≠ none →
              FixType.FixedCurlies = FixType.FixedCurlies
                ∨ FixType.FixedCurlies = FixType.FixedDanglingSelector))
      ∧ (candidates demo.okFile).length = 2
      ∧ (∀ p ∈ candidates demo.okFile,
          srcFixer demo.scan demo.okFile demo.okTok demo.okSrc p = .ok none)
      ∧ fixSrc demo.scan demo.okFile demo.okTok demo.okSrc = .ok (none, FixType.noFix) := by
  have hall : ∀ p ∈ candidates demo.okFile,
      srcFixer demo.scan demo.okFile demo.okTok demo.okSrc p = .ok none := by
    intro p hp
    have hd : (candidates demo.okFile).all
        (demo.declines demo.scan demo.okFile demo.okTok demo.okSrc) = true := by rfl
    exact declines_eq_true _ _ _ _ p (List.all_eq_true.mp hd p hp)
  exact ⟨rfl,
    (fixSrc_non_nil_iff_fix demo.scan demo.ifFile demo.ifTok demo.ifSrc).1
      (some demo.okSrc) FixType.FixedCurlies rfl,
    by decide, hall,
    (fixSrc_non_nil_iff_fix demo.scan demo.okFile demo.okTok demo.okSrc).2.1 hall⟩

theorem sizeExprs_mem (l : List ast.Expr) (e : ast.Expr) (h : e ∈ l) :
    e.size ≤ sizeExprs l := by
  induction l with
  | nil => simp at h
  | cons a l ih =>
    simp only [sizeExprs]
    rcases List.mem_cons.mp h with h | h
    · rw [h]; omega
    · have := ih h; omega

theorem sizeStmts_mem (l : List ast.Stmt) (s : ast.Stmt) (h : s ∈ l) :
    s.size ≤ sizeStmts l := by
  induction l with
  | nil => simp at h
  | cons a l ih =>
    simp only [sizeStmts]
    rcases List.mem_cons.mp h with h | h
    · rw [h]; omega
    · have := ih h; omega

theorem sizeDecls_mem (l : List ast.Decl) (d : ast.Decl) (h : d ∈ l) :
    d.size ≤ (l.map Decl.size).sum := by
  induction l with
  | nil => simp at h
  | cons a l ih =>
    simp only [List.map_cons, List.sum_cons]
    rcases List.mem_cons.mp h with h | h
    · rw [h]; omega
    · have := ih h; omega

theorem mem_optNode {α : Type} (wrap : α → Node) (o : Option α) (c : Node)
    (h : c ∈ optNode wrap o) : ∃ a, o = some a ∧ c = wrap a := by
  cases o with
  | none => simp [optNode] at h
  | some a => exact ⟨a, rfl, by simpa [optNode] using h⟩

/-- Every child of a node has fewer nodes than the node. -/
theorem children_size_lt (n c : Node) (h : c ∈ children n) : c.size < n.size := by
  cases n with
  | Comment x => simp [children] at h
  | CommentGroup g =>
    simp only [children, List.mem_cons, List.mem_map] at h
    rcases h with h | ⟨x, _, h⟩
    · rw [h]; simp [Node.size]
    · rw [← h]; simp [Node.size]
  | FieldList l => simp [children] at h
  | FuncType t =>
    simp only [children, List.mem_singleton] at h
    rw [h]; simp [Node.size]
  | Expr e =>
    cases e with
    | BadExpr a b => simp [children] at h
    | Ident a => simp [children] at h
    | BasicLit a b => simp [children] at h
    | ParenExpr a x b =>
      simp only [children, List.mem_singleton] at h
      rw [h]; simp [Node.size, Expr.size]
    | SelectorExpr x sel =>
      simp only [children, List.mem_cons, List.mem_singleton, List.not_mem_nil, or_false] at h
      rcases h with h | h <;> rw [h] <;> simp [Node.size, Expr.size]
    | CallExpr fn lp args el rp =>
      simp only [children, List.mem_cons, List.mem_map] at h
      rcases h with h | ⟨x, hx, h⟩
      · rw [h]; simp only [Node.size, Expr.size]; omega
      · rw [← h]
        have := sizeExprs_mem args x hx
        simp only [Node.size, Expr.size]; omega
    | FuncLit t b =>
      simp only [children, List.mem_cons, List.mem_singleton, List.not_mem_nil, or_false] at h
      rcases h with h | h <;> rw [h] <;> simp only [Node.size, Expr.size, Stmt.size] <;> omega
  | Stmt s =>
    cases s with
    | BadStmt a b => simp [children] at h
    | ExprStmt x =>
      simp only [children, List.mem_singleton] at h
      rw [h]; simp [Node.size, Stmt.size]
    | BlockStmt b =>
      cases b with
      | mk l list r =>
        simp only [children, List.mem_map] at h
        obtain ⟨x, hx, h⟩ := h
        rw [← h]
        have := sizeStmts_mem list x hx
        simp only [Node.size, Stmt.size, Block.size]; omega
    | IfStmt p init cond body els =>
      simp only [children, List.mem_append, List.mem_cons, List.mem_singleton,
        List.not_mem_nil, or_false] at h
      rcases h with (h | h | h) | h
      · obtain ⟨a, ha, hc⟩ := mem_optNode _ _ _ h
        rw [hc, ha]; simp only [Node.size, Stmt.size, sizeOptStmt]; omega
      · rw [h]; simp only [Node.size, Stmt.size]; omega
      · rw [h]; simp only [Node.size, Stmt.size]; omega
      · obtain ⟨a, ha, hc⟩ := mem_optNode _ _ _ h
        rw [hc, ha]; simp only [Node.size, Stmt.size, sizeOptStmt]; omega
    | ForStmt p init cond post body =>
      simp only [children, List.mem_append, List.mem_singleton] at h
      rcases h with ((h | h) | h) | h
      · obtain ⟨a, ha, hc⟩ := mem_optNode _ _ _ h
        rw [hc, ha]; simp only [Node.size, Stmt.size, sizeOptStmt]; omega
      · obtain ⟨a, ha, hc⟩ := mem_optNode _ _ _ h
        rw [hc, ha]; simp only [Node.size, Stmt.size, sizeOptExpr]; omega
      · obtain ⟨a, ha, hc⟩ := mem_optNode _ _ _ h
        rw [hc, ha]; simp only [Node.size, Stmt.size, sizeOptStmt]; omega
      · rw [h]; simp only [Node.size, Stmt.size]; omega
    | SwitchStmt p init tag body =>
      simp only [children, List.mem_append, List.mem_singleton] at h
      rcases h with (h | h) | h
      · obtain ⟨a, ha, hc⟩ := mem_optNode _ _ _ h
        rw [hc, ha]; simp only [Node.size, Stmt.size, sizeOptStmt]; omega
      · obtain ⟨a, ha, hc⟩ := mem_optNode _ _ _ h
        rw [hc, ha]; simp only [Node.size, Stmt.size, sizeOptExpr]; omega
      · rw [h]; simp only [Node.size, Stmt.size]; omega
    | CaseClause p values colon body =>
      simp only [children, List.mem_append, List.mem_map] at h
      rcases h with ⟨x, hx, h⟩ | ⟨x, hx, h⟩
      · rw [← h]
        have := sizeExprs_mem values x hx
        simp only [Node.size, Stmt.size]; omega
      · rw [← h]
        have := sizeStmts_mem body x hx
        simp only [Node.size, Stmt.size]; omega
  | Decl d =>
    cases d with
    | BadDecl a b => simp [children] at h
    | FuncDecl doc name t body =>
      simp only [children, List.mem_append, List.mem_cons, List.mem_singleton,
        List.not_mem_nil, or_false] at h
      rcases h with (h | h | h) | h
      · obtain ⟨a, ha, hc⟩ := mem_optNode _ _ _ h
        rw [hc, ha]; simp only [Node.size, Decl.size]; omega
      · rw [h]; simp only [Node.size, Decl.size, Expr.size]; omega
      · rw [h]; simp only [Node.size, Decl.size]; omega
      · obtain ⟨a, ha, hc⟩ := mem_optNode _ _ _ h
        rw [hc, ha]; simp only [Node.size, Decl.size, Stmt.size]; omega
  | File f =>
    simp only [children, List.mem_append, List.mem_singleton, List.mem_map] at h
    rcases h with (h | h) | ⟨x, hx, h⟩
    · obtain ⟨a, ha, hc⟩ := mem_optNode _ _ _ h
      rw [hc]; simp only [Node.size, ha]; omega
    · rw [h]; simp only [Node.size, Expr.size]; omega
    · rw [← h]
      have := sizeDecls_mem f.Decls x hx
      simp only [Node.size]; omega

theorem Node_size_pos (n : Node) : 0 < n.size := by
  cases n with
  | Expr x => cases x <;> simp [Node.size, Expr.size]
  | Stmt x =>
    cases x with
    | BlockStmt b => cases b; simp [Node.size, Stmt.size, Block.size]
    | BadStmt a b => simp [Node.size, Stmt.size]
    | ExprStmt a => simp [Node.size, Stmt.size]
    | IfStmt a b c d e => simp [Node.size, Stmt.size]
    | ForStmt a b c d e => simp [Node.size, Stmt.size]
    | SwitchStmt a b c d => simp [Node.size, Stmt.size]
    | CaseClause a b c d => simp [Node.size, Stmt.size]
  | Decl x => cases x <;> simp [Node.size, Decl.size]
  | Comment x => simp [Node.size]
  | CommentGroup x => simp [Node.size]
  | FieldList x => simp [Node.size]
  | FuncType x => simp [Node.size]
  | File x => simp [Node.size]

/-- The depth bound of the traversal never cuts it short: with any bound
that is at least the number of nodes the pre-order list is the same. -/
theorem preorder_walk_depth :
    ∀ (d e : Nat) (n : Node) (stack : List Node), n.size ≤ d → n.size ≤ e →
      preorder.walk d n stack = preorder.walk e n stack := by
  intro d
  induction d with
  | zero =>
    intro e n stack hd he
    have := Node_size_pos n
    omega
  | succ d ih =>
    intro e n stack hd he
    cases e with
    | zero =>
      have := Node_size_pos n
      omega
    | succ e =>
      simp only [preorder.walk]
      congr 2
      apply List.map_congr_left
      intro c hc
      have := children_size_lt n c hc
      exact ih e c (stack ++ [n]) (by omega) (by omega)

/-- The traversal of fixSrc does not depend on the depth bound once the
bound is at least the number of nodes of the file. -/
theorem fixSrc_depth_irrelevant (scan : Scanner) (f : ast.File) (tf : token.File) (src : Bytes)
    (d : Nat) (hd : (Node.File f).size ≤ d) :
    PreorderStack.walk (fixSrc.visit scan f tf src) d (Node.File f) []
        { out := .ok (none, FixType.noFix), examined := [] }
      = fixSrc.run scan f tf src := by
  unfold fixSrc.run astutil.PreorderStack
  rw [PreorderStack_walk_eq_foldl (fixSrc.visit scan f tf src)
      (fun st => ¬ ∃ fix, st.out = .ok (none, fix))
      (fun st n k h => visit_of_not_running scan f tf src st n k h)
      (visit_descends scan f tf src) d,
    PreorderStack_walk_eq_foldl (fixSrc.visit scan f tf src)
      (fun st => ¬ ∃ fix, st.out = .ok (none, fix))
      (fun st n k h => visit_of_not_running scan f tf src st n k h)
      (visit_descends scan f tf src) (Node.File f).size,
    preorder_walk_depth d (Node.File f).size (Node.File f) [] hd (le_refl _)]

end traversal

end parsego

namespace parsego

section curlies

theorem needsSemicolon_iff (parent : ast.Node) :
    needsSemicolon parent = true ↔
      ∃ forPos init cond x y body,
        parent = ast.Node.Stmt
          (ast.Stmt.ForStmt forPos init cond (some (ast.Stmt.ExprStmt (ast.Expr.BadExpr x y))) body)
        ∧ ∀ a b, cond ≠ some (ast.Expr.BadExpr a b) := by
  constructor
  · intro h
    cases parent with
    | Stmt s =>
      cases s with
      | ForStmt forPos init cond post body =>
        cases post with
        | none => cases cond with
          | none => simp [needsSemicolon] at h
          | some c => cases c <;> simp [needsSemicolon] at h
        | some p =>
          cases p with
          | ExprStmt e =>
            cases e with
            | BadExpr x y =>
              refine ⟨forPos, init, cond, x, y, body, rfl, ?_⟩
              intro a b hc
              rw [hc] at h
              simp [needsSemicolon] at h
            | Ident a => cases cond with
              | none => simp [needsSemicolon] at h
              | some c => cases c <;> simp [needsSemicolon] at h
            | BasicLit a b => cases cond with
              | none => simp [needsSemicolon] at h
              | some c => cases c <;> simp [needsSemicolon] at h
            | ParenExpr a b c => cases cond with
              | none => simp [needsSemicolon] at h
              | some c => cases c <;> simp [needsSemicolon] at h
            | SelectorExpr a b => cases cond with
              | none => simp [needsSemicolon] at h
              | some c => cases c <;> simp [needsSemicolon] at h
            | CallExpr a b c d e => cases cond with
              | none => simp [needsSemicolon] at h
              | some c => cases c <;> simp [needsSemicolon] at h
            | FuncLit a b => cases cond with
              | none => simp [needsSemicolon] at h
              | some c => cases c <;> simp [needsSemicolon] at h
          | BadStmt a b => cases cond with
            | none => simp [needsSemicolon] at h
            | some c => cases c <;> simp [needsSemicolon] at h
          | BlockStmt a => cases cond with
            | none => simp [needsSemicolon] at h
            | some c => cases c <;> simp [needsSemicolon] at h
          | IfStmt a b c d e => cases cond with
            | none => simp [needsSemicolon] at h
            | some c => cases c <;> simp [needsSemicolon] at h
          | ForStmt a b c d e => cases cond with
            | none => simp [needsSemicolon] at h
            | some c => cases c <;> simp [needsSemicolon] at h
          | SwitchStmt a b c d => cases cond with
            | none => simp [needsSemicolon] at h
            | some c => cases c <;> simp [needsSemicolon] at h
          | CaseClause a b c d => cases cond with
            | none => simp [needsSemicolon] at h
            | some c => cases c <;> simp [needsSemicolon] at h
      | BadStmt a b => simp [needsSemicolon] at h
      | ExprStmt a => simp [needsSemicolon] at h
      | BlockStmt a => simp [needsSemicolon] at h
      | IfStmt a b c d e => simp [needsSemicolon] at h
      | SwitchStmt a b c d => simp [needsSemicolon] at h
      | CaseClause a b c d => simp [needsSemicolon] at h
    | Comment c => simp [needsSemicolon] at h
    | CommentGroup g => simp [needsSemicolon] at h
    | FieldList l => simp [needsSemicolon] at h
    | FuncType t => simp [needsSemicolon] at h
    | Expr e => simp [needsSemicolon] at h
    | Decl d => simp [needsSemicolon] at h
    | File f => simp [needsSemicolon] at h
  · rintro ⟨forPos, init, cond, x, y, body, hp, hc⟩
    rw [hp]
    cases cond with
    | none => simp [needsSemicolon]
    | some c =>
      cases c with
      | BadExpr a b => exact absurd rfl (hc a b)
      | Ident a => simp [needsSemicolon]
      | BasicLit a b => simp [needsSemicolon]
      | ParenExpr a b c => simp [needsSemicolon]
      | SelectorExpr a b => simp [needsSemicolon]
      | CallExpr a b c d e => simp [needsSemicolon]
      | FuncLit a b => simp [needsSemicolon]

/-- What fixMissingCurlies returns when it returns a buffer. -/
theorem fixMissingCurlies_some (scan : Scanner) (f : ast.File) (b : ast.Block)
    (parent : ast.Node) (tok : token.File) (src newSrc : Bytes)
    (h : fixMissingCurlies scan f b parent tok src = .ok (some newSrc)) :
    ∃ o : Nat, o ≤ src.length
      ∧ newSrc = src.take o ++ (if needsSemicolon parent = true then [chSemicolon] else [])
          ++ [chLbrace, chRbrace] ++ src.drop o := by
  cases b with
  | mk lbrace list rbrace =>
    simp only [fixMissingCurlies] at h
    by_cases h1 : hasLbrace lbrace tok src = true
    · simp [h1] at h
    · rw [if_neg h1] at h
      by_cases h2 : safetoken.Line tok parent.Pos ≥ tok.LineCount
      · simp [h2] at h
      · rw [if_neg h2] at h
        cases hls : tok.LineStart (safetoken.Line tok parent.Pos + 1) with
        | error e => simp [hls] at h
        | ok lineStart =>
          simp only [hls] at h
          cases hpt : precedingToken scan (backOutOfComments f.Comments (lineStart - 1)) tok src with
          | error e => simp [hpt] at h
          | ok t =>
            simp only [hpt] at h
            by_cases h3 : t = token.Token.IDENT ∨ t = token.Token.PERIOD
            · rw [if_pos h3] at h
              cases hoff : safetoken.Offset tok (backOutOfComments f.Comments (lineStart - 1)) with
              | none => simp [hoff] at h
              | some offset =>
                simp only [hoff] at h
                by_cases h4 : offset > src.length
                · simp [h4] at h
                · rw [if_neg h4] at h
                  simp only [Except.ok.injEq, Option.some.injEq] at h
                  exact ⟨offset, by omega, h.symm⟩
            · simp [h3] at h

end curlies

end parsego

namespace parsego

section curlies2

/-- C11 (as amended): when fixMissingCurlies returns a buffer it is src with
the two braces inserted at one offset, preceded by a semicolon exactly when
the parent is a for statement whose Cond is not a BadExpr and whose Post is
an expression statement of a BadExpr; for every other parent only the two
braces are inserted. -/
theorem fixMissingCurlies_semicolon (scan : Scanner) (f : ast.File) (b : ast.Block)
    (parent : ast.Node) (tok : token.File) (src newSrc : Bytes)
    (h : fixMissingCurlies scan f b parent tok src = .ok (some newSrc)) :
    ∃ o : Nat, o ≤ src.length
      ∧ (((∃ forPos init cond x y body,
              parent = ast.Node.Stmt (ast.Stmt.ForStmt forPos init cond
                (some (ast.Stmt.ExprStmt (ast.Expr.BadExpr x y))) body)
              ∧ ∀ a b, cond ≠ some (ast.Expr.BadExpr a b))
            ∧ newSrc = src.take o ++ [chSemicolon, chLbrace, chRbrace] ++ src.drop o)
          ∨ ((¬ ∃ forPos init cond x y body,
              parent = ast.Node.Stmt (ast.Stmt.ForStmt forPos init cond
                (some (ast.Stmt.ExprStmt (ast.Expr.BadExpr x y))) body)
              ∧ ∀ a b, cond ≠ some (ast.Expr.BadExpr a b))
            ∧ newSrc = src.take o ++ [chLbrace, chRbrace] ++ src.drop o)) := by
  obtain ⟨o, ho, hnew⟩ := fixMissingCurlies_some scan f b parent tok src newSrc h
  refine ⟨o, ho, ?_⟩
  by_cases hn : needsSemicolon parent = true
  · left
    refine ⟨(needsSemicolon_iff parent).mp hn, ?_⟩
    rw [hnew, if_pos hn]
    simp
  · right
    refine ⟨fun hex => hn ((needsSemicolon_iff parent).mpr hex), ?_⟩
    rw [hnew, if_neg hn]
    simp

theorem fixMissingCurlies_semicolon_witness :
    fixMissingCurlies demo.scan demo.ifFile demo.ifBody (ast.Node.Stmt demo.forStmt) demo.ifTok
        demo.forSrc
        = .ok (some (demo.ascii "package p\n\nfunc _() \x7b\n\tfor ;x;\x7b\x7d\n\tbar()\n\x7d\n"))
      ∧ ∃ o : Nat, o ≤ demo.forSrc.length
        ∧ (((∃ forPos init cond x y body,
                ast.Node.Stmt demo.forStmt = ast.Node.Stmt (ast.Stmt.ForStmt forPos init cond
                  (some (ast.Stmt.ExprStmt (ast.Expr.BadExpr x y))) body)
                ∧ ∀ a b, cond ≠ some (ast.Expr.BadExpr a b))
              ∧ demo.ascii "package p\n\nfunc _() \x7b\n\tfor ;x;\x7b\x7d\n\tbar()\n\x7d\n"
                = demo.forSrc.take o ++ [chSemicolon, chLbrace, chRbrace] ++ demo.forSrc.drop o)
            ∨ ((¬ ∃ forPos init cond x y body,
                ast.Node.Stmt demo.forStmt = ast.Node.Stmt (ast.Stmt.ForStmt forPos init cond
                  (some (ast.Stmt.ExprStmt (ast.Expr.BadExpr x y))) body)
                ∧ ∀ a b, cond ≠ some (ast.Expr.BadExpr a b))
              ∧ demo.ascii "package p\n\nfunc _() \x7b\n\tfor ;x;\x7b\x7d\n\tbar()\n\x7d\n"
                = demo.forSrc.take o ++ [chLbrace, chRbrace] ++ demo.forSrc.drop o)) :=
  ⟨rfl, fixMissingCurlies_semicolon demo.scan demo.ifFile demo.ifBody
    (ast.Node.Stmt demo.forStmt) demo.ifTok demo.forSrc
    (demo.ascii "package p\n\nfunc _() \x7b\n\tfor ;x;\x7b\x7d\n\tbar()\n\x7d\n") rfl⟩

/-- C11 (the claim as stated fails): for a parent that is a for statement
whose Post is an expression statement of a BadExpr, and whose Cond is a
BadExpr too, fixMissingCurlies inserts the two braces without a semicolon:
the returned buffer is two bytes longer than src, not three. -/
theorem fixMissingCurlies_semicolon_counterexample :
    ¬ (∀ (scan : Scanner) (f : ast.File) (b : ast.Block) (parent : ast.Node) (tok : token.File)
        (src newSrc : Bytes),
        fixMissingCurlies scan f b parent tok src = .ok (some newSrc) →
        (∃ forPos init cond x y body,
          parent = ast.Node.Stmt (ast.Stmt.ForStmt forPos init cond
            (some (ast.Stmt.ExprStmt (ast.Expr.BadExpr x y))) body)) →
        ∃ o : Nat, o ≤ src.length
          ∧ newSrc = src.take o ++ [chSemicolon, chLbrace, chRbrace] ++ src.drop o) := by
  intro hall
  have hrun : fixMissingCurlies demo.scan demo.ifFile demo.ifBody (ast.Node.Stmt demo.forBadCond)
      demo.ifTok demo.forSrc
      = .ok (some (demo.ascii "package p\n\nfunc _() \x7b\n\tfor ;x\x7b\x7d\n\tbar()\n\x7d\n")) := rfl
  obtain ⟨o, ho, hnew⟩ := hall _ _ _ _ _ _ _ hrun
    ⟨24, none, some (ast.Expr.BadExpr 28 28), 28, 29, demo.ifBody, rfl⟩
  have hlen := congrArg List.length hnew
  simp only [List.length_append, List.length_take, List.length_drop, List.length_cons,
    List.length_nil] at hlen
  have h1 : (demo.ascii "package p\n\nfunc _() \x7b\n\tfor ;x\x7b\x7d\n\tbar()\n\x7d\n").length = 41 := by
    decide
  have h2 : demo.forSrc.length = 39 := by decide
  rw [h1] at hlen
  rw [h2] at hlen ho
  omega

/-- C12: for a block whose Lbrace is valid and resolves to an offset at which
src holds an opening brace, fixMissingCurlies returns nil. A buffer that
fixMissingCurlies returned holds the two braces it inserted, and on that
buffer fixMissingCurlies returns nil for every block whose Lbrace resolves
to the offset of the inserted opening brace. -/
theorem fixMissingCurlies_brace_present :
    (∀ (scan : Scanner) (f : ast.File) (lbrace rbrace : token.Pos) (list : List ast.Stmt)
        (parent : ast.Node) (tok : token.File) (src : Bytes) (o : Nat),
        lbrace.IsValid = true → safetoken.Offset tok lbrace = some o →
        src.get? o = some chLbrace →
        fixMissingCurlies scan f (ast.Block.mk lbrace list rbrace) parent tok src = .ok none)
      ∧ (∀ (scan : Scanner) (f : ast.File) (b : ast.Block) (parent : ast.Node) (tok : token.File)
          (src newSrc : Bytes),
          fixMissingCurlies scan f b parent tok src = .ok (some newSrc) →
          ∃ o : Nat, newSrc.get? o = some chLbrace ∧ newSrc.get? (o + 1) = some chRbrace
            ∧ ∀ (scan2 : Scanner) (f2 : ast.File) (lbrace rbrace : token.Pos)
                (list : List ast.Stmt) (parent2 : ast.Node) (tok2 : token.File),
                lbrace.IsValid = true → safetoken.Offset tok2 lbrace = some o →
                fixMissingCurlies scan2 f2 (ast.Block.mk lbrace list rbrace) parent2 tok2 newSrc
                  = .ok none) := by
  have first : ∀ (scan : Scanner) (f : ast.File) (lbrace rbrace : token.Pos)
      (list : List ast.Stmt) (parent : ast.Node) (tok : token.File) (src : Bytes) (o : Nat),
      lbrace.IsValid = true → safetoken.Offset tok lbrace = some o →
      src.get? o = some chLbrace →
      fixMissingCurlies scan f (ast.Block.mk lbrace list rbrace) parent tok src = .ok none := by
    intro scan f lbrace rbrace list parent tok src o hv ho hb
    have hlt : o < src.length := by
      rcases Nat.lt_or_ge o src.length with hl | hl
      · exact hl
      · rw [List.get?_eq_none.mpr hl] at hb
        simp at hb
    have hl : hasLbrace lbrace tok src = true := by
      unfold hasLbrace
      rw [hv, ho]
      simp only [Bool.true_and, Bool.and_eq_true, decide_eq_true_eq]
      exact ⟨hlt, hb⟩
    simp [fixMissingCurlies, hl]
  refine ⟨first, ?_⟩
  intro scan f b parent tok src newSrc h
  obtain ⟨o, ho, hnew⟩ := fixMissingCurlies_some scan f b parent tok src newSrc h
  have hto : (src.take o).length = o := by simp [List.length_take, ho]
  have hget : ∀ (l : Bytes) (k : Nat), (src.take o ++ l).get? (o + k) = l.get? k := by
    intro l k
    have := @List.getElem?_append_right _ (src.take o) l (o + k) (by rw [hto]; omega)
    simp only [List.get?_eq_getElem?]
    rw [this, hto]
    congr 1
    omega
  by_cases hn : needsSemicolon parent = true
  · rw [if_pos hn] at hnew
    have hform : newSrc = src.take o ++ (chSemicolon :: chLbrace :: chRbrace :: src.drop o) := by
      rw [hnew]; simp
    have g1 : newSrc.get? (o + 1) = some chLbrace := by
      rw [hform, hget]
      rfl
    have g2 : newSrc.get? (o + 1 + 1) = some chRbrace := by
      rw [hform, show o + 1 + 1 = o + 2 from rfl, hget]
      rfl
    exact ⟨o + 1, g1, g2, fun scan2 f2 lbrace rbrace list parent2 tok2 hv hoff =>
      first scan2 f2 lbrace rbrace list parent2 tok2 newSrc (o + 1) hv hoff g1⟩
  · rw [if_neg hn] at hnew
    have hform : newSrc = src.take o ++ (chLbrace :: chRbrace :: src.drop o) := by
      rw [hnew]; simp
    have g1 : newSrc.get? o = some chLbrace := by
      have := hget (chLbrace :: chRbrace :: src.drop o) 0
      rw [hform]
      simpa using this
    have g2 : newSrc.get? (o + 1) = some chRbrace := by
      rw [hform, hget]
      rfl
    exact ⟨o, g1, g2, fun scan2 f2 lbrace rbrace list parent2 tok2 hv hoff =>
      first scan2 f2 lbrace rbrace list parent2 tok2 newSrc o hv hoff g1⟩

theorem fixMissingCurlies_brace_present_witness :
    (30 : token.Pos).IsValid = true ∧ safetoken.Offset demo.okTok 30 = some 29
      ∧ demo.okSrc.get? 29 = some chLbrace
      ∧ fixMissingCurlies demo.scan demo.okFile (ast.Block.mk 30 [] 31)
          (ast.Node.Stmt (ast.Stmt.IfStmt 24 none (ast.Expr.Ident { NamePos := 27, Name := "foo" })
            (ast.Block.mk 30 [] 31) none)) demo.okTok demo.okSrc = .ok none :=
  ⟨rfl, rfl, rfl, fixMissingCurlies_brace_present.1 demo.scan demo.okFile 30 31 []
    (ast.Node.Stmt (ast.Stmt.IfStmt 24 none (ast.Expr.Ident { NamePos := 27, Name := "foo" })
      (ast.Block.mk 30 [] 31) none)) demo.okTok demo.okSrc 29 rfl rfl rfl⟩

end curlies2

end parsego

namespace parsego

section emptySwitch

theorem get?_takeWhile_length {α : Type} (p : α → Bool) :
    ∀ l : List α, (l.takeWhile p).length < l.length →
      ∃ x, l.get? (l.takeWhile p).length = some x ∧ p x = false := by
  intro l
  induction l with
  | nil => intro h; simp at h
  | cons a l ih =>
    intro h
    by_cases hp : p a = true
    · simp only [List.takeWhile_cons, hp, if_true, List.length_cons] at h ⊢
      obtain ⟨x, hx, hpx⟩ := ih (by omega)
      exact ⟨x, by simpa using hx, hpx⟩
    · simp only [List.takeWhile_cons, hp, Bool.false_eq_true, if_false, List.length_nil]
      exact ⟨a, by simp, by simpa using hp⟩

theorem takeWhile_length_of_all {α : Type} (p : α → Bool) :
    ∀ l : List α, l.all p = true → (l.takeWhile p).length = l.length := by
  intro l
  induction l with
  | nil => intro _; rfl
  | cons a l ih =>
    intro h
    simp only [List.all_cons, Bool.and_eq_true] at h
    simp only [List.takeWhile_cons, h.1, if_true, List.length_cons, ih h.2]

/-- In a file that keeps the invariants of go/token, the start of the line
after the line of a position of the file lies after that position. -/
theorem next_line_start_gt (tok : token.File) (p ls : token.Pos) (o : Nat)
    (hvalid : tok.valid = true) (hp : p.IsValid = true)
    (ho : safetoken.Offset tok p = some o)
    (hline : safetoken.Line tok p < tok.LineCount)
    (hls : tok.LineStart (safetoken.Line tok p + 1) = .ok ls) : p < ls := by
  simp only [token.File.valid, Bool.and_eq_true, decide_eq_true_eq] at hvalid
  obtain ⟨⟨hbase, _⟩, hall⟩ := hvalid
  have hp0 : p ≠ 0 := by
    simpa [token.Pos.IsValid, token.NoPos] using hp
  unfold token.File.LineStart at hls
  rw [if_neg (by omega)] at hls
  simp only [Nat.add_sub_cancel] at hls
  unfold safetoken.Offset at ho
  by_cases hr : safetoken.inRange tok p = true
  · rw [if_pos hr] at ho
    simp only [Option.some.injEq] at ho
    simp only [safetoken.inRange, Bool.and_eq_true, decide_eq_true_eq] at hr
    have hne : p ≠ (tok.base : Int) + (tok.size : Int) + 1 := by
      unfold token.Pos at *
      omega
    have hL : safetoken.Line tok p
        = (tok.lines.takeWhile
            (fun start => decide (start ≤ tok.fixOffset (p - (tok.base : Int))))).length := by
      unfold safetoken.Line
      rw [if_neg hne]
      unfold token.File.unadjustedLine
      rw [if_neg (by simpa [token.NoPos] using hp0)]
    have hfix : tok.fixOffset (p - (tok.base : Int)) = (p - (tok.base : Int)).toNat := by
      unfold token.File.fixOffset
      rw [if_neg (by unfold token.Pos at *; omega), if_neg (by unfold token.Pos at *; omega)]
    rw [hL] at hline hls
    obtain ⟨x, hx, hpx⟩ := get?_takeWhile_length _ tok.lines hline
    rw [hx] at hls
    simp only [Except.ok.injEq] at hls
    rw [hfix] at hpx
    simp only [decide_eq_false_iff_not, not_le] at hpx
    have h0 : (0 : Int) ≤ p - (tok.base : Int) := by unfold token.Pos at *; omega
    have h1 := Int.toNat_of_nonneg h0
    unfold token.Pos at *
    omega
  · rw [if_neg hr] at ho
    by_cases he : p = (tok.base : Int) + (tok.size : Int) + 1
    · exfalso
      have hL : safetoken.Line tok p = tok.lines.length := by
        unfold safetoken.Line
        rw [if_pos he]
        unfold token.File.unadjustedLine
        rw [if_neg (by rw [he]; simp only [token.NoPos]; unfold token.Pos at *; omega)]
        have hfix : tok.fixOffset (p - 1 - (tok.base : Int)) = tok.size := by
          unfold token.File.fixOffset
          rw [if_neg (by unfold token.Pos at *; omega), if_neg (by unfold token.Pos at *; omega)]
          unfold token.Pos at *
          omega
        rw [hfix]
        exact takeWhile_length_of_all _ _ hall
      rw [hL] at hline
      simp only [token.File.LineCount] at hline
      omega
    · rw [if_neg he] at ho
      simp at ho

/-- C13: fixEmptySwitch always returns. It returns true exactly when the body
has no statements, its Rbrace is valid and resolves to an offset of the
file, src does not hold a closing brace at that offset, and the line of
Rbrace is not the last line of the file. Then Rbrace becomes the start of
the next line, which lies after the old Rbrace, and Lbrace and List stay;
when it returns false the body stays as it was. -/
theorem fixEmptySwitch_spec (lbrace rbrace : token.Pos) (list : List ast.Stmt)
    (tok : token.File) (src : Bytes) :
    ∃ body fixed, fixEmptySwitch (ast.Block.mk lbrace list rbrace) tok src = .ok (body, fixed)
      ∧ (fixed = true ↔
          list = [] ∧ rbrace.IsValid = true
            ∧ ∃ o, safetoken.Offset tok rbrace = some o ∧ src.get? o ≠ some chRbrace
              ∧ safetoken.Line tok rbrace < tok.LineCount)
      ∧ (fixed = true →
          ∃ lineStart, tok.LineStart (safetoken.Line tok rbrace + 1) = .ok lineStart
            ∧ body = ast.Block.mk lbrace list lineStart
            ∧ (tok.valid = true → rbrace < lineStart))
      ∧ (fixed = false → body = ast.Block.mk lbrace list rbrace) := by
  simp only [fixEmptySwitch]
  by_cases h1 : list.length > 0 ∨ rbrace.IsValid = false
  · rw [if_pos h1]
    refine ⟨_, false, rfl, ⟨fun h => by simp at h, ?_⟩, fun h => by simp at h, fun _ => rfl⟩
    rintro ⟨hl, hv, _⟩
    rcases h1 with h1 | h1
    · rw [hl] at h1; simp at h1
    · rw [hv] at h1; simp at h1
  · rw [if_neg h1]
    have hl : list = [] := by
      cases list with
      | nil => rfl
      | cons a l => exact absurd (Or.inl (by simp)) h1
    have hv : rbrace.IsValid = true := by
      cases hh : rbrace.IsValid with
      | true => rfl
      | false => exact absurd (Or.inr hh) h1
    cases ho : safetoken.Offset tok rbrace with
    | none =>
      refine ⟨_, false, rfl, ⟨fun h => by simp at h, ?_⟩, fun h => by simp at h, fun _ => rfl⟩
      rintro ⟨_, _, o, ho2, _⟩
      simp at ho2
    | some o =>
      simp only []
      by_cases h2 : o < src.length ∧ src.get? o = some chRbrace
      · rw [if_pos h2]
        refine ⟨_, false, rfl, ⟨fun h => by simp at h, ?_⟩, fun h => by simp at h, fun _ => rfl⟩
        rintro ⟨_, _, o2, ho2, hne, _⟩
        simp only [Option.some.injEq] at ho2
        rw [← ho2] at hne
        exact absurd h2.2 hne
      · rw [if_neg h2]
        have hne : src.get? o ≠ some chRbrace := by
          intro hb
          apply h2
          refine ⟨?_, hb⟩
          rcases Nat.lt_or_ge o src.length with hlt | hge
          · exact hlt
          · rw [List.get?_eq_none.mpr hge] at hb
            simp at hb
        by_cases h3 : safetoken.Line tok rbrace ≥ tok.LineCount
        · rw [if_pos h3]
          refine ⟨_, false, rfl, ⟨fun h => by simp at h, ?_⟩, fun h => by simp at h, fun _ => rfl⟩
          rintro ⟨_, _, _, _, _, hlt⟩
          omega
        · rw [if_neg h3]
          have hlt : safetoken.Line tok rbrace < tok.LineCount := by omega
          cases hls : tok.LineStart (safetoken.Line tok rbrace + 1) with
          | error e =>
            exfalso
            unfold token.File.LineStart at hls
            rw [if_neg (by omega)] at hls
            simp only [Nat.add_sub_cancel] at hls
            cases hg : tok.lines.get? (safetoken.Line tok rbrace) with
            | none =>
              have := List.get?_eq_none.mp hg
              simp only [token.File.LineCount] at hlt
              omega
            | some x =>
              rw [hg] at hls
              simp at hls
          | ok lineStart =>
            simp only []
            refine ⟨_, true, rfl, ⟨fun _ => ⟨hl, hv, o, rfl, hne, hlt⟩, fun _ => rfl⟩,
              fun _ => ⟨lineStart, rfl, rfl, fun hvalid => ?_⟩, fun h => by simp at h⟩
            exact next_line_start_gt tok rbrace lineStart o hvalid hv ho hlt hls

theorem fixEmptySwitch_spec_witness :
    demo.switchTok.valid = true
      ∧ fixEmptySwitch demo.switchBody demo.switchTok demo.switchSrc
          = .ok (ast.Block.mk 31 [] 38, true)
      ∧ ∃ body fixed,
        fixEmptySwitch (ast.Block.mk 31 [] 34) demo.switchTok demo.switchSrc = .ok (body, fixed)
          ∧ (fixed = true ↔
              ([] : List ast.Stmt) = [] ∧ (34 : token.Pos).IsValid = true
                ∧ ∃ o, safetoken.Offset demo.switchTok 34 = some o
                  ∧ demo.switchSrc.get? o ≠ some chRbrace
                  ∧ safetoken.Line demo.switchTok 34 < demo.switchTok.LineCount)
          ∧ (fixed = true →
              ∃ lineStart,
                demo.switchTok.LineStart (safetoken.Line demo.switchTok 34 + 1) = .ok lineStart
                  ∧ body = ast.Block.mk 31 [] lineStart
                  ∧ (demo.switchTok.valid = true → (34 : token.Pos) < lineStart))
          ∧ (fixed = false → body = ast.Block.mk 31 [] 34) :=
  ⟨by decide, rfl, fixEmptySwitch_spec 31 34 [] demo.switchTok demo.switchSrc⟩

/-- C14: isPhantomUnderscore returns true exactly when the name of the
identifier is the underscore, its position resolves to an offset below the
length of src, and the byte of src there is not an underscore. -/
theorem isPhantomUnderscore_iff (id : ast.Ident) (tok : token.File) (src : Bytes) :
    (isPhantomUnderscore id tok src = true ↔
        id.Name = "_"
          ∧ ∃ o b, safetoken.Offset tok id.Pos = some o ∧ o < src.length
            ∧ src.get? o = some b ∧ b ≠ chUnderscore)
      ∧ (id.Name ≠ "_" → isPhantomUnderscore id tok src = false)
      ∧ (∀ o, safetoken.Offset tok id.Pos = some o → src.get? o = some chUnderscore →
          isPhantomUnderscore id tok src = false) := by
  refine ⟨?_, ?_, ?_⟩
  · unfold isPhantomUnderscore
    by_cases hn : id.Name = "_"
    · rw [if_pos hn]
      cases ho : safetoken.Offset tok id.Pos with
      | none => simp
      | some o =>
        simp only [Bool.and_eq_true, decide_eq_true_eq]
        constructor
        · rintro ⟨hlt, hne⟩
          cases hg : src.get? o with
          | none =>
            have := List.get?_eq_none.mp hg
            omega
          | some b =>
            refine ⟨hn, o, b, rfl, hlt, hg, ?_⟩
            intro hb
            rw [hg, hb] at hne
            exact hne rfl
        · rintro ⟨_, o2, b, ho2, hlt, hg, hb⟩
          simp only [Option.some.injEq] at ho2
          rw [← ho2] at hlt hg
          refine ⟨hlt, ?_⟩
          rw [hg]
          intro h
          simp only [Option.some.injEq] at h
          exact hb h
    · rw [if_neg hn]
      simp [hn]
  · intro hn
    unfold isPhantomUnderscore
    rw [if_neg hn]
  · intro o ho hb
    unfold isPhantomUnderscore
    by_cases hn : id.Name = "_"
    · rw [if_pos hn, ho]
      simp only []
      rw [hb]
      simp
    · rw [if_neg hn]

theorem isPhantomUnderscore_iff_witness :
    isPhantomUnderscore { NamePos := 3, Name := "_" } demo.dotTok demo.dotSrc = true
      ∧ (({ NamePos := 3, Name := "x" } : ast.Ident).Name ≠ "_"
        ∧ isPhantomUnderscore { NamePos := 3, Name := "x" } demo.dotTok demo.dotSrc = false)
      ∧ (safetoken.Offset demo.dotTok ({ NamePos := 3, Name := "_" } : ast.Ident).Pos = some 2
        ∧ (demo.ascii "x._").get? 2 = some chUnderscore
        ∧ isPhantomUnderscore { NamePos := 3, Name := "_" } demo.dotTok (demo.ascii "x._") = false) :=
  ⟨rfl,
   ⟨by decide, (isPhantomUnderscore_iff { NamePos := 3, Name := "x" } demo.dotTok demo.dotSrc).2.1
      (by decide)⟩,
   ⟨rfl, rfl, (isPhantomUnderscore_iff { NamePos := 3, Name := "_" } demo.dotTok
      (demo.ascii "x._")).2.2 2 rfl rfl⟩⟩

end emptySwitch

end parsego

namespace parsego

section keyword

theorem not_lowercase_iff (b : UInt8) : (b < 97 ∨ b > 122) ↔ isLowercase b = false := by
  cases h : isLowercase b with
  | true =>
    simp only [isLowercase, Bool.and_eq_true, decide_eq_true_eq] at h
    simp only [Bool.true_eq_false, iff_false, not_or]
    exact ⟨UInt8.not_lt.mpr h.1, UInt8.not_lt.mpr h.2⟩
  | false =>
    simp only [iff_true]
    by_contra hc
    simp only [not_or] at hc
    have : isLowercase b = true := by
      simp only [isLowercase, Bool.and_eq_true, decide_eq_true_eq]
      exact ⟨UInt8.not_lt.mp hc.1, UInt8.not_lt.mp hc.2⟩
    rw [h] at this
    exact Bool.false_ne_true this

/-- The loop of readKeyword collects the run of lowercase letters and gives
up exactly when the collected bytes would become more than 15. -/
theorem readKeyword_loop_spec :
    ∀ (rest kwBytes : Bytes), kwBytes.length ≤ 15 →
      readKeyword.loop rest kwBytes
        = if kwBytes.length + (rest.takeWhile isLowercase).length > 15 then none
          else some (kwBytes ++ rest.takeWhile isLowercase) := by
  intro rest
  induction rest with
  | nil =>
    intro kwBytes hk
    simp only [readKeyword.loop, List.takeWhile_nil, List.length_nil, Nat.add_zero,
      List.append_nil]
    rw [if_neg (by omega)]
  | cons b rest ih =>
    intro kwBytes hk
    simp only [readKeyword.loop]
    by_cases hb : b < 97 ∨ b > 122
    · rw [if_pos hb]
      have hl := (not_lowercase_iff b).mp hb
      simp only [List.takeWhile_cons, hl, Bool.false_eq_true, if_false, List.length_nil,
        Nat.add_zero, List.append_nil]
      rw [if_neg (by omega)]
    · rw [if_neg hb]
      have hl : isLowercase b = true := by
        cases h : isLowercase b with
        | true => rfl
        | false => exact absurd ((not_lowercase_iff b).mpr h) hb
      simp only [List.takeWhile_cons, hl, if_true, List.length_cons, List.length_append,
        List.length_nil]
      by_cases hlen : kwBytes.length + 0 + 1 > 15
      · rw [if_pos hlen, if_pos (by omega)]
      · rw [if_neg hlen, ih (kwBytes ++ [b]) (by simp; omega)]
        simp only [List.length_append, List.length_cons, List.length_nil, List.append_assoc,
          List.singleton_append]
        by_cases h2 : kwBytes.length + (0 + 1) + (List.takeWhile isLowercase rest).length > 15
        · rw [if_pos h2, if_pos (by omega)]
        · rw [if_neg h2, if_neg (by omega)]

theorem bytesToString_length (b : Bytes) : (bytesToString b).length = b.length := by
  simp [bytesToString, String.length]

theorem keyword_short (s : String) (h : token.IsKeyword s = true) : s.length ≤ 11 ∧ s ≠ "" := by
  have hall : ∀ k ∈ token.keywords, k.length ≤ 11 ∧ k ≠ "" := by decide
  apply hall
  simpa [token.IsKeyword] using h

/-- C15: for a position that resolves to an offset of the file, readKeyword
returns the maximal run of lowercase ASCII letters of src from that offset
when the run is a reserved word, and the empty string otherwise; a run of
more than 15 bytes is never a reserved word, so the result is not empty
exactly when the run is a reserved word. For a position outside the file
it returns the empty string. -/
theorem readKeyword_spec (pos : token.Pos) (tok : token.File) (src : Bytes) :
    (∀ o, safetoken.Offset tok pos = some o →
        readKeyword pos tok src
            = (if token.IsKeyword (bytesToString (lowercaseRun src o)) = true
                then bytesToString (lowercaseRun src o) else "")
          ∧ (readKeyword pos tok src ≠ "" ↔
              token.IsKeyword (bytesToString (lowercaseRun src o)) = true))
      ∧ (safetoken.Offset tok pos = none → readKeyword pos tok src = "")
      ∧ (∀ run : Bytes, run.length > 15 → token.IsKeyword (bytesToString run) = false) := by
  have hcut : ∀ run : Bytes, run.length > 15 → token.IsKeyword (bytesToString run) = false := by
    intro run hlen
    cases h : token.IsKeyword (bytesToString run) with
    | false => rfl
    | true =>
      have := (keyword_short _ h).1
      rw [bytesToString_length] at this
      omega
  refine ⟨?_, ?_, hcut⟩
  · intro o ho
    have heq : readKeyword pos tok src
        = (if token.IsKeyword (bytesToString (lowercaseRun src o)) = true
            then bytesToString (lowercaseRun src o) else "") := by
      unfold readKeyword
      rw [ho]
      simp only []
      rw [readKeyword_loop_spec (src.drop o) [] (by simp)]
      simp only [List.length_nil, Nat.zero_add, List.nil_append]
      by_cases hlen : (List.takeWhile isLowercase (src.drop o)).length > 15
      · rw [if_pos hlen]
        simp only []
        rw [if_neg]
        rw [lowercaseRun, hcut _ hlen]
        simp
      · rw [if_neg hlen]
        rfl
    refine ⟨heq, ?_⟩
    rw [heq]
    by_cases hk : token.IsKeyword (bytesToString (lowercaseRun src o)) = true
    · rw [if_pos hk]
      exact ⟨fun _ => hk, fun _ => (keyword_short _ hk).2⟩
    · rw [if_neg hk]
      exact ⟨fun h => absurd rfl h, fun h => absurd h hk⟩
  · intro ho
    unfold readKeyword
    rw [ho]

theorem readKeyword_spec_witness :
    safetoken.Offset { base := 1, size := 8, lines := [0] } 3 = some 2
      ∧ lowercaseRun (demo.ascii "x.var\ny ") 2 = demo.ascii "var"
      ∧ readKeyword 3 { base := 1, size := 8, lines := [0] } (demo.ascii "x.var\ny ")
          = (if token.IsKeyword (bytesToString (lowercaseRun (demo.ascii "x.var\ny ") 2)) = true
              then bytesToString (lowercaseRun (demo.ascii "x.var\ny ") 2) else "")
      ∧ (readKeyword 3 { base := 1, size := 8, lines := [0] } (demo.ascii "x.var\ny ") ≠ "" ↔
          token.IsKeyword (bytesToString (lowercaseRun (demo.ascii "x.var\ny ") 2)) = true)
      ∧ readKeyword 3 { base := 1, size := 8, lines := [0] } (demo.ascii "x.var\ny ") = "var" :=
  ⟨rfl, by decide,
   ((readKeyword_spec 3 { base := 1, size := 8, lines := [0] } (demo.ascii "x.var\ny ")).1 2 rfl).1,
   ((readKeyword_spec 3 { base := 1, size := 8, lines := [0] } (demo.ascii "x.var\ny ")).1 2 rfl).2,
   by decide⟩

end keyword

end parsego

namespace parsego

section replace

open reflect

theorem replaceNode_slice_spec (implements : String → String → Bool) (old new : reflect.Pointer) :
    ∀ l : List Value,
      (replaceNode.slice implements old new l = none
          ∧ ∀ v ∈ l, (v.identical old && v.assignable implements new.typ) = false)
        ∨ ∃ pre v post, l = pre ++ v :: post
            ∧ (∀ u ∈ pre, (u.identical old && u.assignable implements new.typ) = false)
            ∧ (v.identical old && v.assignable implements new.typ) = true
            ∧ replaceNode.slice implements old new l = some (pre ++ v.set new :: post) := by
  intro l
  induction l with
  | nil => left; exact ⟨rfl, by simp⟩
  | cons a l ih =>
    by_cases ha : (a.identical old && a.assignable implements new.typ) = true
    · right
      refine ⟨[], a, l, rfl, by simp, ha, ?_⟩
      simp [replaceNode.slice, tryReplace, ha]
    · have ha2 : (a.identical old && a.assignable implements new.typ) = false := by
        simpa using ha
      rcases ih with ⟨h1, h2⟩ | ⟨pre, v, post, h1, h2, h3, h4⟩
      · left
        refine ⟨by simp [replaceNode.slice, tryReplace, ha2, h1], ?_⟩
        intro v hv
        rcases List.mem_cons.mp hv with hv | hv
        · rw [hv]; exact ha2
        · exact h2 v hv
      · right
        refine ⟨a :: pre, v, post, by simp [h1], ?_, h3, ?_⟩
        · intro u hu
          rcases List.mem_cons.mp hu with hu | hu
          · rw [hu]; exact ha2
          · exact h2 u hu
        · simp [replaceNode.slice, tryReplace, ha2, h4]

theorem replaceNode_fields_spec (implements : String → String → Bool) (old new : reflect.Pointer) :
    ∀ fields : List Field,
      (replaceNode.fields implements old new fields = none
          ∧ ∀ v ∈ slots fields, (v.identical old && v.assignable implements new.typ) = false)
        ∨ ∃ fields' pre v post, slots fields = pre ++ v :: post
            ∧ (∀ u ∈ pre, (u.identical old && u.assignable implements new.typ) = false)
            ∧ (v.identical old && v.assignable implements new.typ) = true
            ∧ replaceNode.fields implements old new fields = some fields'
            ∧ slots fields' = pre ++ v.set new :: post
            ∧ fields'.map Field.layout = fields.map Field.layout := by
  intro fields
  induction fields with
  | nil => left; exact ⟨rfl, by simp [slots]⟩
  | cons a rest ih =>
    cases a with
    | Single v =>
      by_cases hv : (v.identical old && v.assignable implements new.typ) = true
      · right
        refine ⟨Field.Single (v.set new) :: rest, [], v, slots rest, by simp [slots], by simp, hv,
          ?_, by simp [slots], by simp [Field.layout]⟩
        cases v with
        | Other => simp [Value.identical] at hv
        | Interface t e => simp [replaceNode.fields, tryReplace, hv]
        | Pointer p => simp [replaceNode.fields, tryReplace, hv]
      · have hv2 : (v.identical old && v.assignable implements new.typ) = false := by
          simpa using hv
        have hstep : replaceNode.fields implements old new (Field.Single v :: rest)
            = (replaceNode.fields implements old new rest).map (fun r => Field.Single v :: r) := by
          cases v with
          | Other => simp [replaceNode.fields]
          | Interface t e => simp [replaceNode.fields, tryReplace, hv2]
          | Pointer p => simp [replaceNode.fields, tryReplace, hv2]
        rcases ih with ⟨h1, h2⟩ | ⟨fields', pre, w, post, h1, h2, h3, h4, h5, h6⟩
        · left
          refine ⟨by rw [hstep, h1]; rfl, ?_⟩
          intro u hu
          simp only [slots, List.mem_cons] at hu
          rcases hu with hu | hu
          · rw [hu]; exact hv2
          · exact h2 u hu
        · right
          refine ⟨Field.Single v :: fields', v :: pre, w, post, by simp [slots, h1], ?_, h3,
            by rw [hstep, h4]; rfl, by simp [slots, h5], by simp [h6]⟩
          intro u hu
          rcases List.mem_cons.mp hu with hu | hu
          · rw [hu]; exact hv2
          · exact h2 u hu
    | Slice elems =>
      rcases replaceNode_slice_spec implements old new elems with
        ⟨g1, g2⟩ | ⟨pre, w, post, g1, g2, g3, g4⟩
      · have hstep : replaceNode.fields implements old new (Field.Slice elems :: rest)
            = (replaceNode.fields implements old new rest).map
                (fun r => Field.Slice elems :: r) := by
          simp [replaceNode.fields, g1]
        rcases ih with ⟨h1, h2⟩ | ⟨fields', pre, w, post, h1, h2, h3, h4, h5, h6⟩
        · left
          refine ⟨by rw [hstep, h1]; rfl, ?_⟩
          intro u hu
          simp only [slots, List.mem_append] at hu
          rcases hu with hu | hu
          · exact g2 u hu
          · exact h2 u hu
        · right
          refine ⟨Field.Slice elems :: fields', elems ++ pre, w, post,
            by simp [slots, h1], ?_, h3, by rw [hstep, h4]; rfl, by simp [slots, h5],
            by simp [h6]⟩
          intro u hu
          rcases List.mem_append.mp hu with hu | hu
          · exact g2 u hu
          · exact h2 u hu
      · right
        refine ⟨Field.Slice (pre ++ w.set new :: post) :: rest, pre, w, post ++ slots rest,
          by simp [slots, g1], g2, g3, by simp [replaceNode.fields, g4], by simp [slots],
          by simp [Field.layout, g1]⟩

/-- C20: replaceNode returns true exactly when its three arguments are not
nil, the parent is a struct, and one of its locations (a pointer field, an
interface field or an element of a slice field) is identical to oldChild
and of a type newChild can be assigned to. Then the first such location in
field order holds newChild and every other location, and the layout of the
fields, is as before. When it returns false the parent is as before. -/
theorem replaceNode_spec (implements : String → String → Bool) (parent : Parent)
    (oldChild newChild : Option reflect.Pointer) :
    ((replaceNode implements parent oldChild newChild).1 = true ↔
        ∃ fields old new, parent = Parent.struct fields ∧ oldChild = some old
          ∧ newChild = some new
          ∧ ∃ v ∈ slots fields, (v.identical old && v.assignable implements new.typ) = true)
      ∧ ((replaceNode implements parent oldChild newChild).1 = true →
          ∃ fields fields' old new pre v post, parent = Parent.struct fields
            ∧ oldChild = some old ∧ newChild = some new
            ∧ (replaceNode implements parent oldChild newChild).2 = Parent.struct fields'
            ∧ slots fields = pre ++ v :: post
            ∧ (∀ u ∈ pre, (u.identical old && u.assignable implements new.typ) = false)
            ∧ (v.identical old && v.assignable implements new.typ) = true
            ∧ slots fields' = pre ++ v.set new :: post
            ∧ fields'.map Field.layout = fields.map Field.layout)
      ∧ ((replaceNode implements parent oldChild newChild).1 = false →
          (replaceNode implements parent oldChild newChild).2 = parent) := by
  cases parent with
  | nil =>
    refine ⟨⟨fun h => by simp [replaceNode] at h, ?_⟩, fun h => by simp [replaceNode] at h,
      fun _ => by simp [replaceNode]⟩
    rintro ⟨fields, old, new, hp, _⟩
    simp at hp
  | nilPointer =>
    refine ⟨⟨fun h => by simp [replaceNode] at h, ?_⟩, fun h => by simp [replaceNode] at h,
      fun _ => by simp [replaceNode]⟩
    rintro ⟨fields, old, new, hp, _⟩
    simp at hp
  | struct fields =>
    cases oldChild with
    | none =>
      refine ⟨⟨fun h => by simp [replaceNode] at h, ?_⟩, fun h => by simp [replaceNode] at h,
        fun _ => by simp [replaceNode]⟩
      rintro ⟨_, old, new, _, ho, _⟩
      simp at ho
    | some old =>
      cases newChild with
      | none =>
        refine ⟨⟨fun h => by simp [replaceNode] at h, ?_⟩, fun h => by simp [replaceNode] at h,
          fun _ => by simp [replaceNode]⟩
        rintro ⟨_, old, new, _, _, hn, _⟩
        simp at hn
      | some new =>
        rcases replaceNode_fields_spec implements old new fields with
          ⟨h1, h2⟩ | ⟨fields', pre, v, post, h1, h2, h3, h4, h5, h6⟩
        · have hr : replaceNode implements (Parent.struct fields) (some old) (some new)
              = (false, Parent.struct fields) := by
            simp [replaceNode, h1]
          rw [hr]
          refine ⟨⟨fun h => by simp at h, ?_⟩, fun h => by simp at h, fun _ => rfl⟩
          rintro ⟨fields2, old2, new2, hp, ho, hn, v, hv, hm⟩
          simp only [Parent.struct.injEq] at hp
          simp only [Option.some.injEq] at ho hn
          subst hp ho hn
          rw [h2 v hv] at hm
          exact absurd hm (by simp)
        · have hr : replaceNode implements (Parent.struct fields) (some old) (some new)
              = (true, Parent.struct fields') := by
            simp [replaceNode, h4]
          rw [hr]
          refine ⟨⟨fun _ => ⟨fields, old, new, rfl, rfl, rfl, v, ?_, h3⟩, fun _ => rfl⟩,
            fun _ => ⟨fields, fields', old, new, pre, v, post, rfl, rfl, rfl, rfl, h1, h2, h3,
              h5, h6⟩, fun h => by simp at h⟩
          rw [h1]
          simp

theorem replaceNode_spec_witness :
    (replaceNode ast.implements
        (Parent.struct (ast.selectorFields (ast.Expr.Ident { NamePos := 1, Name := "x" })))
        (some { typ := "*ast.Ident", addr := 2 }) (some { typ := "*ast.Ident", addr := 3 }))
        = (true, Parent.struct
            [.Single (.Interface "ast.Expr" (some { typ := "*ast.Ident", addr := 1 })),
             .Single (.Pointer { typ := "*ast.Ident", addr := 3 })])
      ∧ ∃ fields fields' old new pre v post,
          Parent.struct (ast.selectorFields (ast.Expr.Ident { NamePos := 1, Name := "x" }))
            = Parent.struct fields
          ∧ some ({ typ := "*ast.Ident", addr := 2 } : reflect.Pointer) = some old
          ∧ some ({ typ := "*ast.Ident", addr := 3 } : reflect.Pointer) = some new
          ∧ (replaceNode ast.implements
              (Parent.struct (ast.selectorFields (ast.Expr.Ident { NamePos := 1, Name := "x" })))
              (some { typ := "*ast.Ident", addr := 2 })
              (some { typ := "*ast.Ident", addr := 3 })).2 = Parent.struct fields'
          ∧ slots fields = pre ++ v :: post
          ∧ (∀ u ∈ pre, (u.identical old && u.assignable ast.implements new.typ) = false)
          ∧ (v.identical old && v.assignable ast.implements new.typ) = true
          ∧ slots fields' = pre ++ v.set new :: post
          ∧ fields'.map Field.layout = fields.map Field.layout :=
  ⟨by decide,
   (replaceNode_spec ast.implements
      (Parent.struct (ast.selectorFields (ast.Expr.Ident { NamePos := 1, Name := "x" })))
      (some { typ := "*ast.Ident", addr := 2 }) (some { typ := "*ast.Ident", addr := 3 })).2.1
      (by decide)⟩

end replace

end parsego

namespace parsego

section phantom

theorem readKeyword_keyword (pos : token.Pos) (tok : token.File) (src : Bytes)
    (h : readKeyword pos tok src ≠ "") : token.IsKeyword (readKeyword pos tok src) = true := by
  unfold readKeyword at h ⊢
  cases ho : safetoken.Offset tok pos with
  | none => simp [ho] at h
  | some o =>
    simp only [ho] at h ⊢
    cases hl : readKeyword.loop (src.drop o) [] with
    | none => simp [hl] at h
    | some kw =>
      simp only [hl] at h ⊢
      by_cases hk : token.IsKeyword (bytesToString kw) = true
      · rw [if_pos hk]; exact hk
      · rw [if_neg hk] at h; exact absurd rfl h

theorem replaceNode_selector (X : ast.Expr) :
    replaceNode ast.implements (reflect.Parent.struct (ast.selectorFields X))
        (some { typ := "*ast.Ident", addr := 2 }) (some { typ := "*ast.Ident", addr := 3 })
      = (true, reflect.Parent.struct
          [.Single (.Interface "ast.Expr" (some { typ := X.typ, addr := 1 })),
           .Single (.Pointer { typ := "*ast.Ident", addr := 3 })]) := by
  simp [replaceNode, replaceNode.fields, ast.selectorFields, tryReplace, reflect.Value.identical,
    reflect.Value.assignable, reflect.Value.set]

theorem fixPhantomSelector_eq (X : ast.Expr) (Sel : ast.Ident) (tf : token.File) (src : Bytes) :
    fixPhantomSelector X Sel tf src
      = if isPhantomUnderscore Sel tf src = true ∧ Sel.Pos = X.End + 1
            ∧ readKeyword Sel.Pos tf src ≠ "" then
          (true, X, { Name := readKeyword Sel.Pos tf src, NamePos := Sel.Pos })
        else (false, X, Sel) := by
  unfold fixPhantomSelector
  by_cases h1 : isPhantomUnderscore Sel tf src = true
  · rw [if_neg (by rw [h1]; simp)]
    by_cases h2 : Sel.Pos = X.End + 1
    · rw [if_neg (fun h => h h2)]
      by_cases h3 : readKeyword Sel.Pos tf src = ""
      · simp only []
        rw [if_pos h3, if_neg (fun h => h.2.2 h3)]
      · simp only []
        rw [if_neg h3, if_pos ⟨h1, h2, h3⟩, replaceNode_selector]
        simp [readSelector]
    · rw [if_pos h2, if_neg (fun h => h2 h.2.1)]
  · rw [if_pos (by simpa using h1), if_neg (fun h => h1 h.1)]

/-- C16: fixPhantomSelector returns true exactly when Sel is a phantom
underscore, Sel.Pos() is X.End()+1 and readKeyword at that position is not
empty, and what it reads is then a reserved word. In that case Sel becomes
a new identifier with that word as Name and the old position of Sel as
NamePos, and X stays; when it returns false X and Sel stay. -/
theorem fixPhantomSelector_spec (X : ast.Expr) (Sel : ast.Ident) (tf : token.File) (src : Bytes) :
    ((fixPhantomSelector X Sel tf src).1 = true ↔
        isPhantomUnderscore Sel tf src = true ∧ Sel.Pos = X.End + 1
          ∧ readKeyword Sel.Pos tf src ≠ "")
      ∧ ((fixPhantomSelector X Sel tf src).1 = true →
          token.IsKeyword (readKeyword Sel.Pos tf src) = true
            ∧ (fixPhantomSelector X Sel tf src).2
              = (X, { Name := readKeyword Sel.Pos tf src, NamePos := Sel.Pos }))
      ∧ ((fixPhantomSelector X Sel tf src).1 = false →
          (fixPhantomSelector X Sel tf src).2 = (X, Sel)) := by
  rw [fixPhantomSelector_eq]
  by_cases h : isPhantomUnderscore Sel tf src = true ∧ Sel.Pos = X.End + 1
      ∧ readKeyword Sel.Pos tf src ≠ ""
  · rw [if_pos h]
    exact ⟨⟨fun _ => h, fun _ => rfl⟩, fun _ => ⟨readKeyword_keyword _ _ _ h.2.2, rfl⟩,
      fun hf => by simp at hf⟩
  · rw [if_neg h]
    exact ⟨⟨fun hf => by simp at hf, fun hh => absurd hh h⟩, fun hf => by simp at hf,
      fun _ => rfl⟩

theorem fixPhantomSelector_spec_witness :
    fixPhantomSelector (ast.Expr.Ident { NamePos := 1, Name := "x" }) { NamePos := 3, Name := "_" }
        { base := 1, size := 8, lines := [0] } (demo.ascii "x.var\ny ")
        = (true, ast.Expr.Ident { NamePos := 1, Name := "x" }, { NamePos := 3, Name := "var" })
      ∧ token.IsKeyword (readKeyword ({ NamePos := 3, Name := "_" } : ast.Ident).Pos
          { base := 1, size := 8, lines := [0] } (demo.ascii "x.var\ny ")) = true
      ∧ (fixPhantomSelector (ast.Expr.Ident { NamePos := 1, Name := "x" })
          { NamePos := 3, Name := "_" } { base := 1, size := 8, lines := [0] }
          (demo.ascii "x.var\ny ")).2
          = (ast.Expr.Ident { NamePos := 1, Name := "x" },
             { Name := readKeyword ({ NamePos := 3, Name := "_" } : ast.Ident).Pos
                 { base := 1, size := 8, lines := [0] } (demo.ascii "x.var\ny "),
               NamePos := ({ NamePos := 3, Name := "_" } : ast.Ident).Pos }) :=
  ⟨rfl, (fixPhantomSelector_spec (ast.Expr.Ident { NamePos := 1, Name := "x" })
    { NamePos := 3, Name := "_" } { base := 1, size := 8, lines := [0] }
    (demo.ascii "x.var\ny ")).2.1 rfl⟩

end phantom

end parsego
namespace parsego

section offsets

open ast

theorem mapPosExprs_eq (g : token.Pos → token.Pos) (l : List Expr) :
    mapPosExprs g l = l.map (Expr.mapPos g) := by
  induction l with
  | nil => simp [mapPosExprs]
  | cons e es ih => simp [mapPosExprs, ih]

theorem mapPosStmts_eq (g : token.Pos → token.Pos) (l : List Stmt) :
    mapPosStmts g l = l.map (Stmt.mapPos g) := by
  induction l with
  | nil => simp [mapPosStmts]
  | cons e es ih => simp [mapPosStmts, ih]

theorem optNode_mapPosOptStmt (g : token.Pos → token.Pos) (o : Option Stmt) :
    optNode Node.Stmt (mapPosOptStmt g o) = (optNode Node.Stmt o).map (Node.mapPos g) := by
  cases o <;> simp [optNode, mapPosOptStmt, Node.mapPos]

theorem optNode_mapPosOptExpr (g : token.Pos → token.Pos) (o : Option Expr) :
    optNode Node.Expr (mapPosOptExpr g o) = (optNode Node.Expr o).map (Node.mapPos g) := by
  cases o <;> simp [optNode, mapPosOptExpr, Node.mapPos]

theorem children_mapPos (g : token.Pos → token.Pos) (n : Node) :
    children (n.mapPos g) = (children n).map (Node.mapPos g) := by
  cases n with
  | Comment c => simp [children, Node.mapPos]
  | CommentGroup c =>
    simp [children, Node.mapPos, CommentGroup.mapPos, List.map_map, Function.comp_def]
  | FieldList l => simp [children, Node.mapPos]
  | FuncType t => simp [children, Node.mapPos, FuncType.mapPos]
  | Expr e =>
    cases e with
    | BadExpr a b => simp [children, Node.mapPos, Expr.mapPos]
    | Ident a => simp [children, Node.mapPos, Expr.mapPos]
    | BasicLit a b => simp [children, Node.mapPos, Expr.mapPos]
    | ParenExpr a b c => simp [children, Node.mapPos, Expr.mapPos]
    | SelectorExpr a b => simp [children, Node.mapPos, Expr.mapPos]
    | CallExpr a b c d e =>
      simp [children, Node.mapPos, Expr.mapPos, mapPosExprs_eq, List.map_map, Function.comp_def]
    | FuncLit a b => simp [children, Node.mapPos, Expr.mapPos, Stmt.mapPos]
  | Stmt s =>
    cases s with
    | BadStmt a b => simp [children, Node.mapPos, Stmt.mapPos]
    | ExprStmt a => simp [children, Node.mapPos, Stmt.mapPos]
    | BlockStmt b =>
      cases b
      simp [children, Node.mapPos, Stmt.mapPos, Block.mapPos, mapPosStmts_eq, List.map_map,
        Function.comp_def]
    | IfStmt a b c d e =>
      simp [children, Node.mapPos, Stmt.mapPos, optNode_mapPosOptStmt]
    | ForStmt a b c d e =>
      simp [children, Node.mapPos, Stmt.mapPos, optNode_mapPosOptStmt, optNode_mapPosOptExpr]
    | SwitchStmt a b c d =>
      simp [children, Node.mapPos, Stmt.mapPos, optNode_mapPosOptStmt, optNode_mapPosOptExpr]
    | CaseClause a b c d =>
      simp [children, Node.mapPos, Stmt.mapPos, mapPosExprs_eq, mapPosStmts_eq, List.map_map,
        Function.comp_def]
  | Decl d =>
    cases d with
    | BadDecl a b => simp [children, Node.mapPos, Decl.mapPos]
    | FuncDecl doc name t body =>
      cases doc <;> cases body <;>
        simp [children, Node.mapPos, Decl.mapPos, optNode, Expr.mapPos, Stmt.mapPos]
  | File f =>
    cases hd : f.Doc <;>
      simp [children, Node.mapPos, File.mapPos, optNode, Expr.mapPos, hd, List.map_map,
        Function.comp_def, Node.mapPos]

theorem ownPositions_mapPos (g : token.Pos → token.Pos) (n : Node) :
    ownPositions (n.mapPos g) = (ownPositions n).map g := by
  cases n with
  | Comment c => simp [ownPositions, Node.mapPos, Comment.mapPos]
  | CommentGroup c => simp [ownPositions, Node.mapPos]
  | FieldList l => simp [ownPositions, Node.mapPos, FieldList.mapPos]
  | FuncType t => simp [ownPositions, Node.mapPos, FuncType.mapPos]
  | Expr e => cases e <;> simp [ownPositions, Node.mapPos, Expr.mapPos, Ident.mapPos]
  | Stmt s =>
    cases s with
    | BlockStmt b => cases b; simp [ownPositions, Node.mapPos, Stmt.mapPos, Block.mapPos]
    | BadStmt a b => simp [ownPositions, Node.mapPos, Stmt.mapPos]
    | ExprStmt a => simp [ownPositions, Node.mapPos, Stmt.mapPos]
    | IfStmt a b c d e => simp [ownPositions, Node.mapPos, Stmt.mapPos]
    | ForStmt a b c d e => simp [ownPositions, Node.mapPos, Stmt.mapPos]
    | SwitchStmt a b c d => simp [ownPositions, Node.mapPos, Stmt.mapPos]
    | CaseClause a b c d => simp [ownPositions, Node.mapPos, Stmt.mapPos]
  | Decl d => cases d <;> simp [ownPositions, Node.mapPos, Decl.mapPos]
  | File f => simp [ownPositions, Node.mapPos, File.mapPos]

/-- The traversal of a tree with mapped positions visits the images of the
nodes of the tree, in the same order. -/
theorem preorder_walk_mapPos (g : token.Pos → token.Pos) :
    ∀ (d : Nat) (n : Node) (stack : List Node),
      preorder.walk d (n.mapPos g) (stack.map (Node.mapPos g))
        = (preorder.walk d n stack).map
            (fun q => (q.1.mapPos g, q.2.map (Node.mapPos g))) := by
  intro d
  induction d with
  | zero => intro n stack; simp [preorder.walk]
  | succ d ih =>
    intro n stack
    simp only [preorder.walk, List.map_cons, List.map_flatten, List.map_map, children_mapPos]
    congr 2
    apply List.map_congr_left
    intro c _
    have := ih c (stack ++ [n])
    simpa using this

theorem preorder_mapPos (g : token.Pos → token.Pos) (n : Node) :
    preorder (n.mapPos g) [] = (preorder n []).map
      (fun q => (q.1.mapPos g, q.2.map (Node.mapPos g))) := by
  unfold preorder
  rw [preorder_walk_depth (n.mapPos g).size ((n.mapPos g).size + n.size) (n.mapPos g) []
      (le_refl _) (Nat.le_add_right _ _),
    preorder_walk_depth n.size ((n.mapPos g).size + n.size) n [] (le_refl _)
      (Nat.le_add_left _ _)]
  exact preorder_walk_mapPos g _ n []

theorem positions_mapPos (g : token.Pos → token.Pos) (n : Node) :
    positions (n.mapPos g) = (positions n).map g := by
  unfold positions
  rw [preorder_mapPos, List.map_flatten, List.map_map, List.map_map]
  congr 1
  apply List.map_congr_left
  intro q _
  simp [ownPositions_mapPos]

/-- An integer within the range of a Go int is its own value as an int. -/
theorem wrapInt_eq (x : Int) (h1 : -9223372036854775808 ≤ x) (h2 : x < 9223372036854775808) :
    wrapInt x = x := by
  unfold wrapInt
  omega

theorem offsetPos_invalid (tok : token.File) (offset p : token.Pos)
    (h : p.IsValid = false) : offsetPos tok offset p = p := by
  simp [offsetPos, h]

theorem offsetPos_valid (tok : token.File) (offset p : token.Pos)
    (hfile : (tok.base : Int) + (tok.size : Int) < 9223372036854775808)
    (h : p.IsValid = true) :
    offsetPos tok offset p
      = min (max (wrapInt (p + offset)) (tok.base : Int))
          ((tok.base : Int) + (tok.size : Int)) := by
  have he : wrapInt ((tok.base : Int) + (tok.size : Int))
      = (tok.base : Int) + (tok.size : Int) := wrapInt_eq _ (by omega) hfile
  simp only [offsetPos, h, he]
  simp

/-- C19 (as amended): for every node n, offset and token file with base b and
size s whose end b + s is a Go int, offsetPositions rewrites every position
field p of every node of the subtree of n, in traversal order: NoPos stays
NoPos and any other position becomes min (max (p + offset) b) (b + s), where
the sum p + offset is the sum of Go ints and wraps around at 64 bits; when
the exact sum is within the range of an int the new position is that
formula on the exact sum. Afterwards every valid position of the subtree
lies between b and b + s, and a field whose position p is valid and has
p + offset between b and b + s holds p + offset. -/
theorem offsetPositions_spec (tok : token.File) (n : ast.Node) (offset : token.Pos)
    (hfile : (tok.base : Int) + (tok.size : Int) < 9223372036854775808) :
    ast.positions (offsetPositions tok n offset)
        = (ast.positions n).map (fun p =>
            if p = token.NoPos then token.NoPos
            else min (max (wrapInt (p + offset)) (tok.base : Int))
              ((tok.base : Int) + (tok.size : Int)))
      ∧ (∀ (i : Nat) (p : token.Pos), (ast.positions n)[i]? = some p → p.IsValid = true →
          -9223372036854775808 ≤ p + offset → p + offset < 9223372036854775808 →
          (ast.positions (offsetPositions tok n offset))[i]?
            = some (min (max (p + offset) (tok.base : Int))
                ((tok.base : Int) + (tok.size : Int))))
      ∧ (∀ q ∈ ast.positions (offsetPositions tok n offset), q.IsValid = true →
          (tok.base : Int) ≤ q ∧ q ≤ (tok.base : Int) + (tok.size : Int))
      ∧ (∀ (i : Nat) (p : token.Pos), (ast.positions n)[i]? = some p → p.IsValid = true →
          (tok.base : Int) ≤ p + offset → p + offset ≤ (tok.base : Int) + (tok.size : Int) →
          (ast.positions (offsetPositions tok n offset))[i]? = some (p + offset)) := by
  have hfun : offsetPos tok offset = fun p =>
      if p = token.NoPos then token.NoPos
      else min (max (wrapInt (p + offset)) (tok.base : Int))
        ((tok.base : Int) + (tok.size : Int)) := by
    funext p
    by_cases hp : p = token.NoPos
    · rw [if_pos hp, offsetPos_invalid tok offset p (by simp [token.Pos.IsValid, hp]), hp]
    · rw [if_neg hp, offsetPos_valid tok offset p hfile (by simp [token.Pos.IsValid, hp])]
  have hmap : ast.positions (offsetPositions tok n offset)
      = (ast.positions n).map (offsetPos tok offset) := positions_mapPos _ n
  refine ⟨by rw [hmap, hfun], ?_, ?_, ?_⟩
  · intro i p hi hv hlo hhi
    rw [hmap, List.getElem?_map, hi, Option.map_some', offsetPos_valid tok offset p hfile hv,
      wrapInt_eq _ hlo hhi]
  · intro q hq hv
    rw [hmap, List.mem_map] at hq
    obtain ⟨p, _, hpq⟩ := hq
    by_cases hp : p.IsValid = true
    · rw [offsetPos_valid tok offset p hfile hp] at hpq
      unfold token.Pos at *
      omega
    · have hp2 : p.IsValid = false := by simpa using hp
      rw [offsetPos_invalid tok offset p hp2] at hpq
      rw [← hpq, hp2] at hv
      exact absurd hv (by decide)
  · intro i p hi hv hlo hhi
    have hw : wrapInt (p + offset) = p + offset := by
      apply wrapInt_eq
      · unfold token.Pos at *
        omega
      · unfold token.Pos at *
        omega
    rw [hmap, List.getElem?_map, hi, Option.map_some', offsetPos_valid tok offset p hfile hv, hw]
    unfold token.Pos at *
    congr 1
    omega

theorem offsetPositions_spec_witness :
    ast.positions (offsetPositions { base := 1, size := 42, lines := [0] }
        (ast.Node.Stmt demo.ifStmt) 10)
      = [34, 37, 43, 0, 43, 42, 43, 43] :=
  (offsetPositions_spec { base := 1, size := 42, lines := [0] }
    (ast.Node.Stmt demo.ifStmt) 10 (by decide)).1.trans (by decide)

/-- C19 (the claim as stated fails): with a token file of base 1 and size 42,
the offset 2^63 - 1 moves the identifier at position 1 to position 1, because
the sum of the two ints wraps around to -2^63 and is clamped to the base; the
formula of the claim on the exact sum gives the end of the file, 43. -/
theorem offsetPositions_spec_counterexample :
    ast.positions (offsetPositions { base := 1, size := 42, lines := [0] }
        (ast.Node.Expr (ast.Expr.Ident { NamePos := 1, Name := "x" })) 9223372036854775807)
      = [1]
    ∧ (ast.positions (ast.Node.Expr (ast.Expr.Ident { NamePos := 1, Name := "x" }))).map
        (fun p => if p = token.NoPos then token.NoPos
          else min (max (p + 9223372036854775807) (1 : Int)) ((1 : Int) + (42 : Int)))
      = [43] := by
  decide

end offsets

end parsego
namespace parsego

section initStmt

theorem parseStmt_parseIdent_ok (tok : token.File) (pos : token.Pos) (b : Bytes) (e : String) :
    parseStmt demo.parseIdent tok pos b ≠ .error e := by
  unfold parseStmt demo.parseIdent
  by_cases h : fakePrefix ++ b ++ [chRbrace] = demo.ascii "package fake;func _()\x7bx\x7d"
  · simp only [h, if_true]
    intro hc
    cases hc
  · simp only [h, if_false]
    intro hc
    cases hc

/-- The offsets of two positions in order are in order, and the second is
within the file. -/
theorem Offsets_le (tok : token.File) (p q : token.Pos) (s e : Nat)
    (h : safetoken.Offsets tok p q = some (s, e)) : e ≤ tok.size ∧ (p ≤ q → s ≤ e) := by
  unfold safetoken.Offsets at h
  cases hs : safetoken.Offset tok p with
  | none => simp [hs] at h
  | some s0 =>
    cases he : safetoken.Offset tok q with
    | none => simp [hs, he] at h
    | some e0 =>
      simp only [hs, he, Option.some.injEq, Prod.mk.injEq] at h
      obtain ⟨h1, h2⟩ := h
      subst h1 h2
      refine ⟨(Offset_le tok q e0 he).2, fun hpq => ?_⟩
      have hs2 := (Offset_le tok p s0 hs).2
      unfold safetoken.Offset at hs he
      by_cases hq : q = (tok.base : Int) + (tok.size : Int) + 1
      · by_cases hrq : safetoken.inRange tok q = true
        · simp only [safetoken.inRange, Bool.and_eq_true, decide_eq_true_eq] at hrq
          unfold token.Pos at *
          omega
        · rw [if_neg hrq, if_pos hq] at he
          simp only [Option.some.injEq] at he
          omega
      · by_cases hrq : safetoken.inRange tok q = true
        · rw [if_pos hrq] at he
          simp only [safetoken.inRange, Bool.and_eq_true, decide_eq_true_eq] at hrq
          by_cases hrp : safetoken.inRange tok p = true
          · rw [if_pos hrp] at hs
            simp only [safetoken.inRange, Bool.and_eq_true, decide_eq_true_eq] at hrp
            simp only [Option.some.injEq] at hs he
            unfold token.Pos at *
            omega
          · rw [if_neg hrp] at hs
            by_cases hp : p = (tok.base : Int) + (tok.size : Int) + 1
            · unfold token.Pos at *
              omega
            · rw [if_neg hp] at hs
              simp at hs
        · rw [if_neg hrq, if_neg hq] at he
          simp at he

/-- The part of fixInitStmt after the sub-parse has given a statement. -/
theorem fixInitStmt_reach (parse : FileParser) (badFrom badTo : token.Pos)
    (parent : Option ast.Node) (tok : token.File) (src : Bytes) (start stop : Nat)
    (stmt : ast.Stmt)
    (hv : badFrom.IsValid = true ∧ badTo.IsValid = true)
    (ho : safetoken.Offsets tok badFrom badTo = some (start, stop))
    (hs : start ≤ stop) (he : stop ≤ src.length)
    (hp : parseStmt parse tok badFrom ((src.take stop).drop start) = .ok (some stmt)) :
    fixInitStmt parse badFrom badTo parent tok src
      = .ok (fixInitStmt.move stmt parent) := by
  unfold fixInitStmt
  rw [if_neg (by simp [hv.1, hv.2])]
  simp only [ho]
  rw [if_neg (by omega), if_neg (by omega)]
  simp only [hp]

/-- Whatever fixInitStmt returns for a parent that is not an if, for or
switch statement without an init statement is false with the parent kept. -/
theorem fixInitStmt_declines (parse : FileParser) (badFrom badTo : token.Pos)
    (parent : Option ast.Node) (tok : token.File) (src : Bytes)
    (h1 : ∀ p c b e, parent ≠ some (.Stmt (.IfStmt p none c b e)))
    (h2 : ∀ p c q b, parent ≠ some (.Stmt (.ForStmt p none c q b)))
    (h3 : ∀ p t b, parent ≠ some (.Stmt (.SwitchStmt p none t b)))
    (r : Bool × Option ast.Node)
    (h : fixInitStmt parse badFrom badTo parent tok src = .ok r) : r = (false, parent) := by
  by_cases hv : badFrom.IsValid = true ∧ badTo.IsValid = true
  · cases ho : safetoken.Offsets tok badFrom badTo with
    | none =>
      unfold fixInitStmt at h
      rw [if_neg (by simp [hv.1, hv.2])] at h
      simp only [ho] at h
      cases h
      rfl
    | some se =>
      obtain ⟨start, stop⟩ := se
      by_cases he : stop > src.length
      · unfold fixInitStmt at h
        rw [if_neg (by simp [hv.1, hv.2])] at h
        simp only [ho] at h
        rw [if_pos he] at h
        cases h
      · by_cases hs : start > stop
        · unfold fixInitStmt at h
          rw [if_neg (by simp [hv.1, hv.2])] at h
          simp only [ho] at h
          rw [if_neg he, if_pos hs] at h
          cases h
        · cases hp : parseStmt parse tok badFrom ((src.take stop).drop start) with
          | error e =>
            unfold fixInitStmt at h
            rw [if_neg (by simp [hv.1, hv.2])] at h
            simp only [ho] at h
            rw [if_neg he, if_neg hs] at h
            simp only [hp] at h
            cases h
          | ok res =>
            cases res with
            | none =>
              unfold fixInitStmt at h
              rw [if_neg (by simp [hv.1, hv.2])] at h
              simp only [ho] at h
              rw [if_neg he, if_neg hs] at h
              simp only [hp] at h
              cases h
              rfl
            | some stmt =>
              rw [fixInitStmt_reach parse badFrom badTo parent tok src start stop stmt hv ho
                (by omega) (by omega) hp] at h
              unfold fixInitStmt.move at h
              split at h
              · exact absurd rfl (h1 _ _ _ _)
              · exact absurd rfl (h2 _ _ _ _)
              · exact absurd rfl (h3 _ _ _)
              · cases h
                rfl
  · unfold fixInitStmt at h
    rw [if_pos (by
      rw [not_and_or] at hv
      rcases hv with hv | hv
      · simp [hv]
      · simp [hv])] at h
    cases h
    rfl

/-- fixInitStmt returns when the span of the BadExpr is in order, the buffer
is as long as the file and the sub-parse does not fault. -/
theorem fixInitStmt_returns (parse : FileParser) (badFrom badTo : token.Pos)
    (parent : Option ast.Node) (tok : token.File) (src : Bytes)
    (hord : badFrom ≤ badTo) (hlen : tok.size ≤ src.length)
    (hparse : ∀ b e, parseStmt parse tok badFrom b ≠ .error e) :
    ∃ r, fixInitStmt parse badFrom badTo parent tok src = .ok r := by
  by_cases hv : badFrom.IsValid = true ∧ badTo.IsValid = true
  · cases ho : safetoken.Offsets tok badFrom badTo with
    | none =>
      unfold fixInitStmt
      rw [if_neg (by simp [hv.1, hv.2])]
      simp only [ho]
      exact ⟨_, rfl⟩
    | some se =>
      obtain ⟨start, stop⟩ := se
      obtain ⟨h1, h2⟩ := Offsets_le tok badFrom badTo start stop ho
      have h3 := h2 hord
      cases hp : parseStmt parse tok badFrom ((src.take stop).drop start) with
      | error e => exact absurd hp (hparse _ e)
      | ok res =>
        cases res with
        | none =>
          unfold fixInitStmt
          rw [if_neg (by simp [hv.1, hv.2])]
          simp only [ho]
          rw [if_neg (by omega), if_neg (by omega)]
          simp only [hp]
          exact ⟨_, rfl⟩
        | some stmt =>
          rw [fixInitStmt_reach parse badFrom badTo parent tok src start stop stmt hv ho
            h3 (by omega) hp]
          exact ⟨_, rfl⟩
  · unfold fixInitStmt
    rw [if_pos (by
      rw [not_and_or] at hv
      rcases hv with hv | hv
      · simp [hv]
      · simp [hv])]
    exact ⟨_, rfl⟩

/-- C17 (as amended): for every BadExpr whose parent is an if, for or switch
statement with a non-nil Init, whatever fixInitStmt returns is false with the
parent as it was, so that Init, Cond and Tag are kept; and it does return
false when the BadExpr does not end before it starts, the buffer is at least
as long as the token file and the sub-parse does not fault. -/
theorem fixInitStmt_keeps_init (parse : FileParser) (badFrom badTo : token.Pos)
    (parent : Option ast.Node) (tok : token.File) (src : Bytes)
    (hinit : (∃ p i c b e, parent = some (.Stmt (.IfStmt p (some i) c b e)))
      ∨ (∃ p i c q b, parent = some (.Stmt (.ForStmt p (some i) c q b)))
      ∨ (∃ p i t b, parent = some (.Stmt (.SwitchStmt p (some i) t b)))) :
    (∀ r, fixInitStmt parse badFrom badTo parent tok src = .ok r → r = (false, parent))
      ∧ (badFrom ≤ badTo → tok.size ≤ src.length →
          (∀ b e, parseStmt parse tok badFrom b ≠ .error e) →
          fixInitStmt parse badFrom badTo parent tok src = .ok (false, parent)) := by
  have hdec : ∀ r, fixInitStmt parse badFrom badTo parent tok src = .ok r →
      r = (false, parent) := by
    intro r hr
    refine fixInitStmt_declines parse badFrom badTo parent tok src ?_ ?_ ?_ r hr
    · intro p c b e hc
      rcases hinit with ⟨_, _, _, _, _, h⟩ | ⟨_, _, _, _, _, h⟩ | ⟨_, _, _, _, h⟩ <;>
        · rw [h] at hc
          cases hc
    · intro p c q b hc
      rcases hinit with ⟨_, _, _, _, _, h⟩ | ⟨_, _, _, _, _, h⟩ | ⟨_, _, _, _, h⟩ <;>
        · rw [h] at hc
          cases hc
    · intro p t b hc
      rcases hinit with ⟨_, _, _, _, _, h⟩ | ⟨_, _, _, _, _, h⟩ | ⟨_, _, _, _, h⟩ <;>
        · rw [h] at hc
          cases hc
  refine ⟨hdec, fun hord hlen hparse => ?_⟩
  obtain ⟨r, hr⟩ := fixInitStmt_returns parse badFrom badTo parent tok src hord hlen hparse
  rw [hr, hdec r hr]

theorem fixInitStmt_keeps_init_witness :
    fixInitStmt demo.parseIdent 4 5 (some (ast.Node.Stmt demo.initIfTaken)) demo.initTok
        demo.initSrc
      = .ok (false, some (ast.Node.Stmt demo.initIfTaken)) :=
  (fixInitStmt_keeps_init demo.parseIdent 4 5 (some (ast.Node.Stmt demo.initIfTaken))
    demo.initTok demo.initSrc
    (Or.inl ⟨1, ast.Stmt.BadStmt 4 4, ast.Expr.BadExpr 4 5, ast.Block.mk 0 [] 0, none, rfl⟩)).2
    (by decide) (by decide) (fun b e => parseStmt_parseIdent_ok demo.initTok 4 b e)

/-- C17 (the claim as stated fails): for a BadExpr from position 5 to
position 4 of initSrc whose parent is an if statement with an Init, the ends
resolve to the offsets 4 and 3, and fixInitStmt faults at the slice
expression src[4:3] of line 512, before the parent is looked at, instead of
returning false. -/
theorem fixInitStmt_keeps_init_counterexample :
    fixInitStmt demo.parseIdent 5 4 (some (ast.Node.Stmt demo.initIfTaken)) demo.initTok
        demo.initSrc
      = .error "slice bounds out of range"
    ∧ ¬ (∀ (parse : FileParser) (badFrom badTo : token.Pos) (parent : Option ast.Node)
          (tok : token.File) (src : Bytes),
          ((∃ p i c b e, parent = some (.Stmt (.IfStmt p (some i) c b e)))
            ∨ (∃ p i c q b, parent = some (.Stmt (.ForStmt p (some i) c q b)))
            ∨ (∃ p i t b, parent = some (.Stmt (.SwitchStmt p (some i) t b)))) →
          fixInitStmt parse badFrom badTo parent tok src = .ok (false, parent)) := by
  refine ⟨rfl, fun h => ?_⟩
  have hr := h demo.parseIdent 5 4 (some (ast.Node.Stmt demo.initIfTaken)) demo.initTok
    demo.initSrc
    (Or.inl ⟨1, ast.Stmt.BadStmt 4 4, ast.Expr.BadExpr 4 5, ast.Block.mk 0 [] 0, none, rfl⟩)
  have he : fixInitStmt demo.parseIdent 5 4 (some (ast.Node.Stmt demo.initIfTaken))
      demo.initTok demo.initSrc = .error "slice bounds out of range" := rfl
  rw [he] at hr
  cases hr

/-- C18: when the BadExpr has valid ends that resolve to the offsets start
and stop of a span of src and the sub-parse of that span yields the
statement stmt, then for an IfStmt or ForStmt parent without Init
fixInitStmt returns true, with Init set to stmt and Cond to an identifier
named _ at stmt.End(); for a SwitchStmt parent without Init it returns true
with Init set to stmt and Tag nil; and for a parent of any other kind it
returns false and the parent is as it was. -/
theorem fixInitStmt_moves_init (parse : FileParser) (badFrom badTo : token.Pos)
    (parent : Option ast.Node) (tok : token.File) (src : Bytes) (start stop : Nat)
    (stmt : ast.Stmt)
    (hv : badFrom.IsValid = true ∧ badTo.IsValid = true)
    (ho : safetoken.Offsets tok badFrom badTo = some (start, stop))
    (hs : start ≤ stop) (he : stop ≤ src.length)
    (hp : parseStmt parse tok badFrom ((src.take stop).drop start) = .ok (some stmt)) :
    (∀ p cond body els, parent = some (.Stmt (.IfStmt p none cond body els)) →
        fixInitStmt parse badFrom badTo parent tok src
          = .ok (true, some (.Stmt (.IfStmt p (some stmt)
              (.Ident { NamePos := stmt.End, Name := "_" }) body els))))
      ∧ (∀ p cond post body, parent = some (.Stmt (.ForStmt p none cond post body)) →
        fixInitStmt parse badFrom badTo parent tok src
          = .ok (true, some (.Stmt (.ForStmt p (some stmt)
              (some (.Ident { NamePos := stmt.End, Name := "_" })) post body))))
      ∧ (∀ p tag body, parent = some (.Stmt (.SwitchStmt p none tag body)) →
        fixInitStmt parse badFrom badTo parent tok src
          = .ok (true, some (.Stmt (.SwitchStmt p (some stmt) none body))))
      ∧ ((∀ p i c b e, parent ≠ some (.Stmt (.IfStmt p i c b e))) →
          (∀ p i c q b, parent ≠ some (.Stmt (.ForStmt p i c q b))) →
          (∀ p i t b, parent ≠ some (.Stmt (.SwitchStmt p i t b))) →
          fixInitStmt parse badFrom badTo parent tok src = .ok (false, parent)) := by
  rw [fixInitStmt_reach parse badFrom badTo parent tok src start stop stmt hv ho hs he hp]
  refine ⟨?_, ?_, ?_, ?_⟩
  · intro p cond body els h
    rw [h]
    rfl
  · intro p cond post body h
    rw [h]
    rfl
  · intro p tag body h
    rw [h]
    rfl
  · intro h1 h2 h3
    unfold fixInitStmt.move
    split
    · exact absurd rfl (h1 _ _ _ _ _)
    · exact absurd rfl (h2 _ _ _ _ _)
    · exact absurd rfl (h3 _ _ _ _)
    · rfl

theorem fixInitStmt_moves_init_witness :
    fixInitStmt demo.parseIdent 4 5 (some (ast.Node.Stmt demo.initIf)) demo.initTok demo.initSrc
      = .ok (true, some (ast.Node.Stmt (ast.Stmt.IfStmt 1
          (some (ast.Stmt.ExprStmt (ast.Expr.Ident { NamePos := 4, Name := "x" })))
          (ast.Expr.Ident { NamePos := 5, Name := "_" }) (ast.Block.mk 0 [] 0) none))) :=
  (fixInitStmt_moves_init demo.parseIdent 4 5 (some (ast.Node.Stmt demo.initIf)) demo.initTok
    demo.initSrc 3 4 (ast.Stmt.ExprStmt (ast.Expr.Ident { NamePos := 4, Name := "x" }))
    (by decide) rfl (by decide) (by decide) rfl).1 1 (ast.Expr.BadExpr 4 5)
    (ast.Block.mk 0 [] 0) none rfl

end initStmt

end parsego
namespace parsego

section comments

/-- A pass of the comment loop that reports no move has found the position
outside every comment, and returns it. -/
theorem commentPass_foldl_still (cs : List ast.CommentGroup) :
    ∀ acc : token.Pos × Bool,
      (cs.foldl (fun acc c => if c.Pos < acc.1 ∧ acc.1 ≤ c.End then (c.Pos, true) else acc)
        acc).2 = false →
      acc.2 = false
        ∧ (cs.foldl (fun acc c => if c.Pos < acc.1 ∧ acc.1 ≤ c.End then (c.Pos, true) else acc)
            acc).1 = acc.1
        ∧ ∀ c ∈ cs, ¬ (c.Pos < acc.1 ∧ acc.1 ≤ c.End) := by
  induction cs with
  | nil => intro acc h; exact ⟨by simpa using h, rfl, fun c hc => by simp at hc⟩
  | cons c cs ih =>
    intro acc h
    simp only [List.foldl_cons] at h ⊢
    obtain ⟨h1, h2, h3⟩ := ih _ h
    by_cases hc : c.Pos < acc.1 ∧ acc.1 ≤ c.End
    · rw [if_pos hc] at h1
      simp at h1
    · rw [if_neg hc] at h1 h2 h3
      rw [if_neg hc]
      refine ⟨h1, h2, ?_⟩
      intro x hx
      rcases List.mem_cons.mp hx with hx | hx
      · rw [hx]; exact hc
      · exact h3 x hx

theorem commentPass_still (comments : List ast.CommentGroup) (q : token.Pos)
    (h : (commentPass comments q).2 = false) :
    (commentPass comments q).1 = q ∧ ∀ c ∈ comments, ¬ (c.Pos < q ∧ q ≤ c.End) :=
  (commentPass_foldl_still comments (q, false) h).2

/-- A pass that moves the position leaves fewer comments that start before it. -/
theorem commentPass_moves (comments : List ast.CommentGroup) (q : token.Pos)
    (h : (commentPass comments q).2 = true) :
    comments.countP (fun c => decide (c.Pos < (commentPass comments q).1))
      < comments.countP (fun c => decide (c.Pos < q)) := by
  rcases commentPass_cases comments q with ⟨h1, _⟩ | ⟨_, c, hc, h3, h4⟩
  · rw [h1] at h
    cases h
  · apply countP_lt_of_witness _ _ _ comments c hc
    · simpa using h4
    · rw [h3]; simp
    · intro x hx
      simp only [decide_eq_true_eq] at hx ⊢
      rw [h3] at hx
      exact lt_trans hx h4

/-- Passes beyond the number of comments that start before the position are
never made: the loop has ended before. -/
theorem backOutOfComments_loop_fuel (comments : List ast.CommentGroup) :
    ∀ (passes : Nat) (q : token.Pos),
      comments.countP (fun c => decide (c.Pos < q)) < passes →
      ∀ extra, backOutOfComments.loop comments (passes + extra) q
        = backOutOfComments.loop comments passes q := by
  intro passes
  induction passes with
  | zero => intro q h; omega
  | succ n ih =>
    intro q h extra
    have hn : n + 1 + extra = (n + extra) + 1 := by omega
    rw [hn]
    simp only [backOutOfComments.loop]
    by_cases hd : (commentPass comments q).2 = true
    · rw [if_pos hd, if_pos hd]
      apply ih
      have := commentPass_moves comments q hd
      omega
    · rw [if_neg hd, if_neg hd]

/-- C21: for every list of comments and every starting insertion point the
loop that backs the insertion point out of comments ends: one pass more than
there are comments is enough, further passes are never made, and the last
pass made moves nothing. The insertion point it ends with is inside no
comment of the list, and it is not after the starting point. -/
theorem backOutOfComments_terminates (comments : List ast.CommentGroup) (p : token.Pos) :
    (∀ passes, comments.length + 1 ≤ passes →
        backOutOfComments.loop comments passes p = backOutOfComments comments p)
      ∧ commentPass comments (backOutOfComments comments p)
          = (backOutOfComments comments p, false)
      ∧ (∀ c ∈ comments,
          ¬ (c.Pos < backOutOfComments comments p ∧ backOutOfComments comments p ≤ c.End))
      ∧ backOutOfComments comments p ≤ p := by
  have hs := backOutOfComments_settled comments p
  have hstill := commentPass_still comments _ hs
  refine ⟨?_, ?_, hstill.2, backOutOfComments_le comments p⟩
  · intro passes hp
    obtain ⟨extra, he⟩ := Nat.exists_eq_add_of_le hp
    rw [he]
    unfold backOutOfComments
    apply backOutOfComments_loop_fuel
    have := List.countP_le_length (fun c : ast.CommentGroup => decide (c.Pos < p)) (l := comments)
    omega
  · exact Prod.ext hstill.1 hs

theorem backOutOfComments_terminates_witness :
    backOutOfComments.loop demo.nested 7 60 = 10
      ∧ ¬ ((demo.nested.get ⟨1, by decide⟩).Pos < backOutOfComments demo.nested 60
            ∧ backOutOfComments demo.nested 60 ≤ (demo.nested.get ⟨1, by decide⟩).End) :=
  ⟨((backOutOfComments_terminates demo.nested 60).1 7 (by decide)).trans (by decide),
   (backOutOfComments_terminates demo.nested 60).2.2.1 _ (List.get_mem _ _ _)⟩

end comments

end parsego
namespace parsego

section dangling

/-- What fixDanglingSelector returns when it returns a buffer. -/
theorem fixDanglingSelector_some (X : ast.Expr) (Sel : ast.Ident) (tf : token.File)
    (src newSrc : Bytes) (h : fixDanglingSelector X Sel tf src = .ok (some newSrc)) :
    ∃ o, safetoken.Offset tf X.End = some o ∧ o < src.length ∧ src.get? o = some chPeriod
      ∧ newSrc = src.take (o + 1) ++ [chUnderscore] ++ src.drop (o + 1) := by
  unfold fixDanglingSelector at h
  by_cases h1 : (!isPhantomUnderscore Sel tf src) = true
  · rw [if_pos h1] at h
    simp at h
  · rw [if_neg h1] at h
    by_cases h2 : (!X.End.IsValid) = true
    · rw [if_pos h2] at h
      simp at h
    · rw [if_neg h2] at h
      cases ho : safetoken.Offset tf X.End with
      | none => simp [ho] at h
      | some o =>
        simp only [ho, Nat.add_sub_cancel] at h
        rw [List.get?_eq_getElem?] at h
        cases hg : src[o]? with
        | none => simp [hg] at h
        | some c =>
          simp only [hg] at h
          by_cases hc : c ≠ chPeriod
          · rw [if_pos hc] at h
            simp at h
          · rw [if_neg hc] at h
            simp only [ne_eq, Decidable.not_not] at hc
            simp only [Except.ok.injEq, Option.some.injEq] at h
            have hlt : o < src.length := by
              rcases Nat.lt_or_ge o src.length with hl | hl
              · exact hl
              · rw [List.getElem?_eq_none hl] at hg
                cases hg
            exact ⟨o, rfl, hlt, by rw [List.get?_eq_getElem?, hg, hc], h.symm⟩

/-- The offsets of two positions in order are in order. -/
theorem Offset_mono (tok : token.File) (p q : token.Pos) (s e : Nat)
    (hp : safetoken.Offset tok p = some s) (hq : safetoken.Offset tok q = some e)
    (h : p ≤ q) : s ≤ e :=
  (Offsets_le tok p q s e (by simp [safetoken.Offsets, hp, hq])).2 h

/-- A phantom underscore resolves to an offset below the length of src. -/
theorem isPhantomUnderscore_offset (id : ast.Ident) (tok : token.File) (src : Bytes)
    (h : isPhantomUnderscore id tok src = true) :
    ∃ o, safetoken.Offset tok id.Pos = some o ∧ o < src.length := by
  unfold isPhantomUnderscore at h
  by_cases hn : id.Name = "_"
  · rw [if_pos hn] at h
    cases ho : safetoken.Offset tok id.Pos with
    | none => simp [ho] at h
    | some o =>
      simp only [ho, Bool.and_eq_true, decide_eq_true_eq] at h
      exact ⟨o, rfl, h.1⟩
  · rw [if_neg hn] at h
    cases h

/-- C22 (as amended): for every selector expression whose Sel does not start
before its X ends, and every buffer and token file, fixDanglingSelector does
not fault: it returns nil or a buffer. When s.X.End() resolves to an offset
that is not below len(src), such as the one past the last byte, it returns
nil. -/
theorem fixDanglingSelector_in_range (X : ast.Expr) (Sel : ast.Ident) (tf : token.File)
    (src : Bytes) (hord : X.End ≤ Sel.Pos) :
    (∃ r, fixDanglingSelector X Sel tf src = .ok r)
      ∧ (∀ o, safetoken.Offset tf X.End = some o → src.length ≤ o →
          fixDanglingSelector X Sel tf src = .ok none) := by
  by_cases h1 : isPhantomUnderscore Sel tf src = true
  · obtain ⟨os, hos, hlt⟩ := isPhantomUnderscore_offset Sel tf src h1
    refine ⟨?_, ?_⟩
    · unfold fixDanglingSelector
      rw [if_neg (by simp [h1])]
      by_cases h2 : (!X.End.IsValid) = true
      · rw [if_pos h2]
        exact ⟨_, rfl⟩
      · rw [if_neg h2]
        cases ho : safetoken.Offset tf X.End with
        | none => exact ⟨_, rfl⟩
        | some o =>
          have hle := Offset_mono tf X.End Sel.Pos o os ho hos hord
          have hol : o < src.length := by omega
          simp only [Nat.add_sub_cancel]
          rw [List.get?_eq_get hol]
          simp only
          by_cases hc : src.get ⟨o, hol⟩ ≠ chPeriod
          · rw [if_pos hc]
            exact ⟨_, rfl⟩
          · rw [if_neg hc]
            exact ⟨_, rfl⟩
    · intro o ho hlen
      have hle := Offset_mono tf X.End Sel.Pos o os ho hos hord
      omega
  · refine ⟨⟨none, ?_⟩, fun _ _ _ => ?_⟩
    · unfold fixDanglingSelector
      rw [if_pos (by simp [h1])]
    · unfold fixDanglingSelector
      rw [if_pos (by simp [h1])]

theorem fixDanglingSelector_in_range_witness :
    fixDanglingSelector (ast.Expr.Ident { NamePos := 1, Name := "ab" })
        { NamePos := 3, Name := "_" } { base := 1, size := 2, lines := [0] } (demo.ascii "ab")
      = .ok none :=
  (fixDanglingSelector_in_range (ast.Expr.Ident { NamePos := 1, Name := "ab" })
    { NamePos := 3, Name := "_" } { base := 1, size := 2, lines := [0] } (demo.ascii "ab")
    (by decide)).2 2 rfl (by decide)

/-- C22 (the claim as stated fails): for the buffer abc with a token file of
size 3, a selector whose X is the identifier abc at position 1 and whose Sel
is an underscore at position 2 has s.X.End() resolve to offset 3, the length
of the buffer, while Sel passes for a phantom underscore; fixDanglingSelector
then reads src[3] and faults instead of returning nil. -/
theorem fixDanglingSelector_in_range_counterexample :
    ({ base := 1, size := 3, lines := [0] } : token.File).size = (demo.ascii "abc").length
      ∧ safetoken.Offset { base := 1, size := 3, lines := [0] }
          (ast.Expr.Ident { NamePos := 1, Name := "abc" }).End = some (demo.ascii "abc").length
      ∧ fixDanglingSelector (ast.Expr.Ident { NamePos := 1, Name := "abc" })
          { NamePos := 2, Name := "_" } { base := 1, size := 3, lines := [0] } (demo.ascii "abc")
        = .error "index out of range"
      ∧ ¬ (∀ (X : ast.Expr) (Sel : ast.Ident) (tf : token.File) (src : Bytes),
            tf.size = src.length → ∃ r, fixDanglingSelector X Sel tf src = .ok r) := by
  refine ⟨by decide, by decide, rfl, fun h => ?_⟩
  obtain ⟨r, hr⟩ := h (ast.Expr.Ident { NamePos := 1, Name := "abc" })
    { NamePos := 2, Name := "_" } { base := 1, size := 3, lines := [0] } (demo.ascii "abc")
    (by decide)
  have he : fixDanglingSelector (ast.Expr.Ident { NamePos := 1, Name := "abc" })
      { NamePos := 2, Name := "_" } { base := 1, size := 3, lines := [0] } (demo.ascii "abc")
        = .error "index out of range" := rfl
  rw [he] at hr
  cases hr

/-- C23: when fixDanglingSelector returns newSrc, the period of the selector
is at the offset o of s.X.End() in newSrc as well, and the byte of newSrc
after it is an underscore. So for every token file, isPhantomUnderscore is
false on newSrc for an identifier whose position resolves to the offset after
that period, and fixDanglingSelector returns nil on newSrc for every selector
whose Sel resolves to that offset. -/
theorem fixDanglingSelector_progress (X : ast.Expr) (Sel : ast.Ident) (tf : token.File)
    (src newSrc : Bytes) (h : fixDanglingSelector X Sel tf src = .ok (some newSrc)) :
    ∃ o, safetoken.Offset tf X.End = some o
      ∧ newSrc.get? o = some chPeriod
      ∧ newSrc.get? (o + 1) = some chUnderscore
      ∧ (∀ (id : ast.Ident) (tok : token.File), safetoken.Offset tok id.Pos = some (o + 1) →
          isPhantomUnderscore id tok newSrc = false)
      ∧ (∀ (X2 : ast.Expr) (Sel2 : ast.Ident) (tok : token.File),
          safetoken.Offset tok Sel2.Pos = some (o + 1) →
          fixDanglingSelector X2 Sel2 tok newSrc = .ok none) := by
  obtain ⟨o, ho, hlt, hdot, hnew⟩ := fixDanglingSelector_some X Sel tf src newSrc h
  have hlen : (src.take (o + 1)).length = o + 1 := by
    rw [List.length_take]
    omega
  have hu : newSrc.get? (o + 1) = some chUnderscore := by
    rw [hnew, List.append_assoc, List.get?_eq_getElem?,
      @List.getElem?_append_right _ (src.take (o + 1)) _ (o + 1) (by omega), hlen]
    simp
  have hp : newSrc.get? o = some chPeriod := by
    rw [hnew, List.append_assoc, List.get?_eq_getElem?,
      List.getElem?_append_left (by omega), List.getElem?_take, if_pos (by omega),
      ← List.get?_eq_getElem?, hdot]
  have hph : ∀ (id : ast.Ident) (tok : token.File),
      safetoken.Offset tok id.Pos = some (o + 1) →
      isPhantomUnderscore id tok newSrc = false := by
    intro id tok hid
    unfold isPhantomUnderscore
    by_cases hn : id.Name = "_"
    · rw [if_pos hn]
      simp only [hid, hu]
      simp
    · rw [if_neg hn]
  refine ⟨o, ho, hp, hu, hph, ?_⟩
  intro X2 Sel2 tok hs
  unfold fixDanglingSelector
  rw [if_pos (by simp [hph Sel2 tok hs])]

theorem fixDanglingSelector_progress_witness :
    ∃ o, safetoken.Offset demo.dotTok (ast.Expr.Ident { NamePos := 1, Name := "x" }).End = some o
      ∧ (demo.ascii "x._\n").get? o = some chPeriod
      ∧ (demo.ascii "x._\n").get? (o + 1) = some chUnderscore
      ∧ (∀ (id : ast.Ident) (tok : token.File), safetoken.Offset tok id.Pos = some (o + 1) →
          isPhantomUnderscore id tok (demo.ascii "x._\n") = false)
      ∧ (∀ (X2 : ast.Expr) (Sel2 : ast.Ident) (tok : token.File),
          safetoken.Offset tok Sel2.Pos = some (o + 1) →
          fixDanglingSelector X2 Sel2 tok (demo.ascii "x._\n") = .ok none) :=
  fixDanglingSelector_progress (ast.Expr.Ident { NamePos := 1, Name := "x" })
    { NamePos := 3, Name := "_" } demo.dotTok demo.dotSrc (demo.ascii "x._\n") rfl

end dangling

end parsego
namespace parsego

section srcFixes

variable {W : Type}

/-- A buffer with bytes inserted at one offset holds the old buffer as a
subsequence. -/
theorem sublist_insert (src ins : Bytes) (o : Nat) :
    src.Sublist (src.take o ++ ins ++ src.drop o) := by
  have h : (src.take o ++ src.drop o).Sublist (src.take o ++ (ins ++ src.drop o)) :=
    List.Sublist.append (List.Sublist.refl _) (List.sublist_append_right _ _)
  rw [List.take_append_drop] at h
  rw [List.append_assoc]
  exact h

theorem length_insert (src ins : Bytes) (o : Nat) (h : o ≤ src.length) :
    (src.take o ++ ins ++ src.drop o).length = src.length + ins.length := by
  simp only [List.length_append, List.length_take, List.length_drop]
  omega

/-- One edit of fixSrc: the tag is a source-fix tag and the new buffer is
the old one with one, two or three bytes inserted. -/
theorem fixSrc_edit (scan : Scanner) (f : ast.File) (tf : token.File) (src newSrc : Bytes)
    (fix : FixType) (h : fixSrc scan f tf src = .ok (some newSrc, fix)) :
    fix.isSrcFix = true ∧ src.Sublist newSrc
      ∧ src.length + 1 ≤ newSrc.length ∧ newSrc.length ≤ src.length + 3 := by
  obtain ⟨rest, _, hcase⟩ := fixSrc_run_spec scan f tf src
  rcases hcase with ⟨h1, _, _⟩ | ⟨pre, p, b, _, _, h3, h4⟩ | ⟨pre, p, e, _, _, _, h4⟩
  · rw [h1] at h
    simp at h
  · rw [h4] at h
    simp only [Except.ok.injEq, Prod.mk.injEq, Option.some.injEq] at h
    obtain ⟨hb, hfix⟩ := h
    subst hb hfix
    rcases p with ⟨n, stack⟩
    unfold srcFixer at h3
    cases n with
    | Stmt s =>
      cases s with
      | BlockStmt blk =>
        simp only at h3
        cases hl : stack.getLast? with
        | none => simp [hl] at h3
        | some parent =>
          simp only [hl] at h3
          obtain ⟨o, ho, hnew⟩ := fixMissingCurlies_some scan f blk parent tf src b h3
          have hnew2 : b = src.take o
              ++ ((if needsSemicolon parent = true then [chSemicolon] else [])
                ++ [chLbrace, chRbrace]) ++ src.drop o := by
            rw [hnew]
            simp only [List.append_assoc]
          refine ⟨rfl, ?_, ?_, ?_⟩
          · rw [hnew2]
            exact sublist_insert src _ o
          · rw [hnew2, length_insert src _ o ho]
            simp
          · rw [hnew2, length_insert src _ o ho]
            by_cases hn : needsSemicolon parent = true <;> simp [hn]
      | BadStmt a b => simp at h3
      | ExprStmt a => simp at h3
      | IfStmt a b c d e => simp at h3
      | ForStmt a b c d e => simp at h3
      | SwitchStmt a b c d => simp at h3
      | CaseClause a b c d => simp at h3
    | Expr x =>
      cases x with
      | SelectorExpr X Sel =>
        simp only at h3
        obtain ⟨o, _, hlt, _, hnew⟩ := fixDanglingSelector_some X Sel tf src b h3
        refine ⟨rfl, ?_, ?_, ?_⟩
        · rw [hnew]
          exact sublist_insert src _ (o + 1)
        · rw [hnew, length_insert src _ (o + 1) (by omega)]
          simp
        · rw [hnew, length_insert src _ (o + 1) (by omega)]
          simp
      | BadExpr a b => simp at h3
      | Ident a => simp at h3
      | BasicLit a b => simp at h3
      | ParenExpr a b c => simp at h3
      | CallExpr a b c d e => simp at h3
      | FuncLit a b => simp at h3
    | Comment c => simp at h3
    | CommentGroup g => simp at h3
    | FieldList l => simp at h3
    | FuncType t => simp at h3
    | Decl d => simp at h3
    | File f => simp at h3
  · rw [h4] at h
    simp at h

/-- The source-fix tags of a fix list with the tags of fixAST appended. -/
theorem countP_isSrcFix_append (fixes more : List FixType)
    (h : ∀ t ∈ more, t.isSrcFix = false) :
    (fixes ++ more).countP FixType.isSrcFix = fixes.countP FixType.isSrcFix := by
  rw [List.countP_append]
  have : more.countP FixType.isSrcFix = 0 := by
    rw [List.countP_eq_zero]
    intro t ht
    rw [h t ht]
    simp
  omega

theorem runFixAST_fixes (c : Collaborators W ast.File token.File)
    (hast : ∀ f tf b, ∀ t ∈ (c.fixAST f tf b).2, t.isSrcFix = false)
    (st : State W ast.File token.File) :
    (runFixAST c st).fixes.countP FixType.isSrcFix = st.fixes.countP FixType.isSrcFix
      ∧ (runFixAST c st).src = st.src ∧ (runFixAST c st).fixedSrc = st.fixedSrc := by
  refine ⟨?_, rfl, rfl⟩
  simp only [runFixAST]
  split
  · exact countP_isSrcFix_append _ _ (hast _ _ _)
  · rfl

/-- C24: let fixSrc return a buffer only as the fixSrc of parse.go does, and
fixAST return none of the two source-fix tags. Then in the result of Parse
fixedSrc is true exactly when the fix list holds FixedCurlies or
FixedDanglingSelector; the number k of such tags is at most 10; the first
parsed bytes are a subsequence of Src, so Src comes from them by insertions
only; the length of Src exceeds theirs by at least k and at most 3k; and for
k = 0 Src is those bytes. -/
theorem Parse_fixedSrc_spec (scan : Scanner) (c : Collaborators W ast.File token.File)
    (fset : W) (uri : String) (src : Bytes) (mode : Nat) (purgeFuncBodies : Bool)
    (hsrc : ∀ f tf b newSrc fix, c.fixSrc f tf b = (some newSrc, fix) →
      fixSrc scan f tf b = .ok (some newSrc, fix))
    (hast : ∀ f tf b, ∀ t ∈ (c.fixAST f tf b).2, t.isSrcFix = false) :
    ((Parse c fset uri src mode purgeFuncBodies).res.fixedSrc = true ↔
        ∃ t ∈ (Parse c fset uri src mode purgeFuncBodies).fixes,
          t = FixType.FixedCurlies ∨ t = FixType.FixedDanglingSelector)
      ∧ (Parse c fset uri src mode purgeFuncBodies).fixes.countP FixType.isSrcFix ≤ 10
      ∧ (firstSrc c src purgeFuncBodies).Sublist
          (Parse c fset uri src mode purgeFuncBodies).res.Src
      ∧ (firstSrc c src purgeFuncBodies).length
            + (Parse c fset uri src mode purgeFuncBodies).fixes.countP FixType.isSrcFix
          ≤ (Parse c fset uri src mode purgeFuncBodies).res.Src.length
      ∧ (Parse c fset uri src mode purgeFuncBodies).res.Src.length
          ≤ (firstSrc c src purgeFuncBodies).length
            + 3 * (Parse c fset uri src mode purgeFuncBodies).fixes.countP FixType.isSrcFix
      ∧ ((Parse c fset uri src mode purgeFuncBodies).fixes.countP FixType.isSrcFix = 0 →
          (Parse c fset uri src mode purgeFuncBodies).res.Src
            = firstSrc c src purgeFuncBodies) := by
  have key : ∀ n (st : State W ast.File token.File),
      (st.fixes.countP FixType.isSrcFix + n ≤ 10
        ∧ (st.fixedSrc = true ↔ 0 < st.fixes.countP FixType.isSrcFix)
        ∧ (firstSrc c src purgeFuncBodies).Sublist st.src
        ∧ (firstSrc c src purgeFuncBodies).length + st.fixes.countP FixType.isSrcFix
            ≤ st.src.length
        ∧ st.src.length
            ≤ (firstSrc c src purgeFuncBodies).length + 3 * st.fixes.countP FixType.isSrcFix) →
      ((repairLoop c uri mode n st).fixes.countP FixType.isSrcFix ≤ 10
        ∧ ((repairLoop c uri mode n st).fixedSrc = true
            ↔ 0 < (repairLoop c uri mode n st).fixes.countP FixType.isSrcFix)
        ∧ (firstSrc c src purgeFuncBodies).Sublist (repairLoop c uri mode n st).src
        ∧ (firstSrc c src purgeFuncBodies).length
              + (repairLoop c uri mode n st).fixes.countP FixType.isSrcFix
            ≤ (repairLoop c uri mode n st).src.length
        ∧ (repairLoop c uri mode n st).src.length
            ≤ (firstSrc c src purgeFuncBodies).length
              + 3 * (repairLoop c uri mode n st).fixes.countP FixType.isSrcFix) := by
    apply repairLoop_rule c uri mode
      (fun n st => st.fixes.countP FixType.isSrcFix + n ≤ 10
        ∧ (st.fixedSrc = true ↔ 0 < st.fixes.countP FixType.isSrcFix)
        ∧ (firstSrc c src purgeFuncBodies).Sublist st.src
        ∧ (firstSrc c src purgeFuncBodies).length + st.fixes.countP FixType.isSrcFix
            ≤ st.src.length
        ∧ st.src.length
            ≤ (firstSrc c src purgeFuncBodies).length + 3 * st.fixes.countP FixType.isSrcFix)
      (fun st => st.fixes.countP FixType.isSrcFix ≤ 10
        ∧ (st.fixedSrc = true ↔ 0 < st.fixes.countP FixType.isSrcFix)
        ∧ (firstSrc c src purgeFuncBodies).Sublist st.src
        ∧ (firstSrc c src purgeFuncBodies).length + st.fixes.countP FixType.isSrcFix
            ≤ st.src.length
        ∧ st.src.length
            ≤ (firstSrc c src purgeFuncBodies).length + 3 * st.fixes.countP FixType.isSrcFix)
    · rintro st ⟨h1, h2, h3, h4, h5⟩
      exact ⟨by omega, h2, h3, h4, h5⟩
    · rintro n st srcFix ⟨h1, h2, h3, h4, h5⟩ _
      exact ⟨Nat.le_trans (Nat.le_add_right _ _) h1, h2, h3, h4, h5⟩
    · rintro n st newSrc srcFix ⟨h1, h2, h3, h4, h5⟩ hfix _
      obtain ⟨e1, e2, e3, e4⟩ := fixSrc_edit scan _ _ _ _ _ (hsrc _ _ _ _ _ hfix)
      have hk : (st.fixes ++ [srcFix]).countP FixType.isSrcFix
          = st.fixes.countP FixType.isSrcFix + 1 := by
        rw [List.countP_append]
        simp [e1]
      simp only [adopt]
      rw [hk]
      exact ⟨by omega, by simp, h3.trans e2, by omega, by omega⟩
    · rintro n st newSrc srcFix ⟨h1, h2, h3, h4, h5⟩ hfix _
      obtain ⟨e1, e2, e3, e4⟩ := fixSrc_edit scan _ _ _ _ _ (hsrc _ _ _ _ _ hfix)
      have hk : (st.fixes ++ [srcFix]).countP FixType.isSrcFix
          = st.fixes.countP FixType.isSrcFix + 1 := by
        rw [List.countP_append]
        simp [e1]
      obtain ⟨r1, r2, r3⟩ := runFixAST_fixes c hast (adopt c uri mode st newSrc srcFix).1
      rw [r1, r2, r3]
      simp only [adopt]
      rw [hk]
      exact ⟨by omega, by simp, h3.trans e2, by omega, by omega⟩
  have main : (Parse c fset uri src mode purgeFuncBodies).fixes.countP FixType.isSrcFix ≤ 10
      ∧ ((Parse c fset uri src mode purgeFuncBodies).res.fixedSrc = true
          ↔ 0 < (Parse c fset uri src mode purgeFuncBodies).fixes.countP FixType.isSrcFix)
      ∧ (firstSrc c src purgeFuncBodies).Sublist
          (Parse c fset uri src mode purgeFuncBodies).res.Src
      ∧ (firstSrc c src purgeFuncBodies).length
            + (Parse c fset uri src mode purgeFuncBodies).fixes.countP FixType.isSrcFix
          ≤ (Parse c fset uri src mode purgeFuncBodies).res.Src.length
      ∧ (Parse c fset uri src mode purgeFuncBodies).res.Src.length
          ≤ (firstSrc c src purgeFuncBodies).length
            + 3 * (Parse c fset uri src mode purgeFuncBodies).fixes.countP FixType.isSrcFix := by
    unfold Parse
    by_cases h : (c.ParseFile fset uri (firstSrc c src purgeFuncBodies) mode).2.2 = []
    · simp [h]
    · simp only [ne_eq, h, not_false_eq_true, if_true]
      apply key
      obtain ⟨r1, r2, r3⟩ := runFixAST_fixes c hast
        { fset := (c.ParseFile fset uri (firstSrc c src purgeFuncBodies) mode).1
          file := (c.ParseFile fset uri (firstSrc c src purgeFuncBodies) mode).2.1
          src := firstSrc c src purgeFuncBodies
          tok := c.tokenFile (c.ParseFile fset uri (firstSrc c src purgeFuncBodies) mode).1
            (c.ParseFile fset uri (firstSrc c src purgeFuncBodies) mode).2.1
          fixes := []
          fixedSrc := false
          fixedAST := false
          calls := [Call.ParseFile (firstSrc c src purgeFuncBodies)
            (c.ParseFile fset uri (firstSrc c src purgeFuncBodies) mode).1
            (c.ParseFile fset uri (firstSrc c src purgeFuncBodies) mode).2.1
            (c.ParseFile fset uri (firstSrc c src purgeFuncBodies) mode).2.2] }
      rw [r1, r2, r3]
      simp
  obtain ⟨m1, m2, m3, m4, m5⟩ := main
  refine ⟨?_, m1, m3, m4, m5, ?_⟩
  · rw [m2, List.countP_pos_iff]
    constructor
    · rintro ⟨t, ht, hs⟩
      refine ⟨t, ht, ?_⟩
      cases t <;> simp [FixType.isSrcFix] at hs ⊢
    · rintro ⟨t, ht, hs⟩
      refine ⟨t, ht, ?_⟩
      rcases hs with hs | hs <;> rw [hs] <;> rfl
  · intro hk
    rw [hk] at m5
    exact (List.Sublist.eq_of_length_le m3 (by omega)).symm

theorem goCollab_fixSrc (f : ast.File) (tf : token.File) (b newSrc : Bytes) (fix : FixType)
    (h : demo.goCollab.fixSrc f tf b = (some newSrc, fix)) :
    fixSrc demo.scan f tf b = .ok (some newSrc, fix) := by
  simp only [demo.goCollab] at h
  cases hf : fixSrc demo.scan f tf b with
  | error e =>
    rw [hf] at h
    simp at h
  | ok r =>
    rw [hf] at h
    simp only at h
    rw [h]

theorem goCollab_fixAST (f : ast.File) (tf : token.File) (b : Bytes) :
    ∀ t ∈ (demo.goCollab.fixAST f tf b).2, t.isSrcFix = false := by
  intro t ht
  simp [demo.goCollab] at ht

theorem Parse_fixedSrc_spec_witness :
    (Parse demo.goCollab demo.okTok "a.go" demo.ifSrc 0 false).fixes = [FixType.FixedCurlies]
      ∧ (Parse demo.goCollab demo.okTok "a.go" demo.ifSrc 0 false).res.Src = demo.okSrc
      ∧ (Parse demo.goCollab demo.okTok "a.go" demo.ifSrc 0 false).res.fixedSrc = true
      ∧ (firstSrc demo.goCollab demo.ifSrc false).length
            + (Parse demo.goCollab demo.okTok "a.go" demo.ifSrc 0 false).fixes.countP
                FixType.isSrcFix
          ≤ (Parse demo.goCollab demo.okTok "a.go" demo.ifSrc 0 false).res.Src.length
      ∧ (Parse demo.goCollab demo.okTok "a.go" demo.ifSrc 0 false).res.Src.length
          ≤ (firstSrc demo.goCollab demo.ifSrc false).length
            + 3 * (Parse demo.goCollab demo.okTok "a.go" demo.ifSrc 0 false).fixes.countP
                FixType.isSrcFix :=
  ⟨rfl, rfl, rfl,
    (Parse_fixedSrc_spec demo.scan demo.goCollab demo.okTok "a.go" demo.ifSrc 0 false
      goCollab_fixSrc goCollab_fixAST).2.2.2.1,
    (Parse_fixedSrc_spec demo.scan demo.goCollab demo.okTok "a.go" demo.ifSrc 0 false
      goCollab_fixSrc goCollab_fixAST).2.2.2.2.1⟩

end srcFixes

end parsego
